import Mathlib

/-!
# Conversation memory, input validation and the error log

A shallow embedding of `src/utils/conversationMemory.js` (class `ConversationMemory`), of
`src/utils/validation.js` (class `Validator`) and of the method `getRecentErrors` of
`src/utils/errorHandler.js`.

* JavaScript numbers that are not integers are modelled exactly: a finite non-negative
  IEEE-754 binary64 value `v` is the natural number `v * 2 ^ 1074`, and every arithmetic
  operation is the exact operation followed by rounding to nearest, ties to even.
* JavaScript strings are Lean strings; `length` counts UTF-16 code units.  In the
  validation functions, which cut a string by code units, a string is the list of its
  code units.
* The `Map` held in `this.memory` is an association list in iteration (insertion) order.
* `Date.now()` is an explicit argument of `storeConversation`.
* `Array.prototype.sort` is a stable insertion sort driven by the sign of the comparator.
  For a comparator that is a consistent ordering (by timestamp; by count, as long as no
  count is a string) every stable sort returns this list.  The comparator of
  `getRelevantContext` is not transitive, and for such a comparator the language leaves
  the order to the engine: what is proved of that sort holds of every permutation, or
  else is said to hold of adjacent entries only.
* A call that raises returns `Except.error`; the store is then the one before the call.
* The methods are functions of the store.  To tell what a method changes in place from
  what it creates, the two reading methods are given a second time on a heap of objects
  and shown to compute the same values.
-/

namespace ConversationMemory

/-! ## Numbers -/

/-- A finite non-negative binary64 value `v`, represented by `v * 2 ^ 1074`.  The numbers
of the source are scores, quotients of lengths and their differences: none is negative
before `Math.abs` is taken, and none comes near the overflow threshold `2 ^ 1024`. -/
abbrev F64 := Nat

/-- The number of representation units in `1.0`. -/
def F64.one : F64 := 2 ^ 1074

/-- The number of halvings that bring `q` below `2 ^ 53`, with `fuel` bounding the
number of steps. -/
def F64.excess : Nat → Nat → Nat
  | 0, _ => 0
  | fuel + 1, q => if q < 2 ^ 53 then 0 else F64.excess fuel (q / 2) + 1

/-- The binary exponent of the spacing of binary64 values around `q` units: `0` below
`2 ^ 53` units (subnormals and the first normal binades, spaced one unit apart), and
otherwise the `sh` with `2 ^ 52 ≤ q / 2 ^ sh < 2 ^ 53`. -/
def F64.shift (q : Nat) : Nat := F64.excess q q

/-- The integer nearest to `a / d`, ties to even. -/
def F64.nearest (a d : Nat) : Nat :=
  let q := a / d
  let r := a % d
  if 2 * r < d then q
  else if d < 2 * r then q + 1
  else if q % 2 = 0 then q
  else q + 1

/-- Round the non-negative rational `a / b` (in representation units) to the nearest
binary64 value, ties to even. -/
def F64.round (a b : Nat) : F64 :=
  let sh := F64.shift (a / b)
  F64.nearest a (b * 2 ^ sh) * 2 ^ sh

/-- The values of the binary64 grid: `n * 2 ^ s` with a significand `n` of at most 53
bits, normalised unless `s = 0`. -/
def F64.Rep (g : Nat) : Prop :=
  ∃ n s, g = n * 2 ^ s ∧ n ≤ 2 ^ 53 ∧ (s = 0 ∨ 2 ^ 52 ≤ n)

/-- An integer below `2 ^ 53` as a number. -/
def F64.ofNat (n : Nat) : F64 := n * F64.one

/-- The decimal literal `n / d` of the source text, e.g. `0.4` is `F64.lit 4 10`. -/
def F64.lit (n d : Nat) : F64 := F64.round (n * F64.one) d

/-- JavaScript `x + y`. -/
def F64.add (x y : F64) : F64 := F64.round (x + y) 1

/-- JavaScript `x * y`. -/
def F64.mul (x y : F64) : F64 := F64.round (x * y) F64.one

/-- JavaScript `x / y` for `y` non-zero. -/
def F64.div (x y : F64) : F64 := F64.round (x * F64.one) y

/-- JavaScript `Math.abs(x - y)`. -/
def F64.absSub (x y : F64) : F64 := F64.round (if x ≤ y then y - x else x - y) 1

/-! ## Strings -/

/-- One code point of `String.prototype.toLowerCase`.  ASCII capitals are lowered; the
only two code points outside ASCII whose lower-case form contains an ASCII character,
U+212A (Kelvin sign) and U+0130, are mapped as Unicode prescribes.  Every other code
point outside ASCII is kept as it is: no function of this file tells two such code
points apart unless they are white space, which has no case. -/
def toLowerChar (c : Char) : List Char :=
  if c.isUpper then [c.toLower]
  else if c.toNat = 0x212A then ['k']
  else if c.toNat = 0x0130 then ['i', Char.ofNat 0x0307]
  else [c]

/-- The text of `input.toLowerCase()`. -/
def toLowerCase (s : List Char) : List Char :=
  (s.map toLowerChar).flatten

/-- The text of `s.includes(sub)`. -/
def includes : List Char → List Char → Bool
  | [], sub => sub.isEmpty
  | c :: cs, sub => sub.isPrefixOf (c :: cs) || includes cs sub

/-- The value of `s.length`: the number of UTF-16 code units. -/
def jsLength (s : List Char) : Nat :=
  (s.map fun c => if c.toNat < 0x10000 then 1 else 2).sum

/-- The pieces of `s.split(sep)` for a one-character string `sep`. -/
def splitOnChar (sep : Char) : List Char → List (List Char)
  | [] => [[]]
  | c :: cs =>
    if c = sep then [] :: splitOnChar sep cs
    else
      match splitOnChar sep cs with
      | [] => [[c]]
      | p :: ps => (c :: p) :: ps

/-- Worker of `splitRuns`: `cur` is the current piece, reversed, and `inRun` tells
whether the previous character belonged to a separator run. -/
def splitRunsAux (sep : Char → Bool) : List Char → Bool → List Char → List (List Char)
  | cur, _, [] => [cur.reverse]
  | cur, inRun, c :: cs =>
    if sep c then
      if inRun then splitRunsAux sep [] true cs
      else cur.reverse :: splitRunsAux sep [] true cs
    else splitRunsAux sep (c :: cur) false cs

/-- The pieces of `s.split(/[...]+/)` where the class is `sep`: the text is cut at every
maximal run of separator characters. -/
def splitRuns (sep : Char → Bool) (s : List Char) : List (List Char) :=
  splitRunsAux sep [] false s

/-- The regular-expression class `\w`. -/
def isWordChar (c : Char) : Bool :=
  c.isAlphanum || c = '_'

/-- The regular-expression class `\s`. -/
def isSpaceChar (c : Char) : Bool :=
  let n := c.toNat
  n = 0x09 || n = 0x0A || n = 0x0B || n = 0x0C || n = 0x0D || n = 0x20 || n = 0xA0 ||
  n = 0x1680 || (0x2000 ≤ n && n ≤ 0x200A) || n = 0x2028 || n = 0x2029 || n = 0x202F ||
  n = 0x205F || n = 0x3000 || n = 0xFEFF

/-- The class `[.!?]` of sentence terminators. -/
def isTerminator (c : Char) : Bool :=
  c = '.' || c = '!' || c = '?'

/-! ## Sorting -/

/-- The result of `arr.sort(cmp)`: a stable insertion sort that places `a` before `b`
when `cmp a b ≤ 0`. -/
def jsSort {α : Type} (cmp : α → α → Int) (l : List α) : List α :=
  l.insertionSort (fun a b => cmp a b ≤ 0)

/-! ## Data model -/

inductive Domain
  | business | technology | academic | personal | creative | general
  deriving DecidableEq, Repr

inductive Intent
  | question | request | statement | challenge
  deriving DecidableEq, Repr

inductive Complexity
  | simple | moderate | complex
  deriving DecidableEq, Repr

inductive QuestionType
  | yes_no | what | how | why | when | where | who | open | statement
  deriving DecidableEq, Repr

inductive Sentiment
  | positive | negative | neutral
  deriving DecidableEq, Repr

inductive Quality
  | low | medium | high
  deriving DecidableEq, Repr

/-- The object built by `extractContext`. -/
structure Context where
  domain : Domain
  intent : Intent
  complexity : Complexity
  questionType : QuestionType
  deriving DecidableEq, Repr

/-- The argument `conversation` of `storeConversation`; a text field that is absent
(`undefined`) is `none`. -/
structure Conversation where
  persona : String
  model : String
  userInput : Option String
  aiResponse : Option String
  deriving DecidableEq, Repr

/-- The object `memoryEntry` built by `storeConversation`. -/
structure MemoryEntry where
  id : String
  timestamp : Nat
  persona : String
  model : String
  userInput : String
  aiResponse : String
  context : Context
  sentiment : Sentiment
  topics : List String
  quality : Quality
  deriving DecidableEq, Repr

/-- The `Map` in `this.memory`, in iteration order. -/
abbrev MemoryMap := List (String × MemoryEntry)

/-- The errors the code can raise. -/
inductive JsError
  | typeError
  deriving DecidableEq, Repr

deriving instance DecidableEq for Except

/-! ## Feature extraction -/

/-- The object `domains` of `identifyDomain`, in key order. -/
def domainKeywords : List (Domain × List String) :=
  [(.business, ["business", "company", "startup", "market", "revenue", "profit",
      "investment", "funding"]),
   (.technology, ["tech", "software", "app", "code", "programming", "development", "AI",
      "machine learning"]),
   (.academic, ["research", "study", "thesis", "paper", "hypothesis", "theory", "analysis"]),
   (.personal, ["personal", "life", "career", "relationship", "health", "family"]),
   (.creative, ["creative", "design", "art", "writing", "story", "idea", "concept"])]

/-- The first label of `table` one of whose keywords occurs in `text`, as the loop
`for (const [label, keywords] of Object.entries(table))` finds it. -/
def firstMatch {α : Type} (table : List (α × List String)) (text : List Char) : Option α :=
  (table.find? fun p => p.2.any fun keyword => includes text keyword.data).map Prod.fst

def identifyDomain (input : String) : Domain :=
  let lowerInput := toLowerCase input.data
  (firstMatch domainKeywords lowerInput).getD .general

/-- The object `intents` of `identifyIntent`, in key order. -/
def intentIndicators : List (Intent × List String) :=
  [(.question, ["?", "what", "how", "why", "when", "where", "who"]),
   (.request, ["please", "can you", "could you", "help me", "analyze"]),
   (.statement, [".", "!", "i think", "i believe", "my opinion"]),
   (.challenge, ["challenge", "critique", "disagree", "wrong", "flawed"])]

def identifyIntent (input : String) : Intent :=
  let lowerInput := toLowerCase input.data
  (firstMatch intentIndicators lowerInput).getD .statement

def assessComplexity (input : String) : Complexity :=
  let wordCount := (splitOnChar ' ' input.data).length
  let sentenceCount := (splitRuns isTerminator input.data).length
  let avgWordsPerSentence := F64.div (F64.ofNat wordCount) (F64.ofNat sentenceCount)
  if wordCount < 20 ∨ avgWordsPerSentence < F64.ofNat 8 then .simple
  else if wordCount < 100 ∨ avgWordsPerSentence < F64.ofNat 15 then .moderate
  else .complex

/-- The object `questionTypes` of `identifyQuestionType`, in key order. -/
def questionKeywords : List (QuestionType × List String) :=
  [(.yes_no, ["is", "are", "was", "were", "do", "does", "did", "can", "could", "will",
      "would"]),
   (.what, ["what"]),
   (.how, ["how"]),
   (.why, ["why"]),
   (.when, ["when"]),
   (.where, ["where"]),
   (.who, ["who"])]

def identifyQuestionType (input : String) : QuestionType :=
  if !includes input.data "?".data then .statement
  else
    let lowerInput := toLowerCase input.data
    (firstMatch questionKeywords lowerInput).getD .open

def extractContext (input : String) : Context :=
  { domain := identifyDomain input
    intent := identifyIntent input
    complexity := assessComplexity input
    questionType := identifyQuestionType input }

/-- The array `commonWords` of `extractTopics`. -/
def commonWords : List String :=
  ["the", "a", "an", "and", "or", "but", "in", "on", "at", "to", "for", "of", "with", "by",
   "is", "are", "was", "were", "be", "been", "have", "has", "had", "do", "does", "did",
   "will", "would", "could", "should"]

/-- A value held in the object `wordCount`: a number, or the string that results from
adding `1` to a value inherited from `Object.prototype`. -/
inductive JsCount
  | num (n : Nat)
  | text
  deriving DecidableEq, Repr

/-- One step `wordCount[word] = (wordCount[word] || 0) + 1`.  An own property is read and
written in place.  Without an own property the read falls through to `Object.prototype`:
`constructor` yields a function, so the sum is a string and becomes an own property;
`__proto__` yields an object and the assignment of the resulting string to the accessor
is ignored; any other word reads `undefined` and gets the count `1`. -/
def countWord (wordCount : List (String × JsCount)) (word : String) :
    List (String × JsCount) :=
  match wordCount.lookup word with
  | some (.num n) => wordCount.map fun p => if p.1 = word then (word, .num (n + 1)) else p
  | some .text => wordCount
  | none =>
    if word = "__proto__" then wordCount
    else if word = "constructor" then wordCount ++ [(word, .text)]
    else wordCount ++ [(word, .num 1)]

/-- The value of a decimal numeral. -/
def digitsValue (cs : List Char) : Nat :=
  cs.foldl (fun n c => 10 * n + (c.toNat - '0'.toNat)) 0

/-- Whether a property key is an array index: a canonical decimal numeral below
`2 ^ 32 - 1`. -/
def isArrayIndex (key : String) : Bool :=
  let cs := key.data
  !cs.isEmpty && cs.all Char.isDigit && (cs.length = 1 || cs.head? != some '0') &&
    digitsValue cs < 4294967295

/-- The array `Object.entries(o)`: array-index keys in ascending numeric order, then the
other keys in order of creation. -/
def objectEntries {β : Type} (o : List (String × β)) : List (String × β) :=
  jsSort (fun a b => (digitsValue a.1.data : Int) - digitsValue b.1.data)
      (o.filter fun p => isArrayIndex p.1) ++
    o.filter fun p => !isArrayIndex p.1

/-- The comparator `([,a], [,b]) => b - a`; the difference is `NaN`, which `sort` takes
for `0`, when one of the values is a string. -/
def compareCount (x y : String × JsCount) : Int :=
  match x.2, y.2 with
  | .num a, .num b => (b : Int) - a
  | _, _ => 0

/-- The array `words` of `extractTopics`. -/
def topicWords (input : String) : List String :=
  ((splitRuns isSpaceChar
      ((toLowerCase input.data).filter fun c => isWordChar c || isSpaceChar c)).map
      String.mk).filter fun word => jsLength word.data > 3 && !commonWords.contains word

def extractTopics (input : String) : List String :=
  let words := topicWords input
  let wordCount := words.foldl countWord []
  ((jsSort compareCount (objectEntries wordCount)).take 5).map Prod.fst

/-- The array `positiveWords` of `analyzeSentiment`. -/
def positiveWords : List String :=
  ["good", "great", "excellent", "amazing", "wonderful", "fantastic", "love", "like",
   "enjoy", "happy", "excited", "optimistic"]

/-- The array `negativeWords` of `analyzeSentiment`. -/
def negativeWords : List String :=
  ["bad", "terrible", "awful", "hate", "dislike", "angry", "sad", "disappointed",
   "worried", "concerned", "pessimistic"]

def analyzeSentiment (input : String) : Sentiment :=
  let lowerInput := toLowerCase input.data
  let positiveCount := (positiveWords.filter fun word => includes lowerInput word.data).length
  let negativeCount := (negativeWords.filter fun word => includes lowerInput word.data).length
  if positiveCount > negativeCount then .positive
  else if negativeCount > positiveCount then .negative
  else .neutral

def assessResponseQuality (response : String) : Quality :=
  let length := jsLength response.data
  let hasStructure := includes response.data "##".data || includes response.data "â€¢".data ||
    includes response.data "-".data
  let hasQuestions := includes response.data "?".data
  let hasExamples := includes response.data "for example".data ||
    includes response.data "such as".data
  let qualityScore := (if length > 100 then 1 else 0) + (if hasStructure then 1 else 0) +
    (if hasQuestions then 1 else 0) + (if hasExamples then 1 else 0)
  if qualityScore ≥ 3 then .high
  else if qualityScore ≥ 2 then .medium
  else .low

/-! ## The store -/

/-- The field `maxMemorySize` set by the constructor. -/
def maxMemorySize : Nat := 50

/-- The map after `memory.set(key, value)`: an existing key keeps its place in the
iteration order, a new key goes to the end. -/
def mapSet (memory : MemoryMap) (key : String) (value : MemoryEntry) : MemoryMap :=
  if memory.any (fun p => p.1 = key) then
    memory.map fun p => if p.1 = key then (key, value) else p
  else memory ++ [(key, value)]

/-- The map after `memory.delete(key)`. -/
def mapDelete (memory : MemoryMap) (key : String) : MemoryMap :=
  memory.filter fun p => p.1 ≠ key

/-- The comparator `(a, b) => a[1].timestamp - b[1].timestamp` of `cleanupMemory`. -/
def compareTimestamp (a b : String × MemoryEntry) : Int :=
  (a.2.timestamp : Int) - b.2.timestamp

def cleanupMemory (memory : MemoryMap) : MemoryMap :=
  if memory.length > maxMemorySize then
    let entries := jsSort compareTimestamp memory
    let toDelete := entries.take (entries.length - maxMemorySize)
    toDelete.foldl (fun m p => mapDelete m p.1) memory
  else memory

/-- The receiver of a method call or property read: `undefined` raises a `TypeError`. -/
def receiver (value : Option String) : Except JsError String :=
  match value with
  | some s => .ok s
  | none => .error .typeError

/-- The object literal `memoryEntry` of `storeConversation`.  `extractContext` starts
with `input.toLowerCase()` and `assessResponseQuality` with `response.length`, so an
absent text raises before anything is stored. -/
def memoryEntry (sessionId : String) (conversation : Conversation) (now : Nat) :
    Except JsError MemoryEntry :=
  match receiver conversation.userInput with
  | .error e => .error e
  | .ok userInput =>
    match receiver conversation.aiResponse with
    | .error e => .error e
    | .ok aiResponse =>
      .ok { id := sessionId
            timestamp := now
            persona := conversation.persona
            model := conversation.model
            userInput := userInput
            aiResponse := aiResponse
            context := extractContext userInput
            sentiment := analyzeSentiment userInput
            topics := extractTopics userInput
            quality := assessResponseQuality aiResponse }

/-- The map after `storeConversation(sessionId, conversation)` when `Date.now()` returns
`now`, or the error raised. -/
def storeConversation (memory : MemoryMap) (sessionId : String) (conversation : Conversation)
    (now : Nat) : Except JsError MemoryMap :=
  match memoryEntry sessionId conversation now with
  | .error e => .error e
  | .ok entry => .ok (cleanupMemory (mapSet memory sessionId entry))

def clearMemory (_memory : MemoryMap) : MemoryMap := []

/-! ## Relevance scoring and retrieval -/

/-- The elements of `new Set(xs)` in iteration order: first occurrences. -/
def jsSet {α : Type} [DecidableEq α] : List α → List α
  | [] => []
  | x :: xs => x :: (jsSet xs).filter fun y => y ≠ x

def calculateTopicOverlap (topics1 topics2 : List String) : F64 :=
  if topics1.length = 0 ∨ topics2.length = 0 then 0
  else
    let set1 := jsSet topics1
    let set2 := jsSet topics2
    let intersection := jsSet (set1.filter fun x => x ∈ set2)
    F64.div (F64.ofNat intersection.length) (F64.ofNat (max set1.length set2.length))

def calculateContextSimilarity (context1 context2 : Context) : F64 :=
  let step (similarity : F64) (same : Bool) : F64 :=
    if same then F64.add similarity (F64.lit 25 100) else similarity
  [decide (context1.domain = context2.domain), decide (context1.intent = context2.intent),
    decide (context1.complexity = context2.complexity),
    decide (context1.questionType = context2.questionType)].foldl step 0

/-- The value of `relevanceScore` at the end of one iteration of the loop of
`getRelevantContext`. -/
def relevanceScore (currentContext : Context) (currentTopics : List String)
    (currentSentiment : Sentiment) (currentPersona : String) (memory : MemoryEntry) : F64 :=
  let score0 : F64 := 0
  let topicOverlap := calculateTopicOverlap currentTopics memory.topics
  let score1 := F64.add score0 (F64.mul topicOverlap (F64.lit 4 10))
  let contextSimilarity := calculateContextSimilarity currentContext memory.context
  let score2 := F64.add score1 (F64.mul contextSimilarity (F64.lit 3 10))
  let score3 := if memory.persona = currentPersona then F64.add score2 (F64.lit 2 10) else score2
  if memory.sentiment = currentSentiment then F64.add score3 (F64.lit 1 10) else score3

/-- The score `getRelevantContext(currentInput, currentPersona)` computes for `memory`. -/
def scoreFor (currentInput currentPersona : String) (memory : MemoryEntry) : F64 :=
  relevanceScore (extractContext currentInput) (extractTopics currentInput)
    (analyzeSentiment currentInput) currentPersona memory

/-- The object `{...memory, relevanceScore}`. -/
structure ScoredMemory where
  memory : MemoryEntry
  relevanceScore : F64
  deriving DecidableEq, Repr

/-- The comparator of the sort in `getRelevantContext`; of `scoreDiff` only the sign is
kept. -/
def compareRelevance (a b : ScoredMemory) : Int :=
  if F64.absSub b.relevanceScore a.relevanceScore < F64.lit 1 10 then
    (b.memory.timestamp : Int) - a.memory.timestamp
  else if a.relevanceScore < b.relevanceScore then 1
  else -1

/-- The string a domain is in the source. -/
def Domain.name : Domain → String
  | .business => "business"
  | .technology => "technology"
  | .academic => "academic"
  | .personal => "personal"
  | .creative => "creative"
  | .general => "general"

/-- The value of `xs.sort((a, b) => count(a) - count(b)).pop()` where `count(v)` is the
number of occurrences of `v` in `xs`; `none` stands for `undefined`. -/
def mostFrequent {α : Type} [DecidableEq α] (xs : List α) : Option α :=
  (jsSort (fun a b => ((xs.filter fun v => v = a).length : Int) -
    (xs.filter fun v => v = b).length) xs).getLast?

def generateContextSummary (memories : List ScoredMemory) : String :=
  if memories.length = 0 then ""
  else
    let domains := memories.map fun m => m.memory.context.domain
    let mostCommonDomain := match mostFrequent domains with
      | some d => d.name
      | none => "undefined"
    let recentTopics := ((memories.take 3).map fun m => m.memory.topics).flatten
    let uniqueTopics := (jsSet recentTopics).take 3
    "Previous discussions focused on " ++ mostCommonDomain ++ " topics including " ++
      ", ".intercalate uniqueTopics ++ "."

def generateSuggestions (currentInput : String) (memories : List ScoredMemory) :
    List String :=
  let fromDomain : List String :=
    match memories.head? with
    | some recentMemory =>
      if recentMemory.memory.context.domain = .business then
        ["Consider market competition and customer acquisition costs",
         "Think about scalability and operational challenges"]
      else if recentMemory.memory.context.domain = .technology then
        ["Consider technical debt and maintenance costs",
         "Think about security and performance implications"]
      else []
    | none => []
  let lowerInput := toLowerCase currentInput.data
  let fromInput : List String :=
    if includes lowerInput "startup".data || includes lowerInput "business".data then
      ["What problem does this solve for customers?",
       "How will you acquire your first 100 customers?"]
    else []
  (fromDomain ++ fromInput).take 3

/-- The object returned by `getRelevantContext`. -/
structure RelevantContext where
  relevantMemories : List ScoredMemory
  contextSummary : String
  suggestions : List String
  deriving DecidableEq, Repr

/-- The array `relevantMemories` after the loop of `getRelevantContext`, before the
sort. -/
def scoredAboveThreshold (memory : MemoryMap) (currentInput currentPersona : String) :
    List ScoredMemory :=
  memory.filterMap fun p =>
    let relevanceScore := scoreFor currentInput currentPersona p.2
    if relevanceScore > F64.lit 3 10 then some ⟨p.2, relevanceScore⟩ else none

/-- The array `relevantMemories` after the sort. -/
def sortedRelevant (memory : MemoryMap) (currentInput currentPersona : String) :
    List ScoredMemory :=
  jsSort compareRelevance (scoredAboveThreshold memory currentInput currentPersona)

def getRelevantContext (memory : MemoryMap) (currentInput currentPersona : String) :
    RelevantContext :=
  let relevantMemories := sortedRelevant memory currentInput currentPersona
  { relevantMemories := relevantMemories.take 5
    contextSummary := generateContextSummary relevantMemories
    suggestions := generateSuggestions currentInput relevantMemories }

/-! ## Statistics -/

/-- The object `qualityScores` of `getMemoryStats`. -/
def qualityScores : Quality → Nat
  | .low => 1
  | .medium => 2
  | .high => 3

/-- The object returned by `getMemoryStats`; `none` stands for `undefined` in the two
modes and for `NaN` in `averageQuality`. -/
structure MemoryStats where
  totalMemories : Nat
  mostCommonDomain : Option Domain
  mostUsedPersona : Option String
  averageQuality : Option F64
  deriving DecidableEq, Repr

def getMemoryStats (memory : MemoryMap) : MemoryStats :=
  let memories := memory.map Prod.snd
  let domains := memories.map fun m => m.context.domain
  let personas := memories.map fun m => m.persona
  { totalMemories := memory.length
    mostCommonDomain := mostFrequent domains
    mostUsedPersona := mostFrequent personas
    averageQuality :=
      let total := memories.foldl (fun sum m => sum + qualityScores m.quality) 0
      if memories.length = 0 then none
      else some (F64.div (F64.ofNat total) (F64.ofNat memories.length)) }

/-! ## Sequences of calls -/

/-- One call `storeConversation(sessionId, conversation)` in which both texts are
strings, together with the reading of the clock during the call. -/
structure StoreCall where
  sessionId : String
  persona : String
  model : String
  userInput : String
  aiResponse : String
  now : Nat
  deriving DecidableEq, Repr

/-- The argument `conversation` of the call. -/
def StoreCall.conversation (c : StoreCall) : Conversation :=
  { persona := c.persona, model := c.model, userInput := some c.userInput,
    aiResponse := some c.aiResponse }

/-- The entry that `memoryEntry` builds for the call. -/
def StoreCall.entry (c : StoreCall) : MemoryEntry :=
  { id := c.sessionId, timestamp := c.now, persona := c.persona, model := c.model,
    userInput := c.userInput, aiResponse := c.aiResponse,
    context := extractContext c.userInput, sentiment := analyzeSentiment c.userInput,
    topics := extractTopics c.userInput, quality := assessResponseQuality c.aiResponse }

/-- The largest score the loop of `getRelevantContext` can reach: every component at its
maximum. -/
def topScore : F64 :=
  F64.add (F64.add (F64.add (F64.add 0 (F64.mul F64.one (F64.lit 4 10)))
    (F64.mul F64.one (F64.lit 3 10))) (F64.lit 2 10)) (F64.lit 1 10)

/-- The store after the calls of the list, made in this order. -/
def storeAll (memory : MemoryMap) : List StoreCall → Except JsError MemoryMap
  | [] => .ok memory
  | c :: cs =>
    match storeConversation memory c.sessionId c.conversation c.now with
    | .error e => .error e
    | .ok memory1 => storeAll memory1 cs

/-- The entries the calls of the list create, in the order of the calls. -/
def entriesOf (calls : List StoreCall) : List MemoryEntry :=
  calls.filterMap fun c =>
    match memoryEntry c.sessionId c.conversation c.now with
    | .ok e => some e
    | .error _ => none

/-- The calls that store `n` conversations under the ids `s`, `ss`, `sss`, ... while
the clock reads `now`. -/
def sampleCalls (n now : Nat) : List StoreCall :=
  (List.range n).map fun i =>
    { sessionId := String.mk (List.replicate (i + 1) 's'), persona := "logician",
      model := "llama3:8b", userInput := "note", aiResponse := "ok", now := now }

/-- A call under the session id `id` while the clock reads `now`. -/
def sampleCall (id userInput : String) (now : Nat) : StoreCall :=
  { sessionId := id, persona := "logician", model := "llama3:8b", userInput := userInput,
    aiResponse := "noted", now := now }

/-- The store after fifty conversations were stored while the clock read `1000`. -/
def fullStore : MemoryMap :=
  match storeAll [] (sampleCalls 50 1000) with
  | .ok memory => memory
  | .error _ => []

/-- The second of two calls under one session id overwrites in place: both calls return,
afterwards exactly one entry is under the id and it is the entry built from the second
call, and the second call leaves the keys of the map, hence their number, as the first
call left them. -/
def OverwritesInPlace (memory : MemoryMap) (a b : StoreCall) : Prop :=
  ∃ memory1 memory2 entry,
    storeConversation memory a.sessionId a.conversation a.now = .ok memory1 ∧
    storeConversation memory1 a.sessionId b.conversation b.now = .ok memory2 ∧
    memoryEntry a.sessionId b.conversation b.now = .ok entry ∧
    (memory2.filter fun p => p.1 = a.sessionId) = [(a.sessionId, entry)] ∧
    memory2.length = memory1.length ∧
    memory2.map Prod.fst = memory1.map Prod.fst

/-- The order the comparator of `getRelevantContext` asks for between an entry `a` and an
entry `b` that stands behind it: if the scores differ by at least `0.1` then `a` has the
higher score, and if they differ by less then `a` is not older than `b`.  The difference
is the binary64 value `Math.abs(b.relevanceScore - a.relevanceScore)` of the source. -/
def RankedBefore (a b : ScoredMemory) : Prop :=
  (F64.lit 1 10 ≤ F64.absSub b.relevanceScore a.relevanceScore →
    b.relevanceScore < a.relevanceScore) ∧
  (F64.absSub b.relevanceScore a.relevanceScore < F64.lit 1 10 →
    b.memory.timestamp ≤ a.memory.timestamp)

instance (a b : ScoredMemory) : Decidable (RankedBefore a b) := by
  unfold RankedBefore
  infer_instance

/-- Three conversations stored at the clock readings 1, 2 and 3 whose scores for the
query `is it?` are about 0.6, 0.525 and 0.45: the older, the higher. -/
def cyclicStore : MemoryMap :=
  match storeAll [] [sampleCall "a" "is it?" 1, sampleCall "b" "why?" 2,
      sampleCall "c" "hello" 3] with
  | .ok memory => memory
  | .error _ => []

/-- Among the entries `all`, listed in the order in which they were stored, `r` is more
recent than `d`: its timestamp is larger, or the timestamps are equal and `r` was stored
later.  The entries of `all` are pairwise distinct, as their ids are, so `[d, r]` is a
sublist of `all` exactly when `d` stands before `r`. -/
def MoreRecent (all : List MemoryEntry) (r d : MemoryEntry) : Prop :=
  d.timestamp < r.timestamp ∨ (d.timestamp = r.timestamp ∧ List.Sublist [d, r] all)

instance (all : List MemoryEntry) (r d : MemoryEntry) : Decidable (MoreRecent all r d) := by
  unfold MoreRecent
  infer_instance

/-- The number of entries of `all` that are more recent than `e`. -/
def newerCount (all : List MemoryEntry) (e : MemoryEntry) : Nat :=
  (all.filter fun x => decide (MoreRecent all x e)).length

/-- The entries of `all` that are among the `maxMemorySize` most recent ones, in the
order of storing. -/
def mostRecent (all : List MemoryEntry) : List MemoryEntry :=
  all.filter fun e => decide (newerCount all e < maxMemorySize)

/-- What holds of the store `m` after the entries `all` have been stored one after the
other under pairwise distinct session ids: the store keeps `min (all.length) 50` of
them, each under its id, in the order of storing, and every entry it keeps is more
recent than every entry it has dropped. -/
structure StoreInv (all : List MemoryEntry) (m : MemoryMap) : Prop where
  nodup : (all.map MemoryEntry.id).Nodup
  sub : List.Sublist (m.map Prod.snd) all
  key : ∀ p ∈ m, p.1 = p.2.id
  len : m.length = min all.length maxMemorySize
  recent : ∀ r ∈ m.map Prod.snd, ∀ d ∈ all, d ∉ m.map Prod.snd → MoreRecent all r d


/-! ## Notions used in the statements -/

/-- One of the `keywords` is a substring of `text`. -/
def mentions (keywords : List String) (text : List Char) : Prop :=
  ∃ k ∈ keywords, List.IsInfix k.data text

instance (keywords : List String) (text : List Char) : Decidable (mentions keywords text) := by
  unfold mentions
  infer_instance

/-- The keywords listed under `label` in a keyword table. -/
def keywordsOf {α : Type} [DecidableEq α] (table : List (α × List String)) (label : α) :
    List String :=
  (table.lookup label).getD []

/-- The number of words of `words` that are substrings of `text`. -/
def occurring (words : List String) (text : List Char) : Nat :=
  (words.filter fun w => decide (List.IsInfix w.data text)).length

/-- The first call of the end-to-end scenario: `s1`, persona `market_cynic`. -/
def scenarioFirst (model aiResponse : String) (now : Nat) : StoreCall :=
  { sessionId := "s1", persona := "market_cynic", model := model,
    userInput := "Our startup needs funding and market validation",
    aiResponse := aiResponse, now := now }

/-- The second call of the end-to-end scenario: `s2`, persona `logician`. -/
def scenarioSecond (model aiResponse : String) (now : Nat) : StoreCall :=
  { sessionId := "s2", persona := "logician", model := model,
    userInput := "Completely different topic about gardening",
    aiResponse := aiResponse, now := now }

/-- The distinct elements of a list in the order of their first appearance; `seen` holds
the elements met so far. -/
def firstAppearances {α : Type} [DecidableEq α] : List α → List α → List α
  | _, [] => []
  | seen, x :: xs =>
    if x ∈ seen then firstAppearances seen xs else x :: firstAppearances (x :: seen) xs

/-- The value `v` is at a place of `xs` such that no value before it occurs more often
in `xs` and every value after it occurs less often: `v` occurs most often, and it is the
value at the last place that holds a value occurring most often. -/
def IsLastMode {α : Type} [DecidableEq α] (xs : List α) (v : α) : Prop :=
  ∃ before after, xs = before ++ v :: after ∧
    (∀ y ∈ before, xs.count y ≤ xs.count v) ∧ (∀ y ∈ after, xs.count y < xs.count v)


/-! ## Inputs of the boundary cases -/

/-- A statement of twenty-four words about a market, stored under the persona
`logician`. -/
def boundaryCall (now : Nat) : StoreCall :=
  sampleCall "s1" ("The market for organic vegetables in the northern region grew again " ++
    "during the second quarter according to the figures published by the regional office")
    now

/-- Three sentences of ten words each, every sentence ended by a full stop and the words
separated by single spaces. -/
def threeSentences : String :=
  "one two three four five six seven eight nine ten. " ++
  "one two three four five six seven eight nine ten. " ++
  "one two three four five six seven eight nine ten."

/-- The store after `boundaryCall 5` on the empty store. -/
def boundaryStore : MemoryMap :=
  match storeAll [] [boundaryCall 5] with
  | .ok memory => memory
  | .error _ => []

/-! ## JavaScript values (`src/utils/validation.js`, `src/utils/errorHandler.js`) -/

/-- A JavaScript string as the sequence of its UTF-16 code units; `slice` and `length`
count code units. -/
abbrev JsString := List Nat

/-- The code units of a text. -/
def utf16 (s : String) : JsString :=
  (s.data.map fun c =>
    if c.toNat < 0x10000 then [c.toNat]
    else [0xD800 + (c.toNat - 0x10000) / 0x400, 0xDC00 + (c.toNat - 0x10000) % 0x400]).flatten

/-- A JavaScript number: `NaN`, an infinity, or a finite value given by its sign and its
magnitude. -/
inductive JsNumber
  | nan
  | infinite (negative : Bool)
  | finite (negative : Bool) (magnitude : F64)
  deriving DecidableEq, Repr

/-- The relation `x < y` on numbers; it is false when one of them is `NaN`, and the two
zeros are equal. -/
def JsNumber.lt : JsNumber → JsNumber → Bool
  | .nan, _ => false
  | _, .nan => false
  | .infinite negative, .infinite negative1 => negative && !negative1
  | .infinite negative, .finite _ _ => negative
  | .finite _ _, .infinite negative => !negative
  | .finite false m, .finite false m1 => decide (m < m1)
  | .finite false _, .finite true _ => false
  | .finite true m, .finite false m1 => decide (0 < m ∨ 0 < m1)
  | .finite true m, .finite true m1 => decide (m1 < m)

/-- A non-negative integer below `2 ^ 53` as a number. -/
def JsNumber.ofNat (n : Nat) : JsNumber := .finite false (F64.ofNat n)

/-- A JavaScript value, as far as `typeof`, truthiness and `===` with `undefined` tell
values apart; `object` stands for every object that is not a function, `function` for
every function and `symbol` for every symbol. -/
inductive JsValue
  | undefined
  | null
  | boolean (b : Bool)
  | number (x : JsNumber)
  | bigint (n : Int)
  | string (s : JsString)
  | symbol
  | object
  | function
  deriving DecidableEq, Repr

/-- The result of `typeof value`. -/
def JsValue.typeof : JsValue → String
  | .undefined => "undefined"
  | .null => "object"
  | .boolean _ => "boolean"
  | .number _ => "number"
  | .bigint _ => "bigint"
  | .string _ => "string"
  | .symbol => "symbol"
  | .object => "object"
  | .function => "function"

/-- Whether the value is truthy: `!value` is false. -/
def JsValue.truthy : JsValue → Bool
  | .undefined => false
  | .null => false
  | .boolean b => b
  | .number .nan => false
  | .number (.infinite _) => true
  | .number (.finite _ m) => decide (m ≠ 0)
  | .bigint n => decide (n ≠ 0)
  | .string s => !s.isEmpty
  | .symbol => true
  | .object => true
  | .function => true

/-- The code units of a value that is a string. -/
def JsValue.text : JsValue → JsString
  | .string s => s
  | _ => []

/-- White space and line terminators, the code units that `trim` removes. -/
def isWhiteSpace (u : Nat) : Bool :=
  u = 0x09 || u = 0x0A || u = 0x0B || u = 0x0C || u = 0x0D || u = 0x20 || u = 0xA0 ||
  u = 0x1680 || (0x2000 ≤ u && u ≤ 0x200A) || u = 0x2028 || u = 0x2029 || u = 0x202F ||
  u = 0x205F || u = 0x3000 || u = 0xFEFF

/-- The string `s.trim()`. -/
def trim (s : JsString) : JsString :=
  (s.dropWhile isWhiteSpace).rdropWhile isWhiteSpace

/-! ## Validation -/

/-- The constant `CONFIG.OLLAMA.DEFAULT_MODEL` of `src/config.js`. -/
def CONFIG.OLLAMA.DEFAULT_MODEL : JsString := utf16 "llama3:8b"

/-- The object a validator returns: `{ valid: true }` or `{ valid: false, error }`. -/
inductive ValidationResult
  | ok
  | invalid (error : String)
  deriving DecidableEq, Repr

/-- The field `valid` of a validation result. -/
def ValidationResult.valid : ValidationResult → Bool
  | .ok => true
  | .invalid _ => false

/-- The class `[<>:"/\\|?*]` of `validateModel`. -/
def isInvalidModelUnit (u : Nat) : Bool :=
  u = '<'.toNat || u = '>'.toNat || u = ':'.toNat || u = '"'.toNat || u = '/'.toNat ||
  u = '\\'.toNat || u = '|'.toNat || u = '?'.toNat || u = '*'.toNat

def Validator.validateModel (model : JsValue) : ValidationResult :=
  if !model.truthy || model.typeof != "string" then .invalid "Model name is required"
  else if (trim model.text).length = 0 then .invalid "Model name cannot be empty"
  else if model.text.any isInvalidModelUnit then
    .invalid "Model name contains invalid characters"
  else .ok

/-- A value passed for `temperature` or `maxTokens`: absent, `null`, a number, or the
empty string of an input field left empty.  The callers pass numbers or nothing. -/
inductive NumericParam
  | undefined
  | null
  | number (x : JsNumber)
  | emptyString
  deriving DecidableEq, Repr

/-- The number `Number(value)`. -/
def NumericParam.toNumber : NumericParam → JsNumber
  | .undefined => .nan
  | .null => .finite false 0
  | .number x => x
  | .emptyString => .finite false 0

def Validator.validateTemperature (temperature : NumericParam) : ValidationResult :=
  if temperature = .undefined ∨ temperature = .null then .ok
  else
    let num := temperature.toNumber
    if num = .nan then .invalid "Temperature must be a number"
    else if num.lt (.ofNat 0) || (JsNumber.ofNat 2).lt num then
      .invalid "Temperature must be between 0 and 2"
    else .ok

def Validator.validateMaxTokens (maxTokens : NumericParam) : ValidationResult :=
  if maxTokens = .undefined ∨ maxTokens = .null ∨ maxTokens = .emptyString then .ok
  else
    let num := maxTokens.toNumber
    if num = .nan then .invalid "Max tokens must be a number"
    else if num.lt (.ofNat 1) then .invalid "Max tokens must be a positive number"
    else if (JsNumber.ofNat 100000).lt num then .invalid "Max tokens cannot exceed 100,000"
    else .ok

/-- The array `validPersonas` of `validatePersona`. -/
def validPersonas : List JsString :=
  [utf16 "logician", utf16 "market_cynic", utf16 "lateral_thinker", utf16 "five_whys"]

def Validator.validatePersona (persona : JsValue) : ValidationResult :=
  if !persona.truthy || persona.typeof != "string" then .invalid "Persona is required"
  else if !validPersonas.contains persona.text &&
      !(utf16 "custom_").isPrefixOf persona.text then
    .invalid "Invalid persona selection"
  else .ok

def Validator.validateUserText (text : JsValue) : ValidationResult :=
  if !text.truthy || text.typeof != "string" then .invalid "Text input is required"
  else
    let trimmed := trim text.text
    if trimmed.length = 0 then .invalid "Please enter some text to analyze"
    else if trimmed.length > 10000 then
      .invalid "Text input is too long (max 10,000 characters)"
    else .ok

/-- The class `[\x00-\x08\x0B\x0C\x0E-\x1F\x7F]` of `sanitizeInput`. -/
def isControlUnit (u : Nat) : Bool :=
  u ≤ 0x08 || u = 0x0B || u = 0x0C || (0x0E ≤ u && u ≤ 0x1F) || u = 0x7F

def Validator.sanitizeInput (input : JsValue) : JsString :=
  if input.typeof != "string" then []
  else ((trim input.text).filter fun u => !isControlUnit u).take 10000

/-- The argument `params` of `validateAndSanitize`; an absent property is `undefined`. -/
structure Params where
  userText : JsValue
  model : JsValue
  persona : JsValue
  temperature : NumericParam
  maxTokens : NumericParam
  deriving DecidableEq, Repr

/-- The object `sanitized`; a property that was not set is `none`. -/
structure SanitizedData where
  userText : Option JsString
  model : Option JsString
  persona : Option JsString
  temperature : Option JsNumber
  maxTokens : Option JsNumber
  deriving DecidableEq, Repr

/-- The object returned by `validateAndSanitize`. -/
structure SanitizeResult where
  valid : Bool
  errors : List String
  data : SanitizedData
  deriving DecidableEq, Repr

/-- One block `if (params.x !== undefined) { ... }` of `validateAndSanitize`: on an invalid
value the error is pushed, on a valid one the property of `sanitized` is set by `assign`. -/
def Validator.check (present : Bool) (validation : ValidationResult)
    (assign : SanitizedData → SanitizedData) (state : List String × SanitizedData) :
    List String × SanitizedData :=
  if present then
    match validation with
    | .invalid error => (state.1 ++ [error], state.2)
    | .ok => (state.1, assign state.2)
  else state

def Validator.validateAndSanitize (params : Params) : SanitizeResult :=
  let state0 : List String × SanitizedData :=
    ([], { userText := none, model := none, persona := none, temperature := none,
           maxTokens := none })
  let state1 := Validator.check (params.userText != .undefined)
    (Validator.validateUserText params.userText)
    (fun sanitized => { sanitized with userText := some (Validator.sanitizeInput params.userText) })
    state0
  let state2 := Validator.check (params.model != .undefined)
    (Validator.validateModel params.model)
    (fun sanitized => { sanitized with model := some (trim params.model.text) }) state1
  let state3 := Validator.check (params.persona != .undefined)
    (Validator.validatePersona params.persona)
    (fun sanitized => { sanitized with persona := some params.persona.text }) state2
  let state4 := Validator.check (params.temperature != .undefined)
    (Validator.validateTemperature params.temperature)
    (fun sanitized => { sanitized with temperature := some params.temperature.toNumber }) state3
  let state5 := Validator.check (params.maxTokens != .undefined)
    (Validator.validateMaxTokens params.maxTokens)
    (fun sanitized => { sanitized with maxTokens := some params.maxTokens.toNumber }) state4
  { valid := state5.1.length = 0, errors := state5.1, data := state5.2 }

/-! ## The error log -/

/-- The array `xs.slice(start)` for an integer `start`: a negative `start` counts from the
end. -/
def sliceFrom {α : Type} (xs : List α) (start : Int) : List α :=
  let len : Int := xs.length
  let first := if start < 0 then max (len + start) 0 else min start len
  xs.drop first.toNat

/-- The object `errorEntry` of `logError`. -/
structure ErrorEntry where
  timestamp : String
  message : String
  stack : String
  context : List (String × String)
  severity : String
  deriving DecidableEq, Repr

/-- The value of `getRecentErrors(limit)` for an integer `limit`, and of
`getRecentErrors()` for `none`, where the default `10` applies. -/
def ErrorHandler.getRecentErrors (errorLog : List ErrorEntry) (limit : Option Int) :
    List ErrorEntry :=
  sliceFrom errorLog (-(limit.getD 10))

/-! ## Inputs of the validation cases -/

/-- Valid parameters of a request that names the default model. -/
def defaultModelParams : Params :=
  { userText := .string (utf16 "Is it true?")
    model := .string CONFIG.OLLAMA.DEFAULT_MODEL
    persona := .string (utf16 "logician")
    temperature := .number (.finite false (F64.lit 7 10))
    maxTokens := .undefined }

/-- Parameters whose only property is a `userText` made of one escape character
(U+001B). -/
def escapeParams : Params :=
  { userText := .string [0x1B]
    model := .undefined
    persona := .undefined
    temperature := .undefined
    maxTokens := .undefined }

/-- An error log of two entries. -/
def sampleLog : List ErrorEntry :=
  [{ timestamp := "2024-01-01T00:00:00.000Z", message := "first", stack := "",
     context := [("operation", "generate")], severity := "error" },
   { timestamp := "2024-01-01T00:00:01.000Z", message := "second", stack := "",
     context := [("operation", "get-stats")], severity := "warn" }]

/-! ## The object graph

The two reading methods, `getRelevantContext` and `getMemoryStats`, once more, now on a
heap of objects: the `Map`, the stored entries, their `context` objects and `topics`
arrays, and every array or object that the methods change in place or return.  `push`,
`sort` and `pop` overwrite the array they are called on; `map`, `slice`, `Array.from` and
an object literal with a spread create a new object.  A value that is only read after
its creation (`currentContext`, `currentTopics`, a `Set`) is not placed on the heap.  A
read that finds no object of the expected kind cannot occur on a heap that holds a store;
it yields no value, and what depends on it is skipped. -/

/-- The address of an object. -/
abbrev Ref := Nat

/-- An entry object: the properties of `memoryEntry`, the two object-valued ones held by
reference.  `relevanceScore` is present in the copies that `getRelevantContext` makes, and
absent in a stored entry. -/
structure EntryObject where
  id : String
  timestamp : Nat
  persona : String
  model : String
  userInput : String
  aiResponse : String
  context : Ref
  sentiment : Sentiment
  topics : Ref
  quality : Quality
  relevanceScore : Option F64
  deriving DecidableEq, Repr

/-- An object of the heap. -/
inductive JsObject
  | context (value : Context)
  | strings (items : List String)
  | domains (items : List Domain)
  | entry (value : EntryObject)
  | objects (items : List Ref)
  | map (entries : List (String × Ref))
  deriving DecidableEq, Repr

/-- The heap: the object at address `r` is the element at index `r`. -/
abbrev Heap := List JsObject

/-- A new object: its address and the heap that holds it. -/
def Heap.alloc (h : Heap) (o : JsObject) : Ref × Heap :=
  (h.length, h ++ [o])

/-- The heap after the object at `r` was changed in place to `o`. -/
def Heap.update (h : Heap) (r : Ref) (o : JsObject) : Heap :=
  h.set r o

def Heap.contextAt (h : Heap) (r : Ref) : Option Context :=
  match h[r]? with
  | some (.context value) => some value
  | _ => none

def Heap.stringsAt (h : Heap) (r : Ref) : Option (List String) :=
  match h[r]? with
  | some (.strings items) => some items
  | _ => none

def Heap.domainsAt (h : Heap) (r : Ref) : Option (List Domain) :=
  match h[r]? with
  | some (.domains items) => some items
  | _ => none

def Heap.entryAt (h : Heap) (r : Ref) : Option EntryObject :=
  match h[r]? with
  | some (.entry value) => some value
  | _ => none

def Heap.objectsAt (h : Heap) (r : Ref) : Option (List Ref) :=
  match h[r]? with
  | some (.objects items) => some items
  | _ => none

def Heap.mapAt (h : Heap) (r : Ref) : Option (List (String × Ref)) :=
  match h[r]? with
  | some (.map entries) => some entries
  | _ => none

/-- The entry that an entry object stands for: its properties, with the `context` and the
`topics` it refers to. -/
def Heap.entryValue (h : Heap) (e : EntryObject) : Option MemoryEntry :=
  match h.contextAt e.context, h.stringsAt e.topics with
  | some context, some topics =>
    some { id := e.id, timestamp := e.timestamp, persona := e.persona, model := e.model,
           userInput := e.userInput, aiResponse := e.aiResponse, context := context,
           sentiment := e.sentiment, topics := topics, quality := e.quality }
  | _, _ => none

/-- The stored entry at `r`: an entry object without a `relevanceScore`. -/
def Heap.memoryAt (h : Heap) (r : Ref) : Option MemoryEntry :=
  match h.entryAt r with
  | some e => if e.relevanceScore = none then h.entryValue e else none
  | none => none

/-- The scored copy at `r`: an entry object with a `relevanceScore`. -/
def Heap.scoredAt (h : Heap) (r : Ref) : Option ScoredMemory :=
  match h.entryAt r with
  | some e =>
    match h.entryValue e, e.relevanceScore with
    | some memory, some relevanceScore => some ⟨memory, relevanceScore⟩
    | _, _ => none
  | none => none

/-- The entries that the pairs of a `Map` stand for, when every value is a stored
entry. -/
def Heap.entries (h : Heap) : List (String × Ref) → Option MemoryMap
  | [] => some []
  | p :: rest =>
    match h.memoryAt p.2, Heap.entries h rest with
    | some memory, some tail => some ((p.1, memory) :: tail)
    | _, _ => none

/-- The store that the `Map` at `this` holds: keys, iteration order and entries. -/
def Heap.store (h : Heap) (this : Ref) : Option MemoryMap :=
  match h.mapAt this with
  | some entries => h.entries entries
  | none => none

/-- The scored copies that an array of references stands for. -/
def Heap.scoredList (h : Heap) : List Ref → Option (List ScoredMemory)
  | [] => some []
  | r :: rest =>
    match h.scoredAt r, Heap.scoredList h rest with
    | some scored, some tail => some (scored :: tail)
    | _, _ => none

/-- The object `{ ...memory, relevanceScore }`: a copy of the properties of `memory`,
references included, with the score. -/
def EntryObject.withScore (memory : EntryObject) (relevanceScore : F64) : EntryObject :=
  { memory with relevanceScore := some relevanceScore }

/-- One iteration of the loop of `getRelevantContext` over the pair `p` of the `Map`:
an entry that scores above `0.3` is copied into a new object, which gets the score, and
the copy is pushed onto the array at `relevantMemories`. -/
def scoreEntry (currentContext : Context) (currentTopics : List String)
    (currentSentiment : Sentiment) (currentPersona : String) (relevantMemories : Ref)
    (h : Heap) (p : String × Ref) : Heap :=
  match h.entryAt p.2 with
  | none => h
  | some memory =>
    match h.entryValue memory with
    | none => h
    | some value =>
      let score := relevanceScore currentContext currentTopics currentSentiment
        currentPersona value
      if score > F64.lit 3 10 then
        let copy := h.alloc (.entry (memory.withScore score))
        match copy.2.objectsAt relevantMemories with
        | some items => copy.2.update relevantMemories (.objects (items ++ [copy.1]))
        | none => copy.2
      else h

/-- The comparator of the sort in `getRelevantContext`, on references to scored
copies. -/
def compareRelevanceAt (h : Heap) (a b : Ref) : Int :=
  match h.scoredAt a, h.scoredAt b with
  | some x, some y => compareRelevance x y
  | _, _ => 0

/-- The value of `xs.sort((a, b) => count(a) - count(b)).pop()` for the array at `r`,
and the heap after the two changes in place. -/
def popMostFrequent {α : Type} [DecidableEq α] (read : Heap → Ref → Option (List α))
    (write : List α → JsObject) (h : Heap) (r : Ref) : Option α × Heap :=
  let unsorted := (read h r).getD []
  let sorted := jsSort (fun a b => ((unsorted.filter fun v => v = a).length : Int) -
    (unsorted.filter fun v => v = b).length) unsorted
  let h1 := h.update r (write sorted)
  (((read h1 r).getD []).getLast?, h1.update r (write ((read h1 r).getD []).dropLast))

/-- The method `generateContextSummary(memories)` on the heap: the array `domains` is
created, sorted in place and popped. -/
def generateContextSummaryH (h : Heap) (memories : Ref) : String × Heap :=
  let items := (h.objectsAt memories).getD []
  if items.length = 0 then ("", h)
  else
    let values := items.filterMap h.scoredAt
    let domains := h.alloc (.domains (values.map fun m => m.memory.context.domain))
    let popped := popMostFrequent Heap.domainsAt JsObject.domains domains.2 domains.1
    let mostCommonDomain := match popped.1 with
      | some d => d.name
      | none => "undefined"
    let recentTopics := ((values.take 3).map fun m => m.memory.topics).flatten
    let uniqueTopics := (jsSet recentTopics).take 3
    ("Previous discussions focused on " ++ mostCommonDomain ++ " topics including " ++
      ", ".intercalate uniqueTopics ++ ".", popped.2)

/-- The method `generateSuggestions(currentInput, memories)` on the heap: the array
`suggestions` is created and pushed onto, and its slice is returned. -/
def generateSuggestionsH (h : Heap) (currentInput : String) (memories : Ref) : Ref × Heap :=
  let suggestions := h.alloc (.strings [])
  let items := (suggestions.2.objectsAt memories).getD []
  let fromDomain : List String :=
    match items.head?.bind suggestions.2.scoredAt with
    | some recentMemory =>
      if recentMemory.memory.context.domain = .business then
        ["Consider market competition and customer acquisition costs",
         "Think about scalability and operational challenges"]
      else if recentMemory.memory.context.domain = .technology then
        ["Consider technical debt and maintenance costs",
         "Think about security and performance implications"]
      else []
    | none => []
  let h1 := suggestions.2.update suggestions.1
    (.strings ((suggestions.2.stringsAt suggestions.1).getD [] ++ fromDomain))
  let lowerInput := toLowerCase currentInput.data
  let fromInput : List String :=
    if includes lowerInput "startup".data || includes lowerInput "business".data then
      ["What problem does this solve for customers?",
       "How will you acquire your first 100 customers?"]
    else []
  let h2 := h1.update suggestions.1
    (.strings ((h1.stringsAt suggestions.1).getD [] ++ fromInput))
  h2.alloc (.strings (((h2.stringsAt suggestions.1).getD []).take 3))

/-- The object returned by `getRelevantContext`, its two arrays held by reference. -/
structure RelevantContextObject where
  relevantMemories : Ref
  contextSummary : String
  suggestions : Ref
  deriving DecidableEq, Repr

/-- The method `getRelevantContext` on the heap, `this.memory` being the `Map` at
`this`. -/
def getRelevantContextH (h : Heap) (this : Ref) (currentInput currentPersona : String) :
    RelevantContextObject × Heap :=
  let currentContext := extractContext currentInput
  let currentTopics := extractTopics currentInput
  let currentSentiment := analyzeSentiment currentInput
  let relevantMemories := h.alloc (.objects [])
  let h1 := ((relevantMemories.2.mapAt this).getD []).foldl
    (scoreEntry currentContext currentTopics currentSentiment currentPersona
      relevantMemories.1) relevantMemories.2
  let h2 := h1.update relevantMemories.1
    (.objects (jsSort (compareRelevanceAt h1) ((h1.objectsAt relevantMemories.1).getD [])))
  let top := h2.alloc (.objects (((h2.objectsAt relevantMemories.1).getD []).take 5))
  let summary := generateContextSummaryH top.2 relevantMemories.1
  let suggestions := generateSuggestionsH summary.2 currentInput relevantMemories.1
  ({ relevantMemories := top.1, contextSummary := summary.1, suggestions := suggestions.1 },
    suggestions.2)

/-- The method `getMemoryStats` on the heap: the arrays `domains` and `personas` are
created, sorted in place and popped. -/
def getMemoryStatsH (h : Heap) (this : Ref) : MemoryStats × Heap :=
  let entries := (h.mapAt this).getD []
  let memories := entries.filterMap fun p => h.memoryAt p.2
  let domains := h.alloc (.domains (memories.map fun m => m.context.domain))
  let personas := domains.2.alloc (.strings (memories.map fun m => m.persona))
  let mostCommonDomain := popMostFrequent Heap.domainsAt JsObject.domains personas.2 domains.1
  let mostUsedPersona := popMostFrequent Heap.stringsAt JsObject.strings mostCommonDomain.2
    personas.1
  ({ totalMemories := entries.length
     mostCommonDomain := mostCommonDomain.1
     mostUsedPersona := mostUsedPersona.1
     averageQuality :=
       let total := memories.foldl (fun sum m => sum + qualityScores m.quality) 0
       if memories.length = 0 then none
       else some (F64.div (F64.ofNat total) (F64.ofNat memories.length)) },
    mostUsedPersona.2)

/-- One more entry `p` of a store placed on the heap `state.1`: its `context` object, its
`topics` array and the entry object; `state.2` lists the pairs of the `Map`. -/
def Heap.place (state : Heap × List (String × Ref)) (p : String × MemoryEntry) :
    Heap × List (String × Ref) :=
  let context := state.1.alloc (.context p.2.context)
  let topics := context.2.alloc (.strings p.2.topics)
  let entry := topics.2.alloc (.entry
    { id := p.2.id, timestamp := p.2.timestamp, persona := p.2.persona,
      model := p.2.model, userInput := p.2.userInput, aiResponse := p.2.aiResponse,
      context := context.1, sentiment := p.2.sentiment, topics := topics.1,
      quality := p.2.quality, relevanceScore := none })
  (entry.2, state.2 ++ [(p.1, entry.1)])

/-- A heap that holds the store `memory`, and the address of its `Map`: the entries
placed one after the other, then the `Map`. -/
def Heap.ofStore (memory : MemoryMap) : Heap × Ref :=
  let filled := memory.foldl Heap.place ([], [])
  let this := filled.1.alloc (.map filled.2)
  (this.2, this.1)

/-- The object that `getRelevantContext` has returned, read off the heap. -/
def Heap.relevantContext (h : Heap) (o : RelevantContextObject) : Option RelevantContext :=
  match (h.objectsAt o.relevantMemories).bind h.scoredList, h.stringsAt o.suggestions with
  | some relevantMemories, some suggestions =>
    some { relevantMemories := relevantMemories, contextSummary := o.contextSummary,
           suggestions := suggestions }
  | _, _ => none

/-- Every entry object, `context` object and array of strings of `h` is in `h1`, at its
address and unchanged. -/
def Heap.Preserved (h h1 : Heap) : Prop :=
  ∀ r, (∀ e, h.entryAt r = some e → h1.entryAt r = some e) ∧
    (∀ c, h.contextAt r = some c → h1.contextAt r = some c) ∧
    (∀ s, h.stringsAt r = some s → h1.stringsAt r = some s)


/-! ## Lemmas on rounding -/

theorem F64.excess_spec (fuel q : Nat) (h : q < 2 ^ (53 + fuel)) :
    (q < 2 ^ 53 ∧ F64.excess fuel q = 0) ∨
      (0 < F64.excess fuel q ∧ 2 ^ (52 + F64.excess fuel q) ≤ q ∧
        q < 2 ^ (53 + F64.excess fuel q)) := by
  induction fuel generalizing q with
  | zero => exact Or.inl ⟨h, rfl⟩
  | succ fuel ih =>
    rw [F64.excess]
    by_cases hq : q < 2 ^ 53
    · rw [if_pos hq]; exact Or.inl ⟨hq, rfl⟩
    · rw [if_neg hq]
      have h2 : q / 2 < 2 ^ (53 + fuel) := by
        have : 2 ^ (53 + (fuel + 1)) = 2 * 2 ^ (53 + fuel) := by
          rw [← Nat.add_assoc, Nat.pow_succ, Nat.mul_comm]
        omega
      right
      rcases ih (q / 2) h2 with ⟨h3, h4⟩ | ⟨h3, h4, h5⟩
      · rw [h4]
        refine ⟨by omega, ?_, ?_⟩
        · show 2 ^ 53 ≤ q
          omega
        · show q < 2 ^ 54
          omega
      · have e1 : 2 ^ (52 + (F64.excess fuel (q / 2) + 1)) =
            2 * 2 ^ (52 + F64.excess fuel (q / 2)) := by
          rw [← Nat.add_assoc, Nat.pow_succ, Nat.mul_comm]
        have e2 : 2 ^ (53 + (F64.excess fuel (q / 2) + 1)) =
            2 * 2 ^ (53 + F64.excess fuel (q / 2)) := by
          rw [← Nat.add_assoc, Nat.pow_succ, Nat.mul_comm]
        refine ⟨by omega, ?_, ?_⟩
        · rw [e1]; omega
        · rw [e2]; omega

theorem F64.shift_spec (q : Nat) :
    (q < 2 ^ 53 ∧ F64.shift q = 0) ∨
      (0 < F64.shift q ∧ 2 ^ (52 + F64.shift q) ≤ q ∧ q < 2 ^ (53 + F64.shift q)) := by
  apply F64.excess_spec
  calc q < 2 ^ q := Nat.lt_two_pow q
    _ ≤ 2 ^ (53 + q) := Nat.pow_le_pow_right (by omega) (by omega)

theorem F64.shift_eq_zero {q : Nat} (h : q < 2 ^ 53) : F64.shift q = 0 := by
  rcases F64.shift_spec q with ⟨-, h1⟩ | ⟨h1, h2, -⟩
  · exact h1
  · have : 2 ^ 53 ≤ 2 ^ (52 + F64.shift q) := Nat.pow_le_pow_right (by omega) (by omega)
    omega

theorem F64.shift_eq {q s : Nat} (hs : 0 < s) (h1 : 2 ^ (52 + s) ≤ q) (h2 : q < 2 ^ (53 + s)) :
    F64.shift q = s := by
  rcases F64.shift_spec q with ⟨h3, -⟩ | ⟨h3, h4, h5⟩
  · have : 2 ^ 53 ≤ 2 ^ (52 + s) := Nat.pow_le_pow_right (by omega) (by omega)
    omega
  · have h6 : 52 + s < 53 + F64.shift q :=
      (Nat.pow_lt_pow_iff_right (by omega)).mp (Nat.lt_of_le_of_lt h1 h5)
    have h7 : 52 + F64.shift q < 53 + s :=
      (Nat.pow_lt_pow_iff_right (by omega)).mp (Nat.lt_of_le_of_lt h4 h2)
    omega

theorem F64.shift_mono {p q : Nat} (h : p ≤ q) : F64.shift p ≤ F64.shift q := by
  rcases F64.shift_spec p with ⟨-, h1⟩ | ⟨h1, h2, -⟩
  · omega
  · rcases F64.shift_spec q with ⟨h3, -⟩ | ⟨-, -, h5⟩
    · have : 2 ^ 53 ≤ 2 ^ (52 + F64.shift p) := Nat.pow_le_pow_right (by omega) (by omega)
      omega
    · have h6 : 52 + F64.shift p < 53 + F64.shift q :=
        (Nat.pow_lt_pow_iff_right (by omega)).mp
          (Nat.lt_of_le_of_lt h2 (Nat.lt_of_le_of_lt h h5))
      omega

theorem F64.le_nearest (a d : Nat) : a / d ≤ F64.nearest a d := by
  unfold F64.nearest
  simp only
  split_ifs <;> omega

theorem F64.nearest_le (a d : Nat) : F64.nearest a d ≤ a / d + 1 := by
  unfold F64.nearest
  simp only
  split_ifs <;> omega

theorem F64.nearest_mul (n d : Nat) (hd : 0 < d) : F64.nearest (n * d) d = n := by
  unfold F64.nearest
  simp only
  rw [Nat.mul_mod_left, Nat.mul_div_cancel _ hd, if_pos (by omega)]

theorem F64.div_le_div_of_mul_le {a b c d : Nat} (hd : 0 < d) (hb : 0 < b)
    (h : a * d ≤ c * b) : a / b ≤ c / d := by
  rw [Nat.le_div_iff_mul_le hd]
  have h1 : a / b * b ≤ a := Nat.div_mul_le_self a b
  have h2 : a / b * d * b ≤ c * b := by
    calc a / b * d * b = a / b * b * d := by ring
      _ ≤ a * d := Nat.mul_le_mul_right d h1
      _ ≤ c * b := h
  exact Nat.le_of_mul_le_mul_right h2 hb

theorem F64.nearest_mono {a d c e : Nat} (hd : 0 < d) (he : 0 < e) (h : a * e ≤ c * d) :
    F64.nearest a d ≤ F64.nearest c e := by
  have hq : a / d ≤ c / e := F64.div_le_div_of_mul_le he hd h
  rcases Nat.lt_or_ge (a / d) (c / e) with hlt | hge
  · calc F64.nearest a d ≤ a / d + 1 := F64.nearest_le a d
      _ ≤ c / e := hlt
      _ ≤ F64.nearest c e := F64.le_nearest c e
  · have hqe : a / d = c / e := Nat.le_antisymm hq hge
    have ha : d * (a / d) + a % d = a := Nat.div_add_mod a d
    have hc : e * (c / e) + c % e = c := Nat.div_add_mod c e
    have hr : a % d * e ≤ c % e * d := by
      have h1 : (d * (a / d) + a % d) * e ≤ (e * (c / e) + c % e) * d := by rw [ha, hc]; exact h
      rw [hqe] at h1
      have h2 : (d * (c / e) + a % d) * e = d * (c / e) * e + a % d * e := by ring
      have h3 : (e * (c / e) + c % e) * d = d * (c / e) * e + c % e * d := by ring
      omega
    unfold F64.nearest
    simp only
    rw [hqe]
    by_cases h1 : 2 * (a % d) < d
    · rw [if_pos h1]
      split_ifs <;> omega
    · rw [if_neg h1]
      have h2 : ¬ 2 * (c % e) < e := by
        intro h2
        have h3 : 2 * (c % e) * d < e * d := Nat.mul_lt_mul_of_pos_right h2 hd
        have h4 : d * e ≤ 2 * (a % d) * e := Nat.mul_le_mul_right e (Nat.le_of_not_lt h1)
        have h5 : 2 * (a % d) * e = 2 * (a % d * e) := by ring
        have h6 : 2 * (c % e) * d = 2 * (c % e * d) := by ring
        have h7 : d * e = e * d := Nat.mul_comm d e
        omega
      rw [if_neg h2]
      by_cases h3 : e < 2 * (c % e)
      · rw [if_pos h3]
        split_ifs <;> omega
      · rw [if_neg h3]
        have h4 : 2 * (c % e) = e := by omega
        have h5 : ¬ d < 2 * (a % d) := by
          intro h5
          have h6 : d * e < 2 * (a % d) * e := Nat.mul_lt_mul_of_pos_right h5 he
          have h7 : 2 * (a % d) * e = 2 * (a % d * e) := by ring
          have h8 : 2 * (c % e * d) = 2 * (c % e) * d := by ring
          have h9 : 2 * (c % e) * d = e * d := by rw [h4]
          have h10 : d * e = e * d := Nat.mul_comm d e
          omega
        rw [if_neg h5]

theorem F64.round_mono {a b c d : Nat} (hb : 0 < b) (hd : 0 < d) (h : a * d ≤ c * b) :
    F64.round a b ≤ F64.round c d := by
  have hq : a / b ≤ c / d := F64.div_le_div_of_mul_le hd hb h
  have hs : F64.shift (a / b) ≤ F64.shift (c / d) := F64.shift_mono hq
  unfold F64.round
  simp only
  rcases Nat.lt_or_ge (F64.shift (a / b)) (F64.shift (c / d)) with hlt | hge
  · have hx : F64.nearest a (b * 2 ^ F64.shift (a / b)) ≤ 2 ^ 53 := by
      have h1 := F64.nearest_le a (b * 2 ^ F64.shift (a / b))
      have h2 : a / (b * 2 ^ F64.shift (a / b)) < 2 ^ 53 := by
        rw [← Nat.div_div_eq_div_mul]
        rcases F64.shift_spec (a / b) with ⟨h3, h4⟩ | ⟨-, -, h5⟩
        · rw [h4, Nat.pow_zero, Nat.div_one]; exact h3
        · rw [Nat.div_lt_iff_lt_mul (Nat.pos_pow_of_pos _ (by omega)), ← Nat.pow_add]
          exact h5
      omega
    have hy : 2 ^ 52 ≤ F64.nearest c (d * 2 ^ F64.shift (c / d)) := by
      have h1 := F64.le_nearest c (d * 2 ^ F64.shift (c / d))
      have h2 : 2 ^ 52 ≤ c / (d * 2 ^ F64.shift (c / d)) := by
        rw [← Nat.div_div_eq_div_mul]
        rcases F64.shift_spec (c / d) with ⟨-, h4⟩ | ⟨-, h5, -⟩
        · omega
        · rw [Nat.le_div_iff_mul_le (Nat.pos_pow_of_pos _ (by omega)), ← Nat.pow_add]
          exact h5
      omega
    calc F64.nearest a (b * 2 ^ F64.shift (a / b)) * 2 ^ F64.shift (a / b)
        ≤ 2 ^ 53 * 2 ^ F64.shift (a / b) := Nat.mul_le_mul_right _ hx
      _ = 2 ^ (53 + F64.shift (a / b)) := (Nat.pow_add 2 53 _).symm
      _ ≤ 2 ^ (52 + F64.shift (c / d)) := Nat.pow_le_pow_right (by omega) (by omega)
      _ = 2 ^ 52 * 2 ^ F64.shift (c / d) := Nat.pow_add 2 52 _
      _ ≤ F64.nearest c (d * 2 ^ F64.shift (c / d)) * 2 ^ F64.shift (c / d) :=
        Nat.mul_le_mul_right _ hy
  · have he : F64.shift (a / b) = F64.shift (c / d) := Nat.le_antisymm hs hge
    rw [he]
    apply Nat.mul_le_mul_right
    apply F64.nearest_mono (Nat.mul_pos hb (Nat.pos_pow_of_pos _ (by omega)))
      (Nat.mul_pos hd (Nat.pos_pow_of_pos _ (by omega)))
    calc a * (d * 2 ^ F64.shift (c / d)) = a * d * 2 ^ F64.shift (c / d) := by ring
      _ ≤ c * b * 2 ^ F64.shift (c / d) := Nat.mul_le_mul_right _ h
      _ = c * (b * 2 ^ F64.shift (c / d)) := by ring

theorem F64.round_rep (a b : Nat) : F64.Rep (F64.round a b) := by
  refine ⟨F64.nearest a (b * 2 ^ F64.shift (a / b)), F64.shift (a / b), rfl, ?_, ?_⟩
  · have h1 := F64.nearest_le a (b * 2 ^ F64.shift (a / b))
    have h2 : a / (b * 2 ^ F64.shift (a / b)) < 2 ^ 53 := by
      rw [← Nat.div_div_eq_div_mul]
      rcases F64.shift_spec (a / b) with ⟨h3, h4⟩ | ⟨-, -, h5⟩
      · rw [h4, Nat.pow_zero, Nat.div_one]; exact h3
      · rw [Nat.div_lt_iff_lt_mul (Nat.pos_pow_of_pos _ (by omega)), ← Nat.pow_add]
        exact h5
    omega
  · rcases F64.shift_spec (a / b) with ⟨-, h4⟩ | ⟨-, h5, -⟩
    · exact Or.inl h4
    · right
      have h1 := F64.le_nearest a (b * 2 ^ F64.shift (a / b))
      have h2 : 2 ^ 52 ≤ a / (b * 2 ^ F64.shift (a / b)) := by
        rw [← Nat.div_div_eq_div_mul,
          Nat.le_div_iff_mul_le (Nat.pos_pow_of_pos _ (by omega)), ← Nat.pow_add]
        exact h5
      omega

theorem F64.round_of_rep {g : Nat} (h : F64.Rep g) : F64.round g 1 = g := by
  obtain ⟨n, s, rfl, hn, hs⟩ := h
  unfold F64.round
  simp only [Nat.div_one, Nat.one_mul]
  rcases Nat.lt_or_ge n (2 ^ 53) with hlt | hge
  · rcases hs with rfl | hs
    · rw [Nat.pow_zero, Nat.mul_one, F64.shift_eq_zero hlt, Nat.pow_zero, Nat.mul_one]
      have := F64.nearest_mul n 1 (by omega)
      rwa [Nat.mul_one] at this
    · rcases Nat.eq_zero_or_pos s with rfl | hpos
      · rw [Nat.pow_zero, Nat.mul_one, F64.shift_eq_zero hlt, Nat.pow_zero, Nat.mul_one]
        have := F64.nearest_mul n 1 (by omega)
        rwa [Nat.mul_one] at this
      · have hsh : F64.shift (n * 2 ^ s) = s := by
          apply F64.shift_eq hpos
          · rw [Nat.pow_add]; exact Nat.mul_le_mul_right _ hs
          · rw [Nat.pow_add]
            exact Nat.mul_lt_mul_of_pos_right hlt (Nat.pos_pow_of_pos _ (by omega))
        rw [hsh, F64.nearest_mul n _ (Nat.pos_pow_of_pos _ (by omega))]
  · have hn53 : n = 2 ^ 53 := Nat.le_antisymm hn hge
    subst hn53
    have hg : 2 ^ 53 * 2 ^ s = 2 ^ 52 * 2 ^ (s + 1) := by
      rw [← Nat.pow_add, ← Nat.pow_add]; congr 1; omega
    have hsh : F64.shift (2 ^ 53 * 2 ^ s) = s + 1 := by
      apply F64.shift_eq (by omega)
      · rw [← Nat.pow_add]; exact Nat.pow_le_pow_right (by omega) (by omega)
      · rw [← Nat.pow_add]; exact Nat.pow_lt_pow_right (by omega) (by omega)
    rw [hsh, hg, F64.nearest_mul _ _ (Nat.pos_pow_of_pos _ (by omega))]

theorem F64.add_zero_round (a b : Nat) : F64.add 0 (F64.round a b) = F64.round a b := by
  unfold F64.add
  rw [Nat.zero_add]
  exact F64.round_of_rep (F64.round_rep a b)

/-! ## Lemmas on the map operations -/

theorem foldl_mapDelete (del : List (String × MemoryEntry)) (m : MemoryMap) :
    del.foldl (fun m p => mapDelete m p.1) m =
      m.filter fun p => decide (p.1 ∉ del.map Prod.fst) := by
  induction del generalizing m with
  | nil => simp
  | cons d ds ih =>
    rw [List.foldl_cons, ih]
    simp only [mapDelete, List.filter_filter]
    congr 1
    funext p
    by_cases h : p.1 = d.1 <;> simp [h]

theorem jsSort_perm {α : Type} (cmp : α → α → Int) (l : List α) : (jsSort cmp l).Perm l :=
  List.perm_insertionSort _ l

theorem jsSort_length {α : Type} (cmp : α → α → Int) (l : List α) :
    (jsSort cmp l).length = l.length :=
  (jsSort_perm cmp l).length_eq

theorem length_filter_take_drop {α : Type} (P : α → Bool) (k : Nat) (l : List α) :
    (l.filter P).length = ((l.take k).filter P).length + ((l.drop k).filter P).length := by
  rw [← List.length_append, ← List.filter_append, List.take_append_drop]

theorem cleanupMemory_length_le (m : MemoryMap) : (cleanupMemory m).length ≤ maxMemorySize := by
  unfold cleanupMemory
  split
  · rename_i hlen
    simp only [foldl_mapDelete]
    generalize hs : jsSort compareTimestamp m = sorted
    generalize hk : sorted.length - maxMemorySize = k
    generalize hP : (fun p : String × MemoryEntry =>
      decide (p.1 ∉ (sorted.take k).map Prod.fst)) = P
    have hperm : sorted.Perm m := hs ▸ jsSort_perm _ _
    rw [← (hperm.filter P).length_eq, length_filter_take_drop P k sorted]
    have h2 : (sorted.take k).filter P = [] := by
      rw [List.filter_eq_nil_iff]
      intro p hp
      subst hP
      simp only [decide_eq_true_eq, not_not]
      exact List.mem_map_of_mem _ hp
    have h3 := List.length_filter_le P (sorted.drop k)
    have h4 : (sorted.drop k).length = maxMemorySize := by
      rw [List.length_drop, ← hk, hperm.length_eq]
      omega
    rw [h2]
    simp only [List.length_nil, zero_add]
    omega
  · omega

/-- In iteration order, `x` is met before `y`, or the two have different timestamps:
what a stable sort by timestamp keeps. -/
theorem head_jsSort_compareTimestamp (l : MemoryMap) (x : String × MemoryEntry)
    (t : MemoryMap) (h : jsSort compareTimestamp l = x :: t) :
    x ∈ l ∧ ∀ y ∈ l, x.2.timestamp < y.2.timestamp ∨
      (x.2.timestamp = y.2.timestamp ∧ (y = x ∨ List.Sublist [x, y] l)) := by
  induction l generalizing x t with
  | nil => simp [jsSort] at h
  | cons a l ih =>
    simp only [jsSort, List.insertionSort] at h
    cases hs : List.insertionSort (fun a b => compareTimestamp a b ≤ 0) l with
    | nil =>
      have hl : l = [] := by
        have := (List.perm_insertionSort (fun a b => compareTimestamp a b ≤ 0) l).length_eq
        rw [hs] at this
        exact List.length_eq_zero.mp this.symm
      subst hl
      rw [hs, List.orderedInsert] at h
      obtain ⟨rfl, -⟩ := List.cons.inj h
      simp
    | cons b s =>
      obtain ⟨hb, hmin⟩ := ih b s hs
      rw [hs, List.orderedInsert] at h
      split at h
      · rename_i hab
        obtain ⟨rfl, -⟩ := List.cons.inj h
        refine ⟨List.mem_cons_self _ _, ?_⟩
        intro y hy
        rcases List.mem_cons.mp hy with rfl | hy
        · exact Or.inr ⟨rfl, Or.inl rfl⟩
        · have hab' : a.2.timestamp ≤ b.2.timestamp := by
            simp only [compareTimestamp] at hab; omega
          have hy2 : List.Sublist [a, y] (a :: l) :=
            (List.singleton_sublist.mpr hy).cons₂ a
          rcases hmin y hy with h1 | ⟨h1, -⟩
          · exact Or.inl (by omega)
          · rcases Nat.lt_or_ge a.2.timestamp y.2.timestamp with h2 | h2
            · exact Or.inl h2
            · exact Or.inr ⟨by omega, Or.inr hy2⟩
      · rename_i hab
        obtain ⟨rfl, -⟩ := List.cons.inj h
        refine ⟨List.mem_cons_of_mem _ hb, ?_⟩
        intro y hy
        rcases List.mem_cons.mp hy with rfl | hy
        · left
          simp only [compareTimestamp] at hab; omega
        · rcases hmin y hy with h1 | ⟨h1, h2⟩
          · exact Or.inl h1
          · refine Or.inr ⟨h1, ?_⟩
            rcases h2 with h2 | h2
            · exact Or.inl h2
            · exact Or.inr (h2.cons a)

theorem mapSet_of_not_mem (m : MemoryMap) (k : String) (e : MemoryEntry)
    (h : k ∉ m.map Prod.fst) : mapSet m k e = m ++ [(k, e)] := by
  unfold mapSet
  rw [if_neg]
  simp only [List.any_eq_true, decide_eq_true_eq, not_exists, not_and]
  intro p hp hk
  exact h (hk ▸ List.mem_map_of_mem Prod.fst hp)

theorem cleanupMemory_of_le (m : MemoryMap) (h : m.length ≤ maxMemorySize) :
    cleanupMemory m = m := by
  unfold cleanupMemory
  rw [if_neg (by omega)]

theorem cleanupMemory_of_succ (m : MemoryMap) (h : m.length = maxMemorySize + 1) :
    ∃ x t, jsSort compareTimestamp m = x :: t ∧
      cleanupMemory m = m.filter fun p => decide (p.1 ≠ x.1) := by
  have hlen := jsSort_length compareTimestamp m
  cases hs : jsSort compareTimestamp m with
  | nil => rw [hs] at hlen; simp at hlen; omega
  | cons x t =>
    refine ⟨x, t, rfl, ?_⟩
    unfold cleanupMemory
    rw [if_pos (by omega), hs]
    have h1 : (x :: t).length - maxMemorySize = 1 := by
      rw [← hs, hlen, h]; omega
    simp only [h1, List.take_succ_cons, List.take_zero, List.foldl_cons, List.foldl_nil,
      mapDelete]

theorem length_filter_key_ne (m : MemoryMap) (x : String × MemoryEntry) (hx : x ∈ m)
    (hnd : (m.map Prod.fst).Nodup) :
    (m.filter fun p => decide (p.1 ≠ x.1)).length + 1 = m.length := by
  induction m with
  | nil => simp at hx
  | cons a m ih =>
    rw [List.map_cons, List.nodup_cons] at hnd
    rcases List.mem_cons.mp hx with hxa | hxm
    · subst hxa
      have hrest : (m.filter fun p => decide (p.1 ≠ x.1)) = m := by
        rw [List.filter_eq_self]
        intro p hp
        simp only [ne_eq, decide_eq_true_eq]
        intro hpx
        exact hnd.1 (hpx ▸ List.mem_map_of_mem Prod.fst hp)
      rw [List.filter_cons_of_neg (by simp), hrest, List.length_cons]
    · have hax : a.1 ≠ x.1 := by
        intro hax
        exact hnd.1 (hax ▸ List.mem_map_of_mem Prod.fst hxm)
      have h1 := ih hxm hnd.2
      rw [List.filter_cons_of_pos (by simpa using hax), List.length_cons, List.length_cons]
      omega

theorem eq_of_key_eq (m : MemoryMap) (hnd : (m.map Prod.fst).Nodup)
    (p q : String × MemoryEntry) (hp : p ∈ m) (hq : q ∈ m) (h : p.1 = q.1) : p = q := by
  induction m with
  | nil => simp at hp
  | cons a m ih =>
    rw [List.map_cons, List.nodup_cons] at hnd
    rcases List.mem_cons.mp hp with hpa | hpm <;> rcases List.mem_cons.mp hq with hqa | hqm
    · rw [hpa, hqa]
    · exact absurd (hpa ▸ h ▸ List.mem_map_of_mem Prod.fst hqm) hnd.1
    · exact absurd (hqa ▸ h ▸ List.mem_map_of_mem Prod.fst hpm) hnd.1
    · exact ih hnd.2 hpm hqm

theorem StoreInv.keys_eq {all : List MemoryEntry} {m : MemoryMap} (inv : StoreInv all m) :
    m.map Prod.fst = (m.map Prod.snd).map MemoryEntry.id := by
  rw [List.map_map]
  exact List.map_congr_left fun p hp => inv.key p hp

theorem StoreInv.keys_nodup {all : List MemoryEntry} {m : MemoryMap} (inv : StoreInv all m) :
    (m.map Prod.fst).Nodup := by
  rw [inv.keys_eq]
  exact (inv.sub.map MemoryEntry.id).nodup inv.nodup

theorem StoreInv.empty : StoreInv [] [] where
  nodup := List.nodup_nil
  sub := List.Sublist.slnil
  key := by simp
  len := by simp
  recent := by simp

theorem MoreRecent.append {all : List MemoryEntry} {r d : MemoryEntry}
    (h : MoreRecent all r d) (e : MemoryEntry) : MoreRecent (all ++ [e]) r d := by
  rcases h with h | ⟨h1, h2⟩
  · exact Or.inl h
  · exact Or.inr ⟨h1, h2.trans (List.sublist_append_left all [e])⟩

theorem StoreInv.step {all : List MemoryEntry} {m : MemoryMap} (inv : StoreInv all m)
    (e : MemoryEntry) (he : e.id ∉ all.map MemoryEntry.id) :
    StoreInv (all ++ [e]) (cleanupMemory (mapSet m e.id e)) := by
  have hk : e.id ∉ m.map Prod.fst := by
    rw [inv.keys_eq]
    intro h
    exact he ((inv.sub.map MemoryEntry.id).subset h)
  rw [mapSet_of_not_mem _ _ _ hk]
  have hsub1 : List.Sublist ((m ++ [(e.id, e)]).map Prod.snd) (all ++ [e]) := by
    rw [List.map_append]
    exact inv.sub.append (List.Sublist.refl [e])
  have hnd : ((all ++ [e]).map MemoryEntry.id).Nodup := by
    rw [List.map_append, List.nodup_append]
    refine ⟨inv.nodup, List.nodup_singleton _, ?_⟩
    intro a ha hb
    rw [List.map_singleton, List.mem_singleton] at hb
    exact he (hb ▸ ha)
  have hkey1 : ∀ p ∈ m ++ [(e.id, e)], p.1 = p.2.id := by
    intro p hp
    rcases List.mem_append.mp hp with hp | hp
    · exact inv.key p hp
    · rw [List.mem_singleton] at hp
      rw [hp]
  have hlenm : m.length = min all.length maxMemorySize := inv.len
  have hlen1 : (m ++ [(e.id, e)]).length = m.length + 1 := by simp
  have hlenall : (all ++ [e]).length = all.length + 1 := by simp
  have hle : m.length ≤ all.length := by
    have := inv.sub.length_le
    rwa [List.length_map] at this
  by_cases hcap : (m ++ [(e.id, e)]).length ≤ maxMemorySize
  · rw [cleanupMemory_of_le _ hcap]
    have hall : m.map Prod.snd = all := by
      apply inv.sub.eq_of_length
      rw [List.length_map, hlenm, Nat.min_def]
      split
      · rfl
      · rw [Nat.min_def] at hlenm
        split at hlenm <;> omega
    refine ⟨hnd, hsub1, hkey1, ?_, ?_⟩
    · rw [hlen1, hlenall, Nat.min_def]
      have : m.length = all.length := by rw [← hall, List.length_map]
      split <;> omega
    · intro r _ d hd hdn
      exfalso
      apply hdn
      rw [List.map_append, hall]
      exact hd
  · have h51 : (m ++ [(e.id, e)]).length = maxMemorySize + 1 := by
      rw [Nat.min_def] at hlenm
      split at hlenm <;> omega
    obtain ⟨x, t, hs, hc⟩ := cleanupMemory_of_succ _ h51
    obtain ⟨hxm, hmin⟩ := head_jsSort_compareTimestamp _ x t hs
    rw [hc]
    have hkeys1 : (m ++ [(e.id, e)]).map Prod.fst =
        ((m ++ [(e.id, e)]).map Prod.snd).map MemoryEntry.id := by
      rw [List.map_map]
      exact List.map_congr_left fun p hp => hkey1 p hp
    have hnd1 : ((m ++ [(e.id, e)]).map Prod.fst).Nodup := by
      rw [hkeys1]
      exact (hsub1.map MemoryEntry.id).nodup hnd
    have hfl := length_filter_key_ne _ x hxm hnd1
    refine ⟨hnd, ?_, ?_, ?_, ?_⟩
    · exact ((List.filter_sublist _).map Prod.snd).trans hsub1
    · intro p hp
      exact hkey1 p (List.mem_filter.mp hp).1
    · rw [hlenall, Nat.min_def]
      rw [Nat.min_def] at hlenm
      split <;> split at hlenm <;> omega
    · intro r hr d hd hdn
      obtain ⟨pr, hpr, rfl⟩ := List.mem_map.mp hr
      obtain ⟨hpr1, hprx⟩ := List.mem_filter.mp hpr
      simp only [ne_eq, decide_eq_true_eq] at hprx
      have hprne : pr ≠ x := fun h => hprx (h ▸ rfl)
      by_cases hdx : d = x.2
      · subst hdx
        rcases hmin pr hpr1 with h1 | ⟨h1, h2⟩
        · exact Or.inl h1
        · rcases h2 with h2 | h2
          · exact absurd h2 hprne
          · exact Or.inr ⟨h1, (h2.map Prod.snd).trans hsub1⟩
      · have hdm1 : d ∉ (m ++ [(e.id, e)]).map Prod.snd := by
          intro hdin
          obtain ⟨pd, hpd, rfl⟩ := List.mem_map.mp hdin
          apply hdn
          refine List.mem_map.mpr ⟨pd, List.mem_filter.mpr ⟨hpd, ?_⟩, rfl⟩
          simp only [ne_eq, decide_eq_true_eq]
          intro hkx
          exact hdx (congrArg Prod.snd (eq_of_key_eq _ hnd1 pd x hpd hxm hkx))
        rw [List.map_append, List.mem_append, not_or] at hdm1
        obtain ⟨hdm, hde⟩ := hdm1
        rw [List.map_singleton, List.mem_singleton] at hde
        have hdall : d ∈ all := by
          rcases List.mem_append.mp hd with h | h
          · exact h
          · exact absurd (List.mem_singleton.mp h) hde
        rcases List.mem_append.mp hpr1 with hprm | hpre
        · exact (inv.recent pr.2 (List.mem_map_of_mem Prod.snd hprm) d hdall hdm).append e
        · rw [List.mem_singleton] at hpre
          subst hpre
          have hxm' : x ∈ m := by
            rcases List.mem_append.mp hxm with h | h
            · exact h
            · exact absurd (List.mem_singleton.mp h).symm hprne
          have h1 := inv.recent x.2 (List.mem_map_of_mem Prod.snd hxm') d hdall hdm
          have h2 := hmin (e.id, e) hpr1
          have h3 : d.timestamp ≤ x.2.timestamp := by
            rcases h1 with h | ⟨h, -⟩ <;> omega
          have h4 : x.2.timestamp ≤ e.timestamp := by
            rcases h2 with h | ⟨h, -⟩ <;> simp only at h <;> omega
          rcases Nat.lt_or_ge d.timestamp e.timestamp with h5 | h5
          · exact Or.inl h5
          · refine Or.inr ⟨by simp only; omega, ?_⟩
            exact (List.singleton_sublist.mpr hdall).append (List.Sublist.refl [e])

theorem memoryEntry_call (c : StoreCall) :
    ∃ e, memoryEntry c.sessionId c.conversation c.now = .ok e ∧ e.id = c.sessionId :=
  ⟨_, rfl, rfl⟩

theorem storeAll_inv (calls : List StoreCall) (all : List MemoryEntry) (m : MemoryMap)
    (inv : StoreInv all m) (hnd : (calls.map StoreCall.sessionId).Nodup)
    (hnew : ∀ c ∈ calls, c.sessionId ∉ all.map MemoryEntry.id) :
    ∃ m', storeAll m calls = .ok m' ∧ StoreInv (all ++ entriesOf calls) m' := by
  induction calls generalizing all m with
  | nil => exact ⟨m, rfl, by simpa [entriesOf] using inv⟩
  | cons c cs ih =>
    obtain ⟨e, he, hid⟩ := memoryEntry_call c
    rw [List.map_cons, List.nodup_cons] at hnd
    have hstep := inv.step e (by rw [hid]; exact hnew c (List.mem_cons_self _ _))
    have hnew' : ∀ c' ∈ cs, c'.sessionId ∉ (all ++ [e]).map MemoryEntry.id := by
      intro c' hc' hmem
      rw [List.map_append, List.mem_append] at hmem
      rcases hmem with h | h
      · exact hnew c' (List.mem_cons_of_mem _ hc') h
      · rw [List.map_singleton, List.mem_singleton, hid] at h
        exact hnd.1 (h ▸ List.mem_map_of_mem StoreCall.sessionId hc')
    obtain ⟨m', hm', inv'⟩ := ih (all ++ [e]) _ hstep hnd.2 hnew'
    refine ⟨m', ?_, ?_⟩
    · rw [storeAll, storeConversation, he]
      simp only
      rw [← hid]
      exact hm'
    · have : entriesOf (c :: cs) = e :: entriesOf cs := by
        simp only [entriesOf, List.filterMap_cons, he]
      rw [this]
      simpa using inv'

theorem entriesOf_length (calls : List StoreCall) : (entriesOf calls).length = calls.length := by
  induction calls with
  | nil => rfl
  | cons c cs ih =>
    obtain ⟨e, he, -⟩ := memoryEntry_call c
    simp only [entriesOf, List.filterMap_cons, he, List.length_cons] at ih ⊢
    rw [ih]

theorem not_pair_sublist_swap {α : Type} {l : List α} (hl : l.Nodup) {a b : α}
    (h1 : List.Sublist [a, b] l) (h2 : List.Sublist [b, a] l) : False := by
  induction l with
  | nil => cases h1
  | cons c l ih =>
    rw [List.nodup_cons] at hl
    cases h1 with
    | cons _ h1 =>
      cases h2 with
      | cons _ h2 => exact ih hl.2 h1 h2
      | cons₂ _ h2 =>
        exact hl.1 ((h1.subset) (by simp))
    | cons₂ _ h1 =>
      cases h2 with
      | cons _ h2 => exact hl.1 ((h2.subset) (by simp))
      | cons₂ _ h2 => exact hl.1 (List.singleton_sublist.mp h1)

theorem MoreRecent.asymm {all : List MemoryEntry} (hall : all.Nodup) {r d : MemoryEntry}
    (h1 : MoreRecent all r d) (h2 : MoreRecent all d r) : False := by
  rcases h1 with h1 | ⟨h1, s1⟩ <;> rcases h2 with h2 | ⟨h2, s2⟩
  · omega
  · omega
  · omega
  · exact not_pair_sublist_swap hall s1 s2

theorem StoreInv.mem_iff {all : List MemoryEntry} {m : MemoryMap} (inv : StoreInv all m)
    (e : MemoryEntry) (he : e ∈ all) :
    e ∈ m.map Prod.snd ↔ newerCount all e < maxMemorySize := by
  have hall : all.Nodup := List.Nodup.of_map _ inv.nodup
  have hR : (m.map Prod.snd).Nodup := inv.sub.nodup hall
  have hlenR : (m.map Prod.snd).length = min all.length maxMemorySize := by
    rw [List.length_map]; exact inv.len
  have hF : (all.filter fun x => decide (MoreRecent all x e)).Nodup := hall.filter _
  constructor
  · intro hmem
    have hsub : (all.filter fun x => decide (MoreRecent all x e)) ⊆ (m.map Prod.snd).erase e := by
      intro x hx
      obtain ⟨hxall, hxe⟩ := List.mem_filter.mp hx
      simp only [decide_eq_true_eq] at hxe
      rw [hR.mem_erase_iff]
      refine ⟨?_, ?_⟩
      · rintro rfl
        exact hxe.asymm hall hxe
      · by_contra hxm
        exact (inv.recent e hmem x hxall hxm).asymm hall hxe
    have h1 := (List.subperm_of_subset hF hsub).length_le
    rw [List.length_erase_of_mem hmem, hlenR] at h1
    have h2 : 0 < (m.map Prod.snd).length := List.length_pos_of_mem hmem
    rw [hlenR] at h2
    unfold newerCount
    have h3 : min all.length maxMemorySize ≤ maxMemorySize := Nat.min_le_right _ _
    omega
  · intro hcount
    by_contra hmem
    have hsub : m.map Prod.snd ⊆ all.filter fun x => decide (MoreRecent all x e) := by
      intro r hr
      exact List.mem_filter.mpr ⟨inv.sub.subset hr, by
        simpa using inv.recent r hr e he hmem⟩
    have h1 := (List.subperm_of_subset hR hsub).length_le
    rw [hlenR] at h1
    unfold newerCount at hcount
    rcases Nat.lt_or_ge maxMemorySize all.length with h2 | h2
    · rw [Nat.min_eq_right (Nat.le_of_lt h2)] at h1
      omega
    · apply hmem
      have : m.map Prod.snd = all := by
        apply inv.sub.eq_of_length
        rw [hlenR]
        exact Nat.min_eq_left h2
      rw [this]
      exact he

theorem sublist_eq_filter_mem {α : Type} [DecidableEq α] {s l : List α}
    (h : List.Sublist s l) (hl : l.Nodup) : s = l.filter fun x => decide (x ∈ s) := by
  induction h with
  | slnil => rfl
  | @cons s l a h ih =>
    rw [List.nodup_cons] at hl
    have ha : a ∉ s := fun hmem => hl.1 (h.subset hmem)
    rw [List.filter_cons_of_neg (by simpa using ha)]
    exact ih hl.2
  | @cons₂ s l a h ih =>
    rw [List.nodup_cons] at hl
    rw [List.filter_cons_of_pos (by simp)]
    congr 1
    have := ih hl.2
    conv_lhs => rw [this]
    apply List.filter_congr
    intro x hx
    have hxa : x ≠ a := fun hxa => hl.1 (hxa ▸ hx)
    simp [hxa]

theorem StoreInv.eq_mostRecent {all : List MemoryEntry} {m : MemoryMap}
    (inv : StoreInv all m) : m = (mostRecent all).map fun e => (e.id, e) := by
  have hall : all.Nodup := List.Nodup.of_map _ inv.nodup
  have hsnd : m.map Prod.snd = mostRecent all := by
    rw [sublist_eq_filter_mem inv.sub hall]
    unfold mostRecent
    apply List.filter_congr
    intro e he
    exact decide_eq_decide.mpr (inv.mem_iff e he)
  rw [← hsnd, List.map_map]
  conv_lhs => rw [← List.map_id m]
  exact List.map_congr_left fun p hp => by
    simp only [Function.comp, id]
    rw [← inv.key p hp]

theorem mapSet_of_mem (m : MemoryMap) (k : String) (e : MemoryEntry)
    (h : k ∈ m.map Prod.fst) :
    mapSet m k e = m.map fun p => if p.1 = k then (k, e) else p := by
  unfold mapSet
  rw [if_pos]
  obtain ⟨p, hp, hk⟩ := List.mem_map.mp h
  simp only [List.any_eq_true, decide_eq_true_eq]
  exact ⟨p, hp, hk⟩

theorem map_fst_replace (m : MemoryMap) (k : String) (e : MemoryEntry) :
    (m.map fun p => if p.1 = k then (k, e) else p).map Prod.fst = m.map Prod.fst := by
  rw [List.map_map]
  apply List.map_congr_left
  intro p _
  simp only [Function.comp]
  split
  · rename_i h; exact h.symm
  · rfl

theorem filter_key_replace (m : MemoryMap) (k : String) (e : MemoryEntry)
    (hk : k ∈ m.map Prod.fst) (hnd : (m.map Prod.fst).Nodup) :
    ((m.map fun p => if p.1 = k then (k, e) else p).filter fun p => decide (p.1 = k)) =
      [(k, e)] := by
  induction m with
  | nil => simp at hk
  | cons a m ih =>
    rw [List.map_cons, List.nodup_cons] at hnd
    rw [List.map_cons]
    by_cases hak : a.1 = k
    · rw [if_pos hak, List.filter_cons_of_pos (by simp)]
      congr 1
      rw [List.filter_eq_nil_iff]
      intro q hq
      obtain ⟨p, hp, rfl⟩ := List.mem_map.mp hq
      have hpk : p.1 ≠ k := fun hpk => hnd.1 (hak ▸ hpk ▸ List.mem_map_of_mem Prod.fst hp)
      simp [hpk]
    · rw [if_neg hak, List.filter_cons_of_neg (by simpa using hak)]
      apply ih _ hnd.2
      rcases List.mem_cons.mp hk with h | h
      · exact absurd h.symm hak
      · exact h

/-- The second of two calls under one id: the id is a key since the first call. -/
theorem storeConversation_existing (m : MemoryMap) (k : String) (e : MemoryEntry)
    (hk : k ∈ m.map Prod.fst) (hnd : (m.map Prod.fst).Nodup)
    (hcap : m.length ≤ maxMemorySize) :
    ((cleanupMemory (mapSet m k e)).filter fun p => decide (p.1 = k)) = [(k, e)] ∧
      (cleanupMemory (mapSet m k e)).length = m.length ∧
      (cleanupMemory (mapSet m k e)).map Prod.fst = m.map Prod.fst := by
  rw [mapSet_of_mem m k e hk, cleanupMemory_of_le _ (by rw [List.length_map]; exact hcap)]
  exact ⟨filter_key_replace m k e hk hnd, List.length_map _ _, map_fst_replace m k e⟩

/-- The first of two calls under one id leaves the id in the map unless the call evicts
the entry it has just stored. -/
theorem storeConversation_keeps_key (m : MemoryMap) (k : String) (e : MemoryEntry)
    (hnd : (m.map Prod.fst).Nodup) (hcap : m.length ≤ maxMemorySize)
    (hkeep : k ∈ m.map Prod.fst ∨ m.length < maxMemorySize ∨
      ∃ p ∈ m, p.2.timestamp ≤ e.timestamp) :
    k ∈ (cleanupMemory (mapSet m k e)).map Prod.fst ∧
      ((cleanupMemory (mapSet m k e)).map Prod.fst).Nodup := by
  by_cases hk : k ∈ m.map Prod.fst
  · rw [mapSet_of_mem m k e hk, cleanupMemory_of_le _ (by rw [List.length_map]; exact hcap),
      map_fst_replace]
    exact ⟨hk, hnd⟩
  · rw [mapSet_of_not_mem m k e hk]
    have hnd1 : ((m ++ [(k, e)]).map Prod.fst).Nodup := by
      rw [List.map_append, List.nodup_append]
      refine ⟨hnd, List.nodup_singleton _, ?_⟩
      intro a ha hb
      rw [List.map_singleton, List.mem_singleton] at hb
      have hb1 : a = k := hb
      exact hk (hb1 ▸ ha)
    have hmem : (k, e) ∈ m ++ [(k, e)] := List.mem_append_right _ (List.mem_singleton_self _)
    by_cases hlt : m.length < maxMemorySize
    · rw [cleanupMemory_of_le _ (by rw [List.length_append, List.length_singleton]; omega)]
      exact ⟨List.mem_map_of_mem Prod.fst hmem, hnd1⟩
    · obtain ⟨p, hp, hpt⟩ : ∃ p ∈ m, p.2.timestamp ≤ e.timestamp := by
        rcases hkeep with h | h | h
        · exact absurd h hk
        · exact absurd h hlt
        · exact h
      obtain ⟨x, t, hs, hc⟩ := cleanupMemory_of_succ (m ++ [(k, e)])
        (by rw [List.length_append, List.length_singleton]; omega)
      obtain ⟨hxm, hmin⟩ := head_jsSort_compareTimestamp _ x t hs
      rw [hc]
      have hxk : x.1 ≠ k := by
        intro hxk
        have hx : x = (k, e) := eq_of_key_eq _ hnd1 x (k, e) hxm hmem hxk
        subst hx
        rcases hmin p (List.mem_append_left _ hp) with h | ⟨-, h | h⟩
        · simp only at h; omega
        · have hp1 : p.1 = k := congrArg Prod.fst h
          exact hk (hp1 ▸ List.mem_map_of_mem Prod.fst hp)
        · exact not_pair_sublist_swap (List.Nodup.of_map _ hnd1) h
            ((List.singleton_sublist.mpr hp).append (List.Sublist.refl [(k, e)]))
      refine ⟨?_, ?_⟩
      · exact List.mem_map_of_mem Prod.fst
          (List.mem_filter.mpr ⟨hmem, by simpa using fun h : k = x.1 => hxk h.symm⟩)
      · exact ((List.filter_sublist _).map Prod.fst).nodup hnd1

/-! ## Lemmas on topics and scores -/

theorem countWord_keys_nodup (wordCount : List (String × JsCount)) (word : String)
    (h : (wordCount.map Prod.fst).Nodup) : ((countWord wordCount word).map Prod.fst).Nodup := by
  unfold countWord
  have happ : ∀ v : JsCount, wordCount.lookup word = none →
      ((wordCount ++ [(word, v)]).map Prod.fst).Nodup := by
    intro v hnone
    rw [List.lookup_eq_none_iff] at hnone
    rw [List.map_append, List.nodup_append]
    refine ⟨h, List.nodup_singleton _, ?_⟩
    intro a ha hb
    rw [List.map_singleton, List.mem_singleton] at hb
    obtain ⟨p, hp, hpa⟩ := List.mem_map.mp ha
    have := hnone p hp
    have hb1 : a = word := hb
    rw [← hpa, ] at hb1
    simp [hb1] at this
  split
  · rename_i n _
    have : (wordCount.map fun p => if p.1 = word then (word, JsCount.num (n + 1)) else p).map
        Prod.fst = wordCount.map Prod.fst := by
      rw [List.map_map]
      apply List.map_congr_left
      intro p _
      simp only [Function.comp]
      split
      · rename_i hp; exact hp.symm
      · rfl
    rw [this]
    exact h
  · exact h
  · rename_i hnone
    split
    · exact h
    · split
      · exact happ _ hnone
      · exact happ _ hnone

theorem foldl_countWord_keys_nodup (words : List String) (wordCount : List (String × JsCount))
    (h : (wordCount.map Prod.fst).Nodup) :
    ((words.foldl countWord wordCount).map Prod.fst).Nodup := by
  induction words generalizing wordCount with
  | nil => exact h
  | cons w ws ih => exact ih _ (countWord_keys_nodup wordCount w h)

theorem objectEntries_perm {β : Type} (o : List (String × β)) : (objectEntries o).Perm o := by
  unfold objectEntries
  exact ((jsSort_perm _ _).append (List.Perm.refl _)).trans (List.filter_append_perm _ o)

theorem extractTopics_nodup (input : String) : (extractTopics input).Nodup := by
  unfold extractTopics
  simp only
  apply ((List.take_sublist 5 _).map Prod.fst).nodup
  rw [((jsSort_perm compareCount _).trans (objectEntries_perm _)).map Prod.fst |>.nodup_iff]
  exact foldl_countWord_keys_nodup _ [] List.nodup_nil

theorem extractTopics_length_le (input : String) : (extractTopics input).length ≤ 5 := by
  unfold extractTopics
  simp only [List.length_map, List.length_take]
  omega

theorem jsSet_of_nodup {α : Type} [DecidableEq α] {l : List α} (h : l.Nodup) : jsSet l = l := by
  induction l with
  | nil => rfl
  | cons a l ih =>
    rw [List.nodup_cons] at h
    rw [jsSet, ih h.2, List.filter_eq_self.mpr]
    intro x hx
    simp only [ne_eq, decide_eq_true_eq]
    rintro rfl
    exact h.1 hx

theorem F64.mul_comm (x y : F64) : F64.mul x y = F64.mul y x := by
  unfold F64.mul
  rw [Nat.mul_comm]

theorem calculateContextSimilarity_eq (context1 context2 : Context) :
    calculateContextSimilarity context1 context2 =
      ([decide (context1.domain = context2.domain), decide (context1.intent = context2.intent),
        decide (context1.complexity = context2.complexity),
        decide (context1.questionType = context2.questionType)].count true) *
        F64.lit 25 100 := by
  unfold calculateContextSimilarity
  generalize decide (context1.domain = context2.domain) = b1
  generalize decide (context1.intent = context2.intent) = b2
  generalize decide (context1.complexity = context2.complexity) = b3
  generalize decide (context1.questionType = context2.questionType) = b4
  revert b1 b2 b3 b4
  decide!

theorem calculateTopicOverlap_of_nodup {topics1 topics2 : List String}
    (h1 : topics1.Nodup) (h2 : topics2.Nodup) :
    calculateTopicOverlap topics1 topics2 =
      if topics1 = [] ∨ topics2 = [] then 0
      else F64.div (F64.ofNat (topics1.filter fun x => decide (x ∈ topics2)).length)
        (F64.ofNat (max topics1.length topics2.length)) := by
  unfold calculateTopicOverlap
  simp only [List.length_eq_zero]
  rw [jsSet_of_nodup h1, jsSet_of_nodup h2, jsSet_of_nodup (h1.filter _)]

theorem memoryEntry_entry (c : StoreCall) :
    memoryEntry c.sessionId c.conversation c.now = .ok c.entry := rfl

theorem memoryEntry_topics {sessionId : String} {conversation : Conversation} {now : Nat}
    {memory : MemoryEntry} (h : memoryEntry sessionId conversation now = .ok memory) :
    memory.topics = extractTopics memory.userInput := by
  unfold memoryEntry receiver at h
  cases hu : conversation.userInput with
  | none => rw [hu] at h; cases h
  | some u =>
    cases hr : conversation.aiResponse with
    | none => rw [hu, hr] at h; cases h
    | some r =>
      rw [hu, hr] at h
      simp only [Except.ok.injEq] at h
      rw [← h]

theorem F64.add_mono {x y x1 y1 : F64} (hx : x ≤ x1) (hy : y ≤ y1) :
    F64.add x y ≤ F64.add x1 y1 := by
  unfold F64.add
  apply F64.round_mono (by omega) (by omega)
  exact Nat.mul_le_mul_right 1 (Nat.add_le_add hx hy)

theorem F64.le_add (x y z : F64) : F64.add x y ≤ F64.add (F64.add x y) z := by
  have h : F64.round (F64.add x y) 1 = F64.add x y := F64.round_of_rep (F64.round_rep _ _)
  calc F64.add x y = F64.round (F64.add x y) 1 := h.symm
    _ ≤ F64.round (F64.add x y + z) 1 :=
      F64.round_mono (by omega) (by omega) (Nat.mul_le_mul_right 1 (Nat.le_add_right _ _))

theorem F64.one_pos : 0 < F64.one := by
  unfold F64.one
  apply Nat.pos_pow_of_pos
  omega

theorem F64.mul_mono {x y x1 y1 : F64} (hx : x ≤ x1) (hy : y ≤ y1) :
    F64.mul x y ≤ F64.mul x1 y1 := by
  unfold F64.mul
  apply F64.round_mono F64.one_pos F64.one_pos
  exact Nat.mul_le_mul_right _ (Nat.mul_le_mul hx hy)

theorem jsSet_length_le {α : Type} [DecidableEq α] (l : List α) : (jsSet l).length ≤ l.length := by
  induction l with
  | nil => exact Nat.le_refl _
  | cons a l ih =>
    rw [jsSet, List.length_cons, List.length_cons]
    have := List.length_filter_le (fun y => decide (y ≠ a)) (jsSet l)
    omega

theorem jsSet_length_pos {α : Type} [DecidableEq α] {l : List α} (h : l.length ≠ 0) :
    0 < (jsSet l).length := by
  cases l with
  | nil => exact absurd rfl h
  | cons a l => rw [jsSet, List.length_cons]; omega

theorem calculateTopicOverlap_le_one (topics1 topics2 : List String) :
    calculateTopicOverlap topics1 topics2 ≤ F64.one := by
  unfold calculateTopicOverlap
  split
  · exact Nat.zero_le _
  · rename_i h
    simp only [not_or] at h
    have hpos := jsSet_length_pos h.1
    have hlen : (jsSet ((jsSet topics1).filter fun x => decide (x ∈ jsSet topics2))).length ≤
        max (jsSet topics1).length (jsSet topics2).length := by
      have h1 := jsSet_length_le ((jsSet topics1).filter fun x => decide (x ∈ jsSet topics2))
      have h2 := List.length_filter_le (fun x => decide (x ∈ jsSet topics2)) (jsSet topics1)
      have h3 := Nat.le_max_left (jsSet topics1).length (jsSet topics2).length
      omega
    have hone : F64.round F64.one 1 = F64.one := by decide!
    have hmax : 0 < max (jsSet topics1).length (jsSet topics2).length :=
      Nat.lt_of_lt_of_le hpos (Nat.le_max_left _ _)
    have hU : 0 < F64.one := F64.one_pos
    simp only
    rw [← hone]
    unfold F64.div F64.ofNat
    apply F64.round_mono (Nat.mul_pos hmax hU) (by omega)
    rw [Nat.mul_one]
    calc (jsSet ((jsSet topics1).filter fun x => decide (x ∈ jsSet topics2))).length *
          F64.one * F64.one
        ≤ max (jsSet topics1).length (jsSet topics2).length * F64.one * F64.one :=
          Nat.mul_le_mul_right _ (Nat.mul_le_mul_right _ hlen)
      _ = F64.one * (max (jsSet topics1).length (jsSet topics2).length * F64.one) := by ring

theorem calculateContextSimilarity_le_one (context1 context2 : Context) :
    calculateContextSimilarity context1 context2 ≤ F64.one := by
  unfold calculateContextSimilarity
  generalize decide (context1.domain = context2.domain) = b1
  generalize decide (context1.intent = context2.intent) = b2
  generalize decide (context1.complexity = context2.complexity) = b3
  generalize decide (context1.questionType = context2.questionType) = b4
  revert b1 b2 b3 b4
  decide!

theorem relevanceScore_le_topScore (currentContext : Context) (currentTopics : List String)
    (currentSentiment : Sentiment) (currentPersona : String) (memory : MemoryEntry) :
    relevanceScore currentContext currentTopics currentSentiment currentPersona memory ≤
      topScore := by
  have hto := calculateTopicOverlap_le_one currentTopics memory.topics
  have hcs := calculateContextSimilarity_le_one currentContext memory.context
  unfold relevanceScore topScore
  simp only
  generalize calculateTopicOverlap currentTopics memory.topics = tov at hto ⊢
  generalize calculateContextSimilarity currentContext memory.context = cs at hcs ⊢
  generalize F64.lit 4 10 = w4
  generalize F64.lit 3 10 = w3
  generalize F64.lit 2 10 = w2
  generalize F64.lit 1 10 = w1
  generalize F64.one = u at hto hcs ⊢
  have h1 : F64.add 0 (F64.mul tov w4) ≤ F64.add 0 (F64.mul u w4) :=
    F64.add_mono (Nat.le_refl 0) (F64.mul_mono hto (Nat.le_refl w4))
  have h2 : F64.add (F64.add 0 (F64.mul tov w4)) (F64.mul cs w3) ≤
      F64.add (F64.add 0 (F64.mul u w4)) (F64.mul u w3) :=
    F64.add_mono h1 (F64.mul_mono hcs (Nat.le_refl w3))
  have k3 : F64.add (F64.add 0 (F64.mul u w4)) (F64.mul u w3) ≤
      F64.add (F64.add (F64.add 0 (F64.mul u w4)) (F64.mul u w3)) w2 := F64.le_add _ _ _
  have k4 : F64.add (F64.add (F64.add 0 (F64.mul u w4)) (F64.mul u w3)) w2 ≤
      F64.add (F64.add (F64.add (F64.add 0 (F64.mul u w4)) (F64.mul u w3)) w2) w1 :=
    F64.le_add _ _ _
  have h3 : F64.add (F64.add (F64.add 0 (F64.mul tov w4)) (F64.mul cs w3)) w2 ≤
      F64.add (F64.add (F64.add 0 (F64.mul u w4)) (F64.mul u w3)) w2 :=
    F64.add_mono h2 (Nat.le_refl w2)
  split
  · split
    · exact F64.add_mono h3 (Nat.le_refl w1)
    · exact F64.add_mono (Nat.le_trans h2 k3) (Nat.le_refl w1)
  · split
    · exact Nat.le_trans h3 k4
    · exact Nat.le_trans h2 (Nat.le_trans k3 k4)

/-! ## Lemmas on retrieval -/

theorem scoredAboveThreshold_eq (memory : MemoryMap) (currentInput currentPersona : String) :
    scoredAboveThreshold memory currentInput currentPersona =
      (memory.filter fun p =>
        decide (F64.lit 3 10 < scoreFor currentInput currentPersona p.2)).map
        fun p => ⟨p.2, scoreFor currentInput currentPersona p.2⟩ := by
  unfold scoredAboveThreshold
  induction memory with
  | nil => rfl
  | cons p m ih =>
    rw [List.filterMap_cons]
    by_cases h : F64.lit 3 10 < scoreFor currentInput currentPersona p.2
    · rw [List.filter_cons_of_pos (by simpa using h), List.map_cons, ← ih]
      simp only [gt_iff_lt, h, if_true]
    · rw [List.filter_cons_of_neg (by simpa using h), ← ih]
      simp only [gt_iff_lt, h, if_false]

theorem sortedRelevant_length (memory : MemoryMap) (currentInput currentPersona : String) :
    (sortedRelevant memory currentInput currentPersona).length =
      (memory.filter fun p =>
        decide (F64.lit 3 10 < scoreFor currentInput currentPersona p.2)).length := by
  unfold sortedRelevant
  rw [jsSort_length, scoredAboveThreshold_eq, List.length_map]

theorem mem_sortedRelevant (memory : MemoryMap) (currentInput currentPersona : String)
    (x : ScoredMemory) :
    x ∈ sortedRelevant memory currentInput currentPersona ↔
      ∃ p ∈ memory, F64.lit 3 10 < scoreFor currentInput currentPersona p.2 ∧
        x = ⟨p.2, scoreFor currentInput currentPersona p.2⟩ := by
  unfold sortedRelevant
  rw [(jsSort_perm _ _).mem_iff, scoredAboveThreshold_eq, List.mem_map]
  constructor
  · rintro ⟨p, hp, rfl⟩
    obtain ⟨hp1, hp2⟩ := List.mem_filter.mp hp
    exact ⟨p, hp1, by simpa using hp2, rfl⟩
  · rintro ⟨p, hp1, hp2, rfl⟩
    exact ⟨p, List.mem_filter.mpr ⟨hp1, by simpa using hp2⟩, rfl⟩

theorem chain'_orderedInsert {α : Type} (r : α → α → Prop) [DecidableRel r]
    (htot : ∀ a b, r a b ∨ r b a) (a : α) (l : List α) (h : l.Chain' r) :
    (l.orderedInsert r a).Chain' r := by
  induction l with
  | nil => exact List.chain'_singleton a
  | cons b l ih =>
    rw [List.orderedInsert]
    split
    · rename_i hab
      exact List.chain'_cons.mpr ⟨hab, h⟩
    · rename_i hab
      have hba : r b a := (htot a b).resolve_left hab
      rw [List.chain'_cons'] at h ⊢
      refine ⟨?_, ih h.2⟩
      intro y hy
      cases l with
      | nil =>
        rw [List.orderedInsert, List.head?_cons, Option.mem_def, Option.some.injEq] at hy
        exact hy ▸ hba
      | cons c l =>
        rw [List.orderedInsert] at hy
        split at hy
        · rw [List.head?_cons, Option.mem_def, Option.some.injEq] at hy
          exact hy ▸ hba
        · exact h.1 y hy

theorem chain'_insertionSort {α : Type} (r : α → α → Prop) [DecidableRel r]
    (htot : ∀ a b, r a b ∨ r b a) (l : List α) : (l.insertionSort r).Chain' r := by
  induction l with
  | nil => exact List.chain'_nil
  | cons a l ih => exact chain'_orderedInsert r htot a _ ih

theorem F64.absSub_comm (x y : F64) : F64.absSub x y = F64.absSub y x := by
  unfold F64.absSub
  by_cases h1 : x ≤ y <;> by_cases h2 : y ≤ x
  · have : x = y := Nat.le_antisymm h1 h2
    rw [this]
  · rw [if_pos h1, if_neg h2]
  · rw [if_neg h1, if_pos h2]
  · exact absurd (Nat.le_of_lt (Nat.lt_of_not_le h1)) h2

theorem compareRelevance_total (a b : ScoredMemory) :
    compareRelevance a b ≤ 0 ∨ compareRelevance b a ≤ 0 := by
  unfold compareRelevance
  rw [F64.absSub_comm a.relevanceScore b.relevanceScore]
  by_cases h : F64.absSub b.relevanceScore a.relevanceScore < F64.lit 1 10
  · rw [if_pos h, if_pos h]
    omega
  · rw [if_neg h, if_neg h]
    by_cases h1 : a.relevanceScore < b.relevanceScore
    · right
      rw [if_neg (Nat.lt_asymm h1)]
      omega
    · left
      rw [if_neg h1]
      omega

theorem rankedBefore_of_compareRelevance {a b : ScoredMemory}
    (h : compareRelevance a b ≤ 0) : RankedBefore a b := by
  have hzero : F64.absSub b.relevanceScore b.relevanceScore < F64.lit 1 10 := by
    have : F64.absSub b.relevanceScore b.relevanceScore = F64.round 0 1 := by
      unfold F64.absSub
      rw [if_pos (Nat.le_refl _), Nat.sub_self]
    rw [this]
    decide!
  unfold compareRelevance at h
  unfold RankedBefore
  by_cases hd : F64.absSub b.relevanceScore a.relevanceScore < F64.lit 1 10
  · rw [if_pos hd] at h
    exact ⟨fun h1 => absurd hd (Nat.not_lt.mpr h1), fun _ => by omega⟩
  · rw [if_neg hd] at h
    refine ⟨fun _ => ?_, fun h1 => absurd h1 hd⟩
    by_cases h1 : a.relevanceScore < b.relevanceScore
    · rw [if_pos h1] at h
      omega
    · rcases Nat.lt_or_ge b.relevanceScore a.relevanceScore with h2 | h2
      · exact h2
      · have heq : a.relevanceScore = b.relevanceScore :=
          Nat.le_antisymm h2 (Nat.le_of_not_lt h1)
        rw [heq] at hd
        exact absurd hzero hd

/-! ## The store: capacity, eviction, overwriting -/

/-- C1. Capacity invariant: whatever the store holds before the call (even more than 50
entries), for all session ids and all conversations whose two texts are strings,
`storeConversation` returns and the map then holds at most `maxMemorySize = 50`
entries. -/
theorem storeConversation_capacity (memory : MemoryMap)
    (sessionId persona model userInput aiResponse : String) (now : Nat) :
    ∃ memory1, storeConversation memory sessionId
        { persona := persona, model := model, userInput := some userInput,
          aiResponse := some aiResponse } now = .ok memory1 ∧
      memory1.length ≤ 50 :=
  ⟨_, rfl, cleanupMemory_length_le _⟩

/-- C2. Oldest-first eviction: after `n` calls with pairwise distinct session ids on the
empty store, whatever the clock reads, the store holds `min n 50` entries, and they are
exactly the entries, in the order of storing and each under its id, that fewer than 50
of the entries ever stored are more recent than; `MoreRecent` resolves equal timestamps
in favour of the entry stored later. -/
theorem storeAll_keeps_most_recent (calls : List StoreCall)
    (hids : (calls.map StoreCall.sessionId).Nodup) :
    ∃ memory, storeAll [] calls = .ok memory ∧
      memory.length = min calls.length 50 ∧
      (entriesOf calls).length = calls.length ∧
      memory = (mostRecent (entriesOf calls)).map fun e => (e.id, e) := by
  obtain ⟨memory, hrun, inv⟩ := storeAll_inv calls [] [] StoreInv.empty hids (by simp)
  rw [List.nil_append] at inv
  refine ⟨memory, hrun, ?_, entriesOf_length calls, inv.eq_mostRecent⟩
  rw [inv.len, entriesOf_length]
  rfl

/-- Witness of C2: three calls under distinct ids. -/
theorem storeAll_keeps_most_recent_witness :
    ((sampleCalls 3 7).map StoreCall.sessionId).Nodup ∧
      ∃ memory, storeAll [] (sampleCalls 3 7) = .ok memory ∧
        memory.length = min (sampleCalls 3 7).length 50 ∧
        (entriesOf (sampleCalls 3 7)).length = (sampleCalls 3 7).length ∧
        memory = (mostRecent (entriesOf (sampleCalls 3 7))).map fun e => (e.id, e) :=
  ⟨by decide, storeAll_keeps_most_recent (sampleCalls 3 7) (by decide)⟩

/-- C3, as stated, fails: the store `fullStore` is within capacity and has pairwise
distinct keys, yet when the clock reads `5` and then `6`, earlier than every timestamp
in the store, each of two calls under the new id `new` evicts the entry it has just
stored, so that no entry is under the id afterwards. -/
theorem overwrite_counterexample :
    (fullStore.map Prod.fst).Nodup ∧ fullStore.length ≤ 50 ∧
      ¬ OverwritesInPlace fullStore (sampleCall "new" "first" 5)
        (sampleCall "new" "second" 6) := by
  refine ⟨by decide!, by decide!, ?_⟩
  rintro ⟨memory1, memory2, entry, h1, h2, -, h4, -, -⟩
  have e1 : storeConversation fullStore (sampleCall "new" "first" 5).sessionId
      (sampleCall "new" "first" 5).conversation (sampleCall "new" "first" 5).now =
      .ok fullStore := by decide!
  have e2 : storeConversation fullStore (sampleCall "new" "first" 5).sessionId
      (sampleCall "new" "second" 6).conversation (sampleCall "new" "second" 6).now =
      .ok fullStore := by decide!
  have e3 : (fullStore.filter fun p => decide (p.1 = (sampleCall "new" "first" 5).sessionId)) =
      [] := by decide!
  have hm1 : memory1 = fullStore := Except.ok.inj (h1.symm.trans e1)
  rw [hm1] at h2
  have hm2 : memory2 = fullStore := Except.ok.inj (h2.symm.trans e2)
  rw [hm2, e3] at h4
  exact List.noConfusion h4

/-- C3, amended: on a store within capacity (with the pairwise distinct keys of a map),
two calls under one session id, both with string texts, overwrite in place, provided the
first call does not evict the entry it stores: the id is already a key, or the store
holds fewer than 50 entries, or some stored entry has a timestamp not later than the
clock reading of the first call. -/
theorem storeConversation_overwrite (memory : MemoryMap) (a b : StoreCall)
    (hkeys : (memory.map Prod.fst).Nodup) (hcap : memory.length ≤ 50)
    (hkeep : a.sessionId ∈ memory.map Prod.fst ∨ memory.length < 50 ∨
      ∃ p ∈ memory, p.2.timestamp ≤ a.now) :
    OverwritesInPlace memory a b := by
  obtain ⟨hk1, hnd1⟩ := storeConversation_keeps_key memory a.sessionId a.entry hkeys hcap hkeep
  obtain ⟨h1, h2, h3⟩ := storeConversation_existing _ a.sessionId
    { b.entry with id := a.sessionId } hk1 hnd1 (cleanupMemory_length_le _)
  exact ⟨_, _, _, rfl, rfl, rfl, h1, h2, h3⟩

/-- Witness of C3, amended: the second of fifty conversations stored in the same
millisecond is stored twice more, later. -/
theorem storeConversation_overwrite_witness :
    ((fullStore.map Prod.fst).Nodup ∧ fullStore.length ≤ 50 ∧
      ((sampleCall "ss" "first" 2000).sessionId ∈ fullStore.map Prod.fst ∨
        fullStore.length < 50 ∨ ∃ p ∈ fullStore, p.2.timestamp ≤ 2000)) ∧
      OverwritesInPlace fullStore (sampleCall "ss" "first" 2000)
        (sampleCall "ss" "second" 2001) :=
  ⟨⟨by decide!, by decide!, Or.inl (by decide!)⟩,
    storeConversation_overwrite fullStore (sampleCall "ss" "first" 2000)
      (sampleCall "ss" "second" 2001) (by decide!) (by decide!) (Or.inl (by decide!))⟩

/-! ## Relevance scores -/

/-- C4. The relevance score of a stored entry: the topic lists produced by `extractTopics`
have no duplicates, so that set sizes are list lengths, and the score is, in binary64
arithmetic evaluated from left to right, `0.4 * topicOverlap + 0.3 * contextSimilarity`
plus `0.2` if the personas are equal plus `0.1` if the sentiments are equal, where
`topicOverlap` is `0` if a topic list is empty and otherwise the number of common topics
divided by the larger of the two lengths, and `contextSimilarity` is exactly `0.25`
times the number of equal fields among domain, intent, complexity, questionType. -/
theorem relevance_score_formula (sessionId : String) (conversation : Conversation) (now : Nat)
    (memory : MemoryEntry) (hstored : memoryEntry sessionId conversation now = .ok memory)
    (currentInput currentPersona : String) :
    (extractTopics currentInput).Nodup ∧ memory.topics.Nodup ∧
    4 * F64.lit 25 100 = F64.one ∧
    scoreFor currentInput currentPersona memory =
      let queryTopics := extractTopics currentInput
      let queryContext := extractContext currentInput
      let topicOverlap : F64 :=
        if queryTopics = [] ∨ memory.topics = [] then 0
        else F64.div (F64.ofNat (queryTopics.filter fun t => decide (t ∈ memory.topics)).length)
          (F64.ofNat (max queryTopics.length memory.topics.length))
      let equalFields : Nat :=
        [decide (queryContext.domain = memory.context.domain),
          decide (queryContext.intent = memory.context.intent),
          decide (queryContext.complexity = memory.context.complexity),
          decide (queryContext.questionType = memory.context.questionType)].count true
      let contextSimilarity : F64 := equalFields * F64.lit 25 100
      let weighted : F64 := F64.add (F64.mul (F64.lit 4 10) topicOverlap)
        (F64.mul (F64.lit 3 10) contextSimilarity)
      let withPersona : F64 :=
        if memory.persona = currentPersona then F64.add weighted (F64.lit 2 10) else weighted
      if memory.sentiment = analyzeSentiment currentInput then
        F64.add withPersona (F64.lit 1 10)
      else withPersona := by
  have hq := extractTopics_nodup currentInput
  have hm : memory.topics.Nodup := by
    rw [memoryEntry_topics hstored]; exact extractTopics_nodup _
  refine ⟨hq, hm, by decide!, ?_⟩
  unfold scoreFor relevanceScore
  simp only
  rw [calculateTopicOverlap_of_nodup hq hm, calculateContextSimilarity_eq,
    F64.mul_comm _ (F64.lit 4 10), F64.mul_comm _ (F64.lit 3 10)]
  have h0 : ∀ x : F64, F64.add 0 (F64.mul (F64.lit 4 10) x) = F64.mul (F64.lit 4 10) x :=
    fun x => F64.add_zero_round _ _
  rw [h0]

/-- Witness of C4: the entry stored for "Our startup needs funding and market validation"
scores `0.4 * (2 / 5) + 0.3 * (2 * 0.25) + 0.2 + 0.1` for the query "How do I get startup
funding?" under the same persona. -/
theorem relevance_score_formula_witness :
    memoryEntry "s1" (sampleCall "s1" "Our startup needs funding and market validation"
        5).conversation 5 =
      .ok (sampleCall "s1" "Our startup needs funding and market validation" 5).entry ∧
    scoreFor "How do I get startup funding?" "logician"
        (sampleCall "s1" "Our startup needs funding and market validation" 5).entry =
      F64.add (F64.add (F64.add (F64.mul (F64.lit 4 10) (F64.div (F64.ofNat 2) (F64.ofNat 5)))
        (F64.mul (F64.lit 3 10) (2 * F64.lit 25 100))) (F64.lit 2 10)) (F64.lit 1 10) :=
  ⟨rfl, (relevance_score_formula "s1"
    (sampleCall "s1" "Our startup needs funding and market validation" 5).conversation 5
    _ rfl "How do I get startup funding?" "logician").2.2.2.trans (by decide!)⟩

/-- C5. Score bounds: for every entry, every input and every persona the relevance score
lies between `0` and `1`; it never exceeds the score `topScore` of a full match, which is
below `1`. -/
theorem relevance_score_bounds (memory : MemoryEntry) (currentInput currentPersona : String) :
    0 ≤ scoreFor currentInput currentPersona memory ∧
      scoreFor currentInput currentPersona memory ≤ F64.one ∧
      scoreFor currentInput currentPersona memory ≤ topScore ∧ topScore < F64.one := by
  have h := relevanceScore_le_topScore (extractContext currentInput)
    (extractTopics currentInput) (analyzeSentiment currentInput) currentPersona memory
  have htop : topScore < F64.one := by decide!
  exact ⟨Nat.zero_le _, Nat.le_trans h (Nat.le_of_lt htop), h, htop⟩

/-! ## Retrieval -/

/-- C6. Threshold filter: every element of `relevantMemories` is a stored entry, carried
over with all its fields, together with its score for the query, and that score is
strictly above `0.3`; and when at most five stored entries score above `0.3`, each of
them is in `relevantMemories`. -/
theorem relevantMemories_threshold (memory : MemoryMap) (currentInput currentPersona : String) :
    (∀ x ∈ (getRelevantContext memory currentInput currentPersona).relevantMemories,
      (∃ p ∈ memory, p.2 = x.memory) ∧
        x.relevanceScore = scoreFor currentInput currentPersona x.memory ∧
        F64.lit 3 10 < x.relevanceScore) ∧
    ((memory.filter fun p =>
        decide (F64.lit 3 10 < scoreFor currentInput currentPersona p.2)).length ≤ 5 →
      ∀ p ∈ memory, F64.lit 3 10 < scoreFor currentInput currentPersona p.2 →
        { memory := p.2, relevanceScore := scoreFor currentInput currentPersona p.2 } ∈
          (getRelevantContext memory currentInput currentPersona).relevantMemories) := by
  unfold getRelevantContext
  simp only
  constructor
  · intro x hx
    obtain ⟨p, hp, hs, rfl⟩ := (mem_sortedRelevant _ _ _ x).mp (List.mem_of_mem_take hx)
    exact ⟨⟨p, hp, rfl⟩, rfl, hs⟩
  · intro hfew p hp hs
    rw [List.take_of_length_le (by rw [sortedRelevant_length]; exact hfew)]
    exact (mem_sortedRelevant _ _ _ _).mpr ⟨p, hp, hs, rfl⟩

/-- Witness of C6: of the three entries of `cyclicStore`, all above the threshold for the
query, each is returned. -/
theorem relevantMemories_threshold_witness :
    (cyclicStore.filter fun p =>
        decide (F64.lit 3 10 < scoreFor "is it?" "logician" p.2)).length ≤ 5 ∧
      ∀ p ∈ cyclicStore, F64.lit 3 10 < scoreFor "is it?" "logician" p.2 →
        { memory := p.2, relevanceScore := scoreFor "is it?" "logician" p.2 } ∈
          (getRelevantContext cyclicStore "is it?" "logician").relevantMemories :=
  ⟨by decide!, (relevantMemories_threshold cyclicStore "is it?" "logician").2 (by decide!)⟩

/-- C7. Top-5 cap: `relevantMemories` has exactly `min 5 k` elements, `k` being the number
of stored entries whose score exceeds `0.3`; it never has more than five. -/
theorem relevantMemories_length (memory : MemoryMap) (currentInput currentPersona : String) :
    (getRelevantContext memory currentInput currentPersona).relevantMemories.length =
        min 5 (memory.filter fun p =>
          decide (F64.lit 3 10 < scoreFor currentInput currentPersona p.2)).length ∧
      (getRelevantContext memory currentInput currentPersona).relevantMemories.length ≤ 5 := by
  unfold getRelevantContext
  simp only
  rw [List.length_take, sortedRelevant_length]
  exact ⟨rfl, Nat.min_le_left _ _⟩

/-- C8, as stated, fails: for the query `is it?` the three entries of `cyclicStore` are
ranked `a`, `c`, `b`, and the entries at positions 0 and 2 have scores less than `0.1`
apart while the first is the older one.  No order of the three entries satisfies the
claim, because the comparator prefers `c` to `b` and `b` to `a` by recency but `a` to `c`
by score. -/
theorem ranking_counterexample :
    (sortedRelevant cyclicStore "is it?" "logician").map (fun x => x.memory.id) =
        ["a", "c", "b"] ∧
      ¬ (sortedRelevant cyclicStore "is it?" "logician").Pairwise RankedBefore ∧
      ¬ (getRelevantContext cyclicStore "is it?" "logician").relevantMemories.Pairwise
        RankedBefore ∧
      ∀ l ∈ (scoredAboveThreshold cyclicStore "is it?" "logician").permutations,
        ¬ l.Pairwise RankedBefore := by
  decide!

/-- C8, amended: in the sorted relevant list, hence in `relevantMemories`, every two
adjacent entries are in the order of the comparator: if their scores differ by at least
`0.1` the first has the higher score, and if they differ by less the first is not the
older one. -/
theorem ranking_adjacent (memory : MemoryMap) (currentInput currentPersona : String) :
    (sortedRelevant memory currentInput currentPersona).Chain' RankedBefore ∧
      (getRelevantContext memory currentInput currentPersona).relevantMemories.Chain'
        RankedBefore := by
  have h : (sortedRelevant memory currentInput currentPersona).Chain' RankedBefore := by
    unfold sortedRelevant jsSort
    exact (chain'_insertionSort _ compareRelevance_total _).imp
      fun _ _ h => rankedBefore_of_compareRelevance h
  exact ⟨h, h.take 5⟩

/-! ## Absent texts -/

/-- C9, as stated, fails: a conversation without `userInput` makes `storeConversation`
raise a `TypeError`, and so does one without `aiResponse`. -/
theorem absent_text_counterexample :
    storeConversation [] "s1"
        { persona := "logician", model := "llama3:8b", userInput := none,
          aiResponse := some "noted" } 5 = .error .typeError ∧
      storeConversation [] "s1"
        { persona := "logician", model := "llama3:8b", userInput := some "hello",
          aiResponse := none } 5 = .error .typeError :=
  ⟨rfl, rfl⟩

/-- C9, amended: `storeConversation` raises a `TypeError`, and stores nothing, exactly
when `userInput` or `aiResponse` is absent; when both are strings it returns and the
entry under the session id is the one derived from the two strings. -/
theorem storeConversation_error_iff (memory : MemoryMap) (sessionId : String)
    (conversation : Conversation) (now : Nat) :
    (storeConversation memory sessionId conversation now = .error .typeError ↔
      conversation.userInput = none ∨ conversation.aiResponse = none) ∧
    ((∃ memory1, storeConversation memory sessionId conversation now = .ok memory1) ↔
      ∃ userInput aiResponse, conversation.userInput = some userInput ∧
        conversation.aiResponse = some aiResponse) := by
  unfold storeConversation memoryEntry receiver
  cases conversation.userInput <;> cases conversation.aiResponse <;> simp

/-- C10. Clear: after `clearMemory()` the statistics count no memory and every query
returns no relevant memory and the empty summary. -/
theorem clearMemory_empties (memory : MemoryMap) (currentInput currentPersona : String) :
    (getMemoryStats (clearMemory memory)).totalMemories = 0 ∧
      (getRelevantContext (clearMemory memory) currentInput
        currentPersona).relevantMemories = [] ∧
      (getRelevantContext (clearMemory memory) currentInput currentPersona).contextSummary =
        "" :=
  ⟨rfl, rfl, rfl⟩
/-! ## Lemmas on keyword tables -/

theorem includes_iff (text sub : List Char) : includes text sub = true ↔ List.IsInfix sub text := by
  induction text with
  | nil =>
    rw [includes, List.infix_nil, List.isEmpty_iff]
  | cons c cs ih =>
    rw [includes, Bool.or_eq_true, List.isPrefixOf_iff_prefix, ih, List.infix_cons_iff]

theorem any_includes_iff (keywords : List String) (text : List Char) :
    (keywords.any fun keyword => includes text keyword.data) = true ↔ mentions keywords text := by
  unfold mentions
  rw [List.any_eq_true]
  constructor
  · rintro ⟨k, hk, h⟩
    exact ⟨k, hk, (includes_iff _ _).mp h⟩
  · rintro ⟨k, hk, h⟩
    exact ⟨k, hk, (includes_iff _ _).mpr h⟩

theorem firstMatch_nil {α : Type} (text : List Char) :
    firstMatch ([] : List (α × List String)) text = none := rfl

theorem firstMatch_cons {α : Type} (label : α) (keywords : List String)
    (rest : List (α × List String)) (text : List Char) :
    firstMatch ((label, keywords) :: rest) text =
      if mentions keywords text then some label else firstMatch rest text := by
  unfold firstMatch
  rw [List.find?_cons]
  by_cases h : mentions keywords text
  · rw [if_pos h]
    have : (keywords.any fun keyword => includes text keyword.data) = true :=
      (any_includes_iff _ _).mpr h
    simp only [this, Option.map_some']
  · rw [if_neg h]
    have : (keywords.any fun keyword => includes text keyword.data) = false := by
      rw [← Bool.not_eq_true, any_includes_iff]
      exact h
    simp only [this]

theorem firstMatch_eq_none {α : Type} (table : List (α × List String)) (text : List Char) :
    firstMatch table text = none ↔ ∀ p ∈ table, ¬ mentions p.2 text := by
  induction table with
  | nil => simp [firstMatch_nil]
  | cons p rest ih =>
    obtain ⟨label, keywords⟩ := p
    rw [firstMatch_cons]
    by_cases h : mentions keywords text
    · simp [h]
    · simp [h, ih]

/-! ## Classification of the input -/

/-- C14. `identifyDomain` is first-match-wins: it returns the first of business,
technology, academic, personal, creative one of whose declared keywords is a substring
of the lower-cased input, and `general` exactly when no keyword of any domain is. -/
theorem identifyDomain_first_match (input : String) :
    identifyDomain input =
      (if mentions (keywordsOf domainKeywords .business) (toLowerCase input.data) then
        .business
      else if mentions (keywordsOf domainKeywords .technology) (toLowerCase input.data) then
        .technology
      else if mentions (keywordsOf domainKeywords .academic) (toLowerCase input.data) then
        .academic
      else if mentions (keywordsOf domainKeywords .personal) (toLowerCase input.data) then
        .personal
      else if mentions (keywordsOf domainKeywords .creative) (toLowerCase input.data) then
        .creative
      else .general) ∧
    (identifyDomain input = .general ↔
      ∀ p ∈ domainKeywords, ¬ mentions p.2 (toLowerCase input.data)) ∧
    domainKeywords.map Prod.fst =
      [.business, .technology, .academic, .personal, .creative] ∧
    identifyDomain "Our startup needs more funding" = .business ∧
    identifyDomain "I love this cat" = .general := by
  refine ⟨?_, ?_, rfl, by decide!, by decide!⟩
  · unfold identifyDomain domainKeywords
    simp only [firstMatch_cons, firstMatch_nil]
    have h1 : keywordsOf domainKeywords .business = ["business", "company", "startup",
      "market", "revenue", "profit", "investment", "funding"] := rfl
    have h2 : keywordsOf domainKeywords .technology = ["tech", "software", "app", "code",
      "programming", "development", "AI", "machine learning"] := rfl
    have h3 : keywordsOf domainKeywords .academic = ["research", "study", "thesis", "paper",
      "hypothesis", "theory", "analysis"] := rfl
    have h4 : keywordsOf domainKeywords .personal = ["personal", "life", "career",
      "relationship", "health", "family"] := rfl
    have h5 : keywordsOf domainKeywords .creative = ["creative", "design", "art", "writing",
      "story", "idea", "concept"] := rfl
    unfold domainKeywords at h1 h2 h3 h4 h5
    rw [h1, h2, h3, h4, h5]
    split_ifs <;> rfl
  · unfold identifyDomain
    rw [← firstMatch_eq_none]
    cases h : firstMatch domainKeywords (toLowerCase input.data) with
    | none => simp [h]
    | some d =>
      simp only [reduceCtorEq, iff_false]
      intro hd
      rw [h, Option.getD_some] at hd
      rw [hd] at h
      have hne : ∀ p ∈ domainKeywords, p.1 ≠ Domain.general := by decide
      unfold firstMatch at h
      rw [Option.map_eq_some'] at h
      obtain ⟨p, hp, hp1⟩ := h
      exact hne p (List.mem_of_find?_eq_some hp) hp1

theorem includes_singleton_iff (text : List Char) (c : Char) :
    includes text [c] = true ↔ c ∈ text := by
  rw [includes_iff]
  constructor
  · rintro ⟨a, b, rfl⟩
    simp
  · intro h
    obtain ⟨a, b, rfl⟩ := List.append_of_mem h
    exact ⟨a, b, by simp⟩

/-- C17. `identifyQuestionType` returns `statement` exactly when the input contains no
question mark; otherwise it returns the first of yes_no, what, how, why, when, where, who
one of whose keywords is a substring of the lower-cased input, and `open` when none
is. -/
theorem identifyQuestionType_first_match (input : String) :
    (identifyQuestionType input = .statement ↔ '?' ∉ input.data) ∧
    identifyQuestionType input =
      (if '?' ∉ input.data then .statement
      else if mentions (keywordsOf questionKeywords .yes_no) (toLowerCase input.data) then
        .yes_no
      else if mentions (keywordsOf questionKeywords .what) (toLowerCase input.data) then .what
      else if mentions (keywordsOf questionKeywords .how) (toLowerCase input.data) then .how
      else if mentions (keywordsOf questionKeywords .why) (toLowerCase input.data) then .why
      else if mentions (keywordsOf questionKeywords .when) (toLowerCase input.data) then .when
      else if mentions (keywordsOf questionKeywords .where) (toLowerCase input.data) then
        .where
      else if mentions (keywordsOf questionKeywords .who) (toLowerCase input.data) then .who
      else .open) ∧
    questionKeywords.map Prod.fst = [.yes_no, .what, .how, .why, .when, .where, .who] := by
  have hchain : identifyQuestionType input =
      (if '?' ∉ input.data then .statement
      else if mentions (keywordsOf questionKeywords .yes_no) (toLowerCase input.data) then
        .yes_no
      else if mentions (keywordsOf questionKeywords .what) (toLowerCase input.data) then .what
      else if mentions (keywordsOf questionKeywords .how) (toLowerCase input.data) then .how
      else if mentions (keywordsOf questionKeywords .why) (toLowerCase input.data) then .why
      else if mentions (keywordsOf questionKeywords .when) (toLowerCase input.data) then .when
      else if mentions (keywordsOf questionKeywords .where) (toLowerCase input.data) then
        .where
      else if mentions (keywordsOf questionKeywords .who) (toLowerCase input.data) then .who
      else .open) := by
    unfold identifyQuestionType
    have hq : "?".data = ['?'] := rfl
    rw [hq]
    by_cases h : '?' ∈ input.data
    · have h1 : includes input.data ['?'] = true := (includes_singleton_iff _ _).mpr h
      rw [if_neg (by simpa using h1), if_neg (by simpa using h)]
      unfold questionKeywords
      simp only [firstMatch_cons, firstMatch_nil]
      have k1 : keywordsOf questionKeywords .yes_no = ["is", "are", "was", "were", "do",
        "does", "did", "can", "could", "will", "would"] := rfl
      have k2 : keywordsOf questionKeywords .what = ["what"] := rfl
      have k3 : keywordsOf questionKeywords .how = ["how"] := rfl
      have k4 : keywordsOf questionKeywords .why = ["why"] := rfl
      have k5 : keywordsOf questionKeywords .when = ["when"] := rfl
      have k6 : keywordsOf questionKeywords .where = ["where"] := rfl
      have k7 : keywordsOf questionKeywords .who = ["who"] := rfl
      unfold questionKeywords at k1 k2 k3 k4 k5 k6 k7
      rw [k1, k2, k3, k4, k5, k6, k7]
      split_ifs <;> rfl
    · have h1 : ¬ includes input.data ['?'] = true := fun h1 =>
        h ((includes_singleton_iff _ _).mp h1)
      rw [if_pos (by simpa using h1), if_pos h]
  refine ⟨?_, hchain, rfl⟩
  rw [hchain]
  by_cases h : '?' ∈ input.data
  · simp only [h, not_true_eq_false, if_false, iff_false]
    split_ifs <;> simp
  · simp [h]

/-- C16. `analyzeSentiment` is a majority vote: with `p` positive-list words and `n`
negative-list words occurring as substrings of the lower-cased input, the result is
positive iff `p > n`, negative iff `n > p` and neutral iff `p = n`. -/
theorem analyzeSentiment_majority (input : String) :
    (analyzeSentiment input = .positive ↔
      occurring negativeWords (toLowerCase input.data) <
        occurring positiveWords (toLowerCase input.data)) ∧
    (analyzeSentiment input = .negative ↔
      occurring positiveWords (toLowerCase input.data) <
        occurring negativeWords (toLowerCase input.data)) ∧
    (analyzeSentiment input = .neutral ↔
      occurring positiveWords (toLowerCase input.data) =
        occurring negativeWords (toLowerCase input.data)) ∧
    analyzeSentiment "I love this, it\x27s great and amazing" = .positive ∧
    analyzeSentiment "I hate this, it\x27s terrible" = .negative ∧
    analyzeSentiment "The sky is blue" = .neutral := by
  have hocc : ∀ (words : List String) (text : List Char),
      (words.filter fun word => includes text word.data).length = occurring words text := by
    intro words text
    unfold occurring
    congr 1
    apply List.filter_congr
    intro w _
    by_cases h : List.IsInfix w.data text
    · simp [h, (includes_iff _ _).mpr h]
    · have : includes text w.data = false := by
        rw [← Bool.not_eq_true, includes_iff]; exact h
      simp [h, this]
  refine ⟨?_, ?_, ?_, by decide!, by decide!, by decide!⟩ <;>
  · unfold analyzeSentiment
    simp only [hocc]
    split_ifs <;> simp <;> omega

/-! ## Topics -/

theorem countWord_keys_subset (wordCount : List (String × JsCount)) (word key : String)
    (h : key ∈ (countWord wordCount word).map Prod.fst) :
    key ∈ wordCount.map Prod.fst ∨ key = word := by
  unfold countWord at h
  split at h
  · left
    rw [List.map_map] at h
    obtain ⟨p, hp, hk⟩ := List.mem_map.mp h
    simp only [Function.comp] at hk
    split at hk
    · rename_i hpw
      exact List.mem_map.mpr ⟨p, hp, hpw.trans hk⟩
    · exact List.mem_map.mpr ⟨p, hp, hk⟩
  · exact Or.inl h
  · split at h
    · exact Or.inl h
    · split at h <;>
      · rw [List.map_append, List.mem_append] at h
        rcases h with h | h
        · exact Or.inl h
        · right
          simpa using h

theorem foldl_countWord_keys_subset (words : List String)
    (wordCount : List (String × JsCount)) (key : String)
    (h : key ∈ (words.foldl countWord wordCount).map Prod.fst) :
    key ∈ wordCount.map Prod.fst ∨ key ∈ words := by
  induction words generalizing wordCount with
  | nil => exact Or.inl h
  | cons w ws ih =>
    rcases ih _ h with h1 | h1
    · rcases countWord_keys_subset _ _ _ h1 with h2 | h2
      · exact Or.inl h2
      · exact Or.inr (h2 ▸ List.mem_cons_self _ _)
    · exact Or.inr (List.mem_cons_of_mem _ h1)

theorem extractTopics_subset_topicWords (input : String) (t : String)
    (h : t ∈ extractTopics input) : t ∈ topicWords input := by
  unfold extractTopics at h
  simp only at h
  have h1 : t ∈ ((topicWords input).foldl countWord []).map Prod.fst := by
    have h2 := ((List.take_sublist 5 _).map Prod.fst).subset h
    exact (((jsSort_perm compareCount _).trans (objectEntries_perm _)).map Prod.fst).mem_iff.mp h2
  rcases foldl_countWord_keys_subset _ _ _ h1 with h3 | h3
  · simp at h3
  · exact h3

theorem splitRunsAux_forall (sep : Char → Bool) (P : Char → Prop) (cur : List Char)
    (inRun : Bool) (l : List Char) (hcur : ∀ c ∈ cur, P c)
    (hl : ∀ c ∈ l, sep c = false → P c) :
    ∀ piece ∈ splitRunsAux sep cur inRun l, ∀ c ∈ piece, P c := by
  induction l generalizing cur inRun with
  | nil =>
    intro piece hp c hc
    rw [splitRunsAux, List.mem_singleton] at hp
    subst hp
    exact hcur c (List.mem_reverse.mp hc)
  | cons a l ih =>
    have hl1 : ∀ c ∈ l, sep c = false → P c := fun c hc => hl c (List.mem_cons_of_mem _ hc)
    intro piece hp c hc
    rw [splitRunsAux] at hp
    split at hp
    · split at hp
      · exact ih [] true (by simp) hl1 piece hp c hc
      · rcases List.mem_cons.mp hp with h | h
        · subst h
          exact hcur c (List.mem_reverse.mp hc)
        · exact ih [] true (by simp) hl1 piece h c hc
    · rename_i hsep
      refine ih (a :: cur) false ?_ hl1 piece hp c hc
      intro x hx
      rcases List.mem_cons.mp hx with h | h
      · subst h
        exact hl x (List.mem_cons_self _ _) (by simpa using hsep)
      · exact hcur x h

theorem topicWords_wordChars (input : String) (t : String) (h : t ∈ topicWords input) :
    ∀ c ∈ t.data, isWordChar c = true := by
  unfold topicWords at h
  obtain ⟨h1, -⟩ := List.mem_filter.mp h
  obtain ⟨piece, hp, rfl⟩ := List.mem_map.mp h1
  unfold splitRuns at hp
  refine splitRunsAux_forall isSpaceChar (fun c => isWordChar c = true) [] false _ (by simp)
    ?_ piece hp
  intro c hc hs
  have := (List.mem_filter.mp hc).2
  simpa [hs] using this

theorem jsLength_of_wordChars (cs : List Char) (h : ∀ c ∈ cs, isWordChar c = true) :
    jsLength cs = cs.length := by
  induction cs with
  | nil => rfl
  | cons c cs ih =>
    have hc : c.toNat < 0x10000 := by
      have h1 := h c (List.mem_cons_self _ _)
      unfold isWordChar at h1
      simp only [Bool.or_eq_true, decide_eq_true_eq] at h1
      rcases h1 with h1 | h1
      · unfold Char.isAlphanum Char.isAlpha Char.isUpper Char.isLower Char.isDigit at h1
        simp only [Bool.or_eq_true, Bool.and_eq_true, decide_eq_true_eq] at h1
        have h5 : c.toNat = c.val.toNat := rfl
        rcases h1 with (⟨-, h2⟩ | ⟨-, h2⟩) | ⟨-, h2⟩
        · have h3 : c.val.toNat ≤ (90 : UInt32).toNat := h2
          have h4 : (90 : UInt32).toNat = 90 := rfl
          omega
        · have h3 : c.val.toNat ≤ (122 : UInt32).toNat := h2
          have h4 : (122 : UInt32).toNat = 122 := rfl
          omega
        · have h3 : c.val.toNat ≤ (57 : UInt32).toNat := h2
          have h4 : (57 : UInt32).toNat = 57 := rfl
          omega
      · subst h1
        decide
    have ih1 := ih fun x hx => h x (List.mem_cons_of_mem _ hx)
    unfold jsLength at ih1 ⊢
    rw [List.map_cons, List.sum_cons, ih1, if_pos hc, List.length_cons]
    omega

/-- C12. Topic invariant: `extractTopics` returns at most 5 topics, none of them a word
of the stop-word list `commonWords`, each of length above 3 (it consists of word
characters only, so that its length in code units is its number of characters); the
topics of every entry that `storeConversation` builds satisfy the same. -/
theorem extractTopics_invariant (input : String) :
    ((extractTopics input).length ≤ 5 ∧
      ∀ t ∈ extractTopics input, t ∉ commonWords ∧ 3 < jsLength t.data ∧ 3 < t.length ∧
        ∀ c ∈ t.data, isWordChar c = true) ∧
    ∀ (sessionId : String) (conversation : Conversation) (now : Nat) (memory : MemoryEntry),
      memoryEntry sessionId conversation now = .ok memory →
        memory.topics.length ≤ 5 ∧
          ∀ t ∈ memory.topics, t ∉ commonWords ∧ 3 < jsLength t.data ∧ 3 < t.length := by
  have key : ∀ input : String, (extractTopics input).length ≤ 5 ∧
      ∀ t ∈ extractTopics input, t ∉ commonWords ∧ 3 < jsLength t.data ∧ 3 < t.length ∧
        ∀ c ∈ t.data, isWordChar c = true := by
    intro input
    refine ⟨extractTopics_length_le input, ?_⟩
    intro t ht
    have hw := extractTopics_subset_topicWords input t ht
    have hchars := topicWords_wordChars input t hw
    unfold topicWords at hw
    have h2 := (List.mem_filter.mp hw).2
    simp only [Bool.and_eq_true, decide_eq_true_eq, Bool.not_eq_true'] at h2
    have h3 := jsLength_of_wordChars t.data hchars
    refine ⟨by simpa using h2.2, h2.1, ?_, hchars⟩
    have : t.length = t.data.length := rfl
    omega
  refine ⟨key input, ?_⟩
  intro sessionId conversation now memory hstored
  rw [memoryEntry_topics hstored]
  have h := key memory.userInput
  exact ⟨h.1, fun t ht => ⟨(h.2 t ht).1, (h.2 t ht).2.1, (h.2 t ht).2.2.1⟩⟩

/-- Witness of C12: the topics of the entry stored for a sentence of the specification. -/
theorem extractTopics_invariant_witness :
    memoryEntry "s1" (sampleCall "s1" "Our startup needs funding and market validation"
        5).conversation 5 =
      .ok (sampleCall "s1" "Our startup needs funding and market validation" 5).entry ∧
    (sampleCall "s1" "Our startup needs funding and market validation" 5).entry.topics.length
      ≤ 5 :=
  ⟨rfl, ((extractTopics_invariant "").2 "s1"
    (sampleCall "s1" "Our startup needs funding and market validation" 5).conversation 5
    _ rfl).1⟩

/-- C13 fails on words that name a property of `Object.prototype`: the object
`wordCount` inherits them.  The input `__proto__` has one candidate token and yields no
topic, because the assignment to the inherited accessor stores nothing; and in
`constructor apple apple` the count of `constructor` is a string, which compares as equal
to every number, so that the word occurring once stays before the word occurring
twice. -/
theorem extractTopics_inherited_properties :
    topicWords "__proto__" = ["__proto__"] ∧
    extractTopics "__proto__" = [] ∧
    topicWords "constructor apple apple" = ["constructor", "apple", "apple"] ∧
    extractTopics "constructor apple apple" = ["constructor", "apple"] := by
  decide!

/-! ## The end-to-end scenario -/

theorem scoreFor_congr (currentInput currentPersona : String) (e1 e2 : MemoryEntry)
    (ht : e1.topics = e2.topics) (hc : e1.context = e2.context)
    (hp : e1.persona = e2.persona) (hs : e1.sentiment = e2.sentiment) :
    scoreFor currentInput currentPersona e1 = scoreFor currentInput currentPersona e2 := by
  unfold scoreFor relevanceScore
  rw [ht, hc, hp, hs]

/-- C11. End-to-end scenario: whatever the models, the responses and the two clock
readings, after storing `s1` and then `s2` on the empty store the query "How do I get
startup funding?" under the persona `market_cynic` returns exactly the entry `s1` as
relevant memory, and its suggestions are the two business suggestions followed by the
first of the two onboarding questions. -/
theorem end_to_end_scenario (model1 aiResponse1 model2 aiResponse2 : String)
    (now1 now2 : Nat) :
    ∃ memory,
      storeAll [] [scenarioFirst model1 aiResponse1 now1,
        scenarioSecond model2 aiResponse2 now2] = .ok memory ∧
      memory = [("s1", (scenarioFirst model1 aiResponse1 now1).entry),
        ("s2", (scenarioSecond model2 aiResponse2 now2).entry)] ∧
      (getRelevantContext memory "How do I get startup funding?"
          "market_cynic").relevantMemories.map (fun x => x.memory) =
        [(scenarioFirst model1 aiResponse1 now1).entry] ∧
      (getRelevantContext memory "How do I get startup funding?" "market_cynic").suggestions =
        ["Consider market competition and customer acquisition costs",
         "Think about scalability and operational challenges",
         "What problem does this solve for customers?"] := by
  refine ⟨[("s1", (scenarioFirst model1 aiResponse1 now1).entry),
    ("s2", (scenarioSecond model2 aiResponse2 now2).entry)], rfl, rfl, ?_⟩
  have h1 : F64.lit 3 10 < scoreFor "How do I get startup funding?" "market_cynic"
      (scenarioFirst model1 aiResponse1 now1).entry := by
    rw [scoreFor_congr "How do I get startup funding?" "market_cynic"
      (scenarioFirst model1 aiResponse1 now1).entry (scenarioFirst "" "" 0).entry
      rfl rfl rfl rfl]
    decide!
  have h2 : ¬ F64.lit 3 10 < scoreFor "How do I get startup funding?" "market_cynic"
      (scenarioSecond model2 aiResponse2 now2).entry := by
    rw [scoreFor_congr "How do I get startup funding?" "market_cynic"
      (scenarioSecond model2 aiResponse2 now2).entry (scenarioSecond "" "" 0).entry
      rfl rfl rfl rfl]
    decide!
  have hrel : sortedRelevant [("s1", (scenarioFirst model1 aiResponse1 now1).entry),
      ("s2", (scenarioSecond model2 aiResponse2 now2).entry)]
      "How do I get startup funding?" "market_cynic" =
      [⟨(scenarioFirst model1 aiResponse1 now1).entry,
        scoreFor "How do I get startup funding?" "market_cynic"
          (scenarioFirst model1 aiResponse1 now1).entry⟩] := by
    unfold sortedRelevant
    rw [scoredAboveThreshold_eq, List.filter_cons_of_pos (by simpa using h1),
      List.filter_cons_of_neg (by simpa using h2)]
    rfl
  have hdom : (scenarioFirst model1 aiResponse1 now1).entry.context.domain = .business := by
    have : (scenarioFirst model1 aiResponse1 now1).entry.context.domain =
      (scenarioFirst "" "" 0).entry.context.domain := rfl
    rw [this]
    decide!
  have hinc : includes (toLowerCase "How do I get startup funding?".data) "startup".data =
      true := by decide!
  unfold getRelevantContext
  simp only
  rw [hrel]
  refine ⟨rfl, ?_⟩
  unfold generateSuggestions
  simp only [List.head?_cons, hdom, hinc, if_true, Bool.true_or]
  rfl

/-! ## Suggestions -/

/-- C19. `suggestions` is the first three of `A ++ B`: `A` holds the two business
suggestions if the top-ranked relevant memory has domain business, the two technology
suggestions if it has domain technology, and nothing otherwise, also when no memory is
relevant; `B` holds the two onboarding questions if the lower-cased input contains
`startup` or `business`, and nothing otherwise.  Hence there are at most three, those of
`A` first. -/
theorem suggestions_spec (memory : MemoryMap) (currentInput currentPersona : String) :
    (getRelevantContext memory currentInput currentPersona).suggestions =
      ((if ((sortedRelevant memory currentInput currentPersona).head?.map
            fun top => top.memory.context.domain) = some .business then
          ["Consider market competition and customer acquisition costs",
           "Think about scalability and operational challenges"]
        else if ((sortedRelevant memory currentInput currentPersona).head?.map
            fun top => top.memory.context.domain) = some .technology then
          ["Consider technical debt and maintenance costs",
           "Think about security and performance implications"]
        else []) ++
        (if List.IsInfix "startup".data (toLowerCase currentInput.data) ∨
            List.IsInfix "business".data (toLowerCase currentInput.data) then
          ["What problem does this solve for customers?",
           "How will you acquire your first 100 customers?"]
        else [])).take 3 ∧
    (getRelevantContext memory currentInput currentPersona).suggestions.length ≤ 3 := by
  have hB : (includes (toLowerCase currentInput.data) "startup".data ||
      includes (toLowerCase currentInput.data) "business".data) = true ↔
      (List.IsInfix "startup".data (toLowerCase currentInput.data) ∨
        List.IsInfix "business".data (toLowerCase currentInput.data)) := by
    rw [Bool.or_eq_true, includes_iff, includes_iff]
  have hmain : generateSuggestions currentInput
      (sortedRelevant memory currentInput currentPersona) =
      ((if ((sortedRelevant memory currentInput currentPersona).head?.map
            fun top => top.memory.context.domain) = some .business then
          ["Consider market competition and customer acquisition costs",
           "Think about scalability and operational challenges"]
        else if ((sortedRelevant memory currentInput currentPersona).head?.map
            fun top => top.memory.context.domain) = some .technology then
          ["Consider technical debt and maintenance costs",
           "Think about security and performance implications"]
        else []) ++
        (if List.IsInfix "startup".data (toLowerCase currentInput.data) ∨
            List.IsInfix "business".data (toLowerCase currentInput.data) then
          ["What problem does this solve for customers?",
           "How will you acquire your first 100 customers?"]
        else [])).take 3 := by
    unfold generateSuggestions
    simp only
    congr 2
    · cases (sortedRelevant memory currentInput currentPersona).head? with
      | none => simp
      | some top => simp only [Option.map_some', Option.some.injEq]
    · by_cases h : List.IsInfix "startup".data (toLowerCase currentInput.data) ∨
          List.IsInfix "business".data (toLowerCase currentInput.data)
      · rw [if_pos h, if_pos (hB.mpr h)]
      · rw [if_neg h, if_neg (fun h1 => h (hB.mp h1))]
  unfold getRelevantContext
  simp only
  rw [hmain]
  exact ⟨rfl, by rw [List.length_take]; exact Nat.min_le_left _ _⟩

/-! ## Complexity -/

theorem F64.div_lt_ofNat_iff (T k : Nat)
    (hT : F64.round (F64.ofNat T) 1 = F64.ofNat T)
    (hy : F64.round ((T * 2 ^ 60 - k) * F64.one) (2 ^ 60) < F64.ofNat T)
    (hk : ∀ w s : Nat, w < T * s → w ≤ 2 ^ 53 → w * 2 ^ 60 ≤ (T * 2 ^ 60 - k) * s)
    (w s : Nat) (hs : 0 < s) (hw : w ≤ 2 ^ 53) :
    F64.div (F64.ofNat w) (F64.ofNat s) < F64.ofNat T ↔ w < T * s := by
  have hone := F64.one_pos
  constructor
  · intro h
    by_contra hn
    have hle : T * s ≤ w := Nat.le_of_not_lt hn
    have h1 : F64.round (F64.ofNat T) 1 ≤ F64.div (F64.ofNat w) (F64.ofNat s) := by
      unfold F64.div F64.ofNat
      apply F64.round_mono (by omega) (Nat.mul_pos hs hone)
      calc T * F64.one * (s * F64.one) = T * s * (F64.one * F64.one) := by ring
        _ ≤ w * (F64.one * F64.one) := Nat.mul_le_mul_right _ hle
        _ = w * F64.one * F64.one * 1 := by ring
    rw [hT] at h1
    exact absurd h (Nat.not_lt.mpr h1)
  · intro h
    have h1 : F64.div (F64.ofNat w) (F64.ofNat s) ≤
        F64.round ((T * 2 ^ 60 - k) * F64.one) (2 ^ 60) := by
      unfold F64.div F64.ofNat
      apply F64.round_mono (Nat.mul_pos hs hone) (Nat.pos_pow_of_pos _ (by omega))
      calc w * F64.one * F64.one * 2 ^ 60 = w * 2 ^ 60 * (F64.one * F64.one) := by ring
        _ ≤ (T * 2 ^ 60 - k) * s * (F64.one * F64.one) :=
          Nat.mul_le_mul_right _ (hk w s h hw)
        _ = (T * 2 ^ 60 - k) * F64.one * (s * F64.one) := by ring
    exact Nat.lt_of_le_of_lt h1 hy

theorem F64.div_lt_eight_iff (w s : Nat) (hs : 0 < s) (hw : w ≤ 2 ^ 53) :
    F64.div (F64.ofNat w) (F64.ofNat s) < F64.ofNat 8 ↔ w < 8 * s :=
  F64.div_lt_ofNat_iff 8 513 (by decide!) (by decide!) (fun w s h1 h2 => by omega) w s hs hw

theorem F64.div_lt_fifteen_iff (w s : Nat) (hs : 0 < s) (hw : w ≤ 2 ^ 53) :
    F64.div (F64.ofNat w) (F64.ofNat s) < F64.ofNat 15 ↔ w < 15 * s :=
  F64.div_lt_ofNat_iff 15 1025 (by decide!) (by decide!) (fun w s h1 h2 => by omega) w s hs hw

theorem splitOnChar_length_le (sep : Char) (l : List Char) :
    (splitOnChar sep l).length ≤ l.length + 1 := by
  induction l with
  | nil => simp [splitOnChar]
  | cons c cs ih =>
    rw [splitOnChar]
    split
    · rw [List.length_cons, List.length_cons]; omega
    · split
      · simp
      · rename_i p ps hsplit
        rw [hsplit] at ih
        rw [List.length_cons] at ih ⊢
        rw [List.length_cons]
        omega

theorem length_le_jsLength (l : List Char) : l.length ≤ jsLength l := by
  induction l with
  | nil => exact Nat.le_refl _
  | cons c cs ih =>
    unfold jsLength at ih ⊢
    rw [List.map_cons, List.sum_cons, List.length_cons]
    split <;> omega

theorem splitRunsAux_length_pos (sep : Char → Bool) (cur : List Char) (inRun : Bool)
    (l : List Char) : 0 < (splitRunsAux sep cur inRun l).length := by
  induction l generalizing cur inRun with
  | nil => simp [splitRunsAux]
  | cons c cs ih =>
    rw [splitRunsAux]
    split
    · split
      · exact ih _ _
      · rw [List.length_cons]; omega
    · exact ih _ _

theorem splitRunsAux_of_no_separator (sep : Char → Bool) (cur : List Char) (inRun : Bool)
    (l : List Char) (h : ∀ c ∈ l, sep c = false) :
    (splitRunsAux sep cur inRun l).length = 1 := by
  induction l generalizing cur inRun with
  | nil => simp [splitRunsAux]
  | cons c cs ih =>
    rw [splitRunsAux, if_neg (by simp [h c (List.mem_cons_self _ _)])]
    exact ih _ _ fun x hx => h x (List.mem_cons_of_mem _ hx)

/-- C15. Thresholds of `assessComplexity`, for every input whose length is one a string
can have (below `2 ^ 53`): with `w` the number of pieces between single spaces and `s`
the number of pieces between runs of terminators, the result is simple iff `w < 20` or
`w / s < 8`, complex iff `w ≥ 100` and `w / s ≥ 15`, and moderate otherwise, the quotient
being the exact one; an input of 25 such pieces without a terminator is moderate. -/
theorem assessComplexity_thresholds (input : String) (hlen : jsLength input.data < 2 ^ 53) :
    0 < (splitRuns isTerminator input.data).length ∧
    (assessComplexity input = .simple ↔
      (splitOnChar ' ' input.data).length < 20 ∨
        ((splitOnChar ' ' input.data).length : ℚ) /
          ((splitRuns isTerminator input.data).length : ℚ) < 8) ∧
    (assessComplexity input = .complex ↔
      100 ≤ (splitOnChar ' ' input.data).length ∧
        15 ≤ ((splitOnChar ' ' input.data).length : ℚ) /
          ((splitRuns isTerminator input.data).length : ℚ)) ∧
    (assessComplexity input = .moderate ↔
      ¬ ((splitOnChar ' ' input.data).length < 20 ∨
        ((splitOnChar ' ' input.data).length : ℚ) /
          ((splitRuns isTerminator input.data).length : ℚ) < 8) ∧
      ¬ (100 ≤ (splitOnChar ' ' input.data).length ∧
        15 ≤ ((splitOnChar ' ' input.data).length : ℚ) /
          ((splitRuns isTerminator input.data).length : ℚ))) ∧
    ((splitOnChar ' ' input.data).length = 25 →
      (∀ c ∈ input.data, isTerminator c = false) → assessComplexity input = .moderate) := by
  have hs : 0 < (splitRuns isTerminator input.data).length := splitRunsAux_length_pos _ _ _ _
  have hw : (splitOnChar ' ' input.data).length ≤ 2 ^ 53 := by
    have h1 := splitOnChar_length_le ' ' input.data
    have h2 := length_le_jsLength input.data
    omega
  have h8 := F64.div_lt_eight_iff _ _ hs hw
  have h15 := F64.div_lt_fifteen_iff _ _ hs hw
  have hsq : (0 : ℚ) < ((splitRuns isTerminator input.data).length : ℚ) := by exact_mod_cast hs
  have q8 : ((splitOnChar ' ' input.data).length : ℚ) /
      ((splitRuns isTerminator input.data).length : ℚ) < 8 ↔
      (splitOnChar ' ' input.data).length < 8 * (splitRuns isTerminator input.data).length := by
    rw [div_lt_iff₀ hsq]
    exact_mod_cast Iff.rfl
  have q15 : 15 ≤ ((splitOnChar ' ' input.data).length : ℚ) /
      ((splitRuns isTerminator input.data).length : ℚ) ↔
      15 * (splitRuns isTerminator input.data).length ≤ (splitOnChar ' ' input.data).length := by
    rw [le_div_iff₀ hsq]
    exact_mod_cast Iff.rfl
  rw [q8, q15]
  have hsimple : assessComplexity input = .simple ↔
      (splitOnChar ' ' input.data).length < 20 ∨
        (splitOnChar ' ' input.data).length < 8 * (splitRuns isTerminator input.data).length := by
    unfold assessComplexity
    simp only [h8, h15]
    split_ifs <;> simp_all
  have hcomplex : assessComplexity input = .complex ↔
      100 ≤ (splitOnChar ' ' input.data).length ∧
        15 * (splitRuns isTerminator input.data).length ≤
          (splitOnChar ' ' input.data).length := by
    unfold assessComplexity
    simp only [h8, h15]
    split_ifs with h1 h2
    · simp only [reduceCtorEq, false_iff, not_and, not_le]
      intro h3
      rcases h1 with h1 | h1 <;> omega
    · simp only [reduceCtorEq, false_iff, not_and, not_le]
      intro h3
      rcases h2 with h2 | h2 <;> omega
    · simp only [true_iff]
      omega
  have hmod : assessComplexity input = .moderate ↔
      ¬ ((splitOnChar ' ' input.data).length < 20 ∨
        (splitOnChar ' ' input.data).length <
          8 * (splitRuns isTerminator input.data).length) ∧
      ¬ (100 ≤ (splitOnChar ' ' input.data).length ∧
        15 * (splitRuns isTerminator input.data).length ≤
          (splitOnChar ' ' input.data).length) := by
    rw [← hsimple, ← hcomplex]
    cases assessComplexity input <;> simp
  refine ⟨hs, hsimple, hcomplex, hmod, ?_⟩
  intro h25 hno
  have hs1 : (splitRuns isTerminator input.data).length = 1 :=
    splitRunsAux_of_no_separator _ _ _ _ hno
  rw [hmod, h25, hs1]
  omega

/-- Witness of C15: twenty-five one-letter words. -/
theorem assessComplexity_thresholds_witness :
    jsLength "a b c d e f g h i j k l m n o p q r s t u v w x y".data < 2 ^ 53 ∧
      assessComplexity "a b c d e f g h i j k l m n o p q r s t u v w x y" = .moderate :=
  ⟨by decide!, (assessComplexity_thresholds
    "a b c d e f g h i j k l m n o p q r s t u v w x y" (by decide!)).2.2.2.2
    (by decide!) (by decide!)⟩

/-! ## The most frequent value -/

theorem getLast?_orderedInsert {α : Type} (r : α → α → Prop) [DecidableRel r] (a : α)
    (s : List α) :
    (s.orderedInsert r a).getLast? = if ∀ b ∈ s, ¬ r a b then some a else s.getLast? := by
  induction s with
  | nil => simp
  | cons b s ih =>
    rw [List.orderedInsert]
    by_cases hab : r a b
    · rw [if_pos hab, List.getLast?_cons_cons, if_neg]
      intro h
      exact h b (List.mem_cons_self _ _) hab
    · rw [if_neg hab, List.getLast?_cons, ih]
      by_cases hall : ∀ c ∈ s, ¬ r a c
      · rw [if_pos hall, if_pos]
        · rfl
        · intro c hc
          rcases List.mem_cons.mp hc with h | h
          · exact h ▸ hab
          · exact hall c h
      · rw [if_neg hall, if_neg, List.getLast?_cons]
        intro h
        exact hall fun c hc => h c (List.mem_cons_of_mem _ hc)

theorem getLast?_insertionSort_key {α : Type} (f : α → Nat) (l : List α) (hl : l ≠ []) :
    ∃ v before after,
      (l.insertionSort fun a b => (f a : Int) - (f b : Int) ≤ 0).getLast? = some v ∧
      l = before ++ v :: after ∧ (∀ y ∈ before, f y ≤ f v) ∧ (∀ y ∈ after, f y < f v) := by
  induction l with
  | nil => exact absurd rfl hl
  | cons a l ih =>
    rw [List.insertionSort, getLast?_orderedInsert]
    by_cases hall : ∀ b ∈ l.insertionSort (fun a b => (f a : Int) - (f b : Int) ≤ 0),
        ¬ ((f a : Int) - (f b : Int) ≤ 0)
    · rw [if_pos hall]
      refine ⟨a, [], l, rfl, rfl, by simp, ?_⟩
      intro y hy
      have := hall y ((List.perm_insertionSort _ l).mem_iff.mpr hy)
      omega
    · rw [if_neg hall]
      have hne : l ≠ [] := by
        rintro rfl
        exact hall (by simp)
      obtain ⟨v, before, after, hlast, hsplit, hb, ha⟩ := ih hne
      refine ⟨v, a :: before, after, hlast, by rw [hsplit]; rfl, ?_, ha⟩
      intro y hy
      rcases List.mem_cons.mp hy with h | h
      · subst h
        simp only [not_forall, not_not] at hall
        obtain ⟨b, hbm, hbr⟩ := hall
        have hbl : b ∈ l := (List.perm_insertionSort _ l).mem_iff.mp hbm
        rw [hsplit] at hbl
        have hbv : f b ≤ f v := by
          rcases List.mem_append.mp hbl with h1 | h1
          · exact hb b h1
          · rcases List.mem_cons.mp h1 with h2 | h2
            · rw [h2]
            · exact Nat.le_of_lt (ha b h2)
        omega
      · exact hb y h

theorem length_filter_eq_count {α : Type} [DecidableEq α] (xs : List α) (a : α) :
    (xs.filter fun v => decide (v = a)).length = xs.count a := by
  rw [List.count, List.countP_eq_length_filter]
  congr 1

theorem mostFrequent_isLastMode {α : Type} [DecidableEq α] (xs : List α) (hxs : xs ≠ []) :
    ∃ v, mostFrequent xs = some v ∧ IsLastMode xs v := by
  obtain ⟨v, before, after, hlast, hsplit, hb, ha⟩ :=
    getLast?_insertionSort_key (fun a => (xs.filter fun v => decide (v = a)).length) xs hxs
  refine ⟨v, hlast, before, after, hsplit, ?_, ?_⟩
  · intro y hy
    have := hb y hy
    simp only [length_filter_eq_count] at this
    exact this
  · intro y hy
    have := ha y hy
    simp only [length_filter_eq_count] at this
    exact this

theorem IsLastMode.mem {α : Type} [DecidableEq α] {xs : List α} {v : α}
    (h : IsLastMode xs v) : v ∈ xs := by
  obtain ⟨before, after, hsplit, -, -⟩ := h
  rw [hsplit]
  simp

theorem IsLastMode.count_le {α : Type} [DecidableEq α] {xs : List α} {v : α}
    (h : IsLastMode xs v) (y : α) : xs.count y ≤ xs.count v := by
  by_cases hy : y ∈ xs
  · obtain ⟨before, after, hsplit, hb, ha⟩ := h
    have hy1 := hy
    rw [hsplit] at hy1
    rcases List.mem_append.mp hy1 with h1 | h1
    · exact hb y h1
    · rcases List.mem_cons.mp h1 with h2 | h2
      · rw [h2]
      · exact Nat.le_of_lt (ha y h2)
  · rw [List.count_eq_zero_of_not_mem hy]
    exact Nat.zero_le _

/-- C20. Mode with tie-break: on a non-empty store `mostCommonDomain` is a domain that
occurs most often among the entries, namely the domain of the last entry, in iteration
order, that carries a most frequent domain; likewise `mostUsedPersona`. -/
theorem getMemoryStats_mode (memory : MemoryMap) (hne : memory ≠ []) :
    (∃ d, (getMemoryStats memory).mostCommonDomain = some d ∧
      IsLastMode (memory.map fun p => p.2.context.domain) d ∧
      ∀ y, (memory.map fun p => p.2.context.domain).count y ≤
        (memory.map fun p => p.2.context.domain).count d) ∧
    (∃ v, (getMemoryStats memory).mostUsedPersona = some v ∧
      IsLastMode (memory.map fun p => p.2.persona) v ∧
      ∀ y, (memory.map fun p => p.2.persona).count y ≤
        (memory.map fun p => p.2.persona).count v) := by
  have h1 : (memory.map fun p => p.2.context.domain) ≠ [] := by simpa using hne
  have h2 : (memory.map fun p => p.2.persona) ≠ [] := by simpa using hne
  obtain ⟨d, hd, hmode⟩ := mostFrequent_isLastMode _ h1
  obtain ⟨v, hv, hmodev⟩ := mostFrequent_isLastMode _ h2
  refine ⟨⟨d, ?_, hmode, hmode.count_le⟩, ⟨v, ?_, hmodev, hmodev.count_le⟩⟩
  · unfold getMemoryStats
    simp only [List.map_map]
    exact hd
  · unfold getMemoryStats
    simp only [List.map_map]
    exact hv

/-- Witness of C20: in `cyclicStore` every entry has the domain general and the persona
`logician`. -/
theorem getMemoryStats_mode_witness :
    cyclicStore ≠ [] ∧
      (∃ d, (getMemoryStats cyclicStore).mostCommonDomain = some d ∧
        IsLastMode (cyclicStore.map fun p => p.2.context.domain) d ∧
        ∀ y, (cyclicStore.map fun p => p.2.context.domain).count y ≤
          (cyclicStore.map fun p => p.2.context.domain).count d) :=
  ⟨by decide!, (getMemoryStats_mode cyclicStore (by decide!)).1⟩

/-! ## The context summary -/

theorem firstAppearances_eq_filter {α : Type} [DecidableEq α] (seen l : List α) :
    firstAppearances seen l = (jsSet l).filter fun y => decide (y ∉ seen) := by
  induction l generalizing seen with
  | nil => rfl
  | cons x xs ih =>
    rw [firstAppearances, jsSet]
    by_cases hx : x ∈ seen
    · rw [if_pos hx, ih, List.filter_cons_of_neg (by simpa using hx), List.filter_filter]
      apply List.filter_congr
      intro y _
      by_cases hy : y ∈ seen
      · simp [hy]
      · have : y ≠ x := fun h => hy (h ▸ hx)
        simp [hy, this]
    · rw [if_neg hx, ih, List.filter_cons_of_pos (by simpa using hx), List.filter_filter]
      congr 1
      apply List.filter_congr
      intro y _
      by_cases hy : y = x
      · simp [hy]
      · simp [hy]

theorem jsSet_eq_firstAppearances {α : Type} [DecidableEq α] (l : List α) :
    jsSet l = firstAppearances [] l := by
  rw [firstAppearances_eq_filter, List.filter_eq_self.mpr]
  intro y _
  simp

theorem sortedRelevant_domains_perm (memory : MemoryMap) (currentInput currentPersona : String) :
    ((sortedRelevant memory currentInput currentPersona).map
      fun x => x.memory.context.domain).Perm
      ((memory.filter fun p =>
        decide (F64.lit 3 10 < scoreFor currentInput currentPersona p.2)).map
        fun p => p.2.context.domain) := by
  unfold sortedRelevant
  have h := (jsSort_perm compareRelevance
    (scoredAboveThreshold memory currentInput currentPersona)).map
    fun x => x.memory.context.domain
  have h1 : (scoredAboveThreshold memory currentInput currentPersona).map
      (fun x => x.memory.context.domain) =
      (memory.filter fun p =>
        decide (F64.lit 3 10 < scoreFor currentInput currentPersona p.2)).map
        fun p => p.2.context.domain := by
    rw [scoredAboveThreshold_eq, List.map_map]
    rfl
  rw [h1] at h
  exact h

/-- C18. The context summary is empty exactly when no stored entry scores above `0.3`.
Otherwise it is the sentence naming a domain `D` and the topics `T`: `D` occurs most
often among the domains of all entries scoring above `0.3`, and `T` lists, separated by
a comma and a space, the first three at most of the distinct topics of the three
top-ranked entries, in the order of their first appearance. -/
theorem contextSummary_spec (memory : MemoryMap) (currentInput currentPersona : String) :
    ((getRelevantContext memory currentInput currentPersona).contextSummary = "" ↔
      ∀ p ∈ memory, ¬ F64.lit 3 10 < scoreFor currentInput currentPersona p.2) ∧
    ((∃ p ∈ memory, F64.lit 3 10 < scoreFor currentInput currentPersona p.2) →
      ∃ D : Domain,
        (getRelevantContext memory currentInput currentPersona).contextSummary =
          "Previous discussions focused on " ++ D.name ++ " topics including " ++
            ", ".intercalate ((firstAppearances []
              (((sortedRelevant memory currentInput currentPersona).take 3).map
                fun x => x.memory.topics).flatten).take 3) ++ "." ∧
        D ∈ (memory.filter fun p =>
          decide (F64.lit 3 10 < scoreFor currentInput currentPersona p.2)).map
            (fun p => p.2.context.domain) ∧
        ∀ d, ((memory.filter fun p =>
          decide (F64.lit 3 10 < scoreFor currentInput currentPersona p.2)).map
            fun p => p.2.context.domain).count d ≤
          ((memory.filter fun p =>
            decide (F64.lit 3 10 < scoreFor currentInput currentPersona p.2)).map
              fun p => p.2.context.domain).count D) := by
  have hlen := sortedRelevant_length memory currentInput currentPersona
  have hperm := sortedRelevant_domains_perm memory currentInput currentPersona
  have hsentence : ∀ s : String, s ++ "." ≠ "" := by
    intro s h
    have := congrArg String.length h
    rw [String.length_append] at this
    have h1 : ".".length = 1 := rfl
    have h2 : "".length = 0 := rfl
    omega
  have hnone : (∀ p ∈ memory, ¬ F64.lit 3 10 < scoreFor currentInput currentPersona p.2) ↔
      (memory.filter fun p =>
        decide (F64.lit 3 10 < scoreFor currentInput currentPersona p.2)).length = 0 := by
    rw [List.length_eq_zero, List.filter_eq_nil_iff]
    simp only [decide_eq_true_eq]
  unfold getRelevantContext
  simp only
  constructor
  · rw [hnone, ← hlen]
    unfold generateContextSummary
    split
    · simp_all
    · rename_i hpos
      simp only [hpos, iff_false]
      exact hsentence _
  · rintro ⟨p, hp, hs⟩
    have hpos : (sortedRelevant memory currentInput currentPersona).length ≠ 0 := by
      rw [hlen]
      intro h0
      exact (hnone.mpr h0) p hp hs
    have hne : ((sortedRelevant memory currentInput currentPersona).map
        fun x => x.memory.context.domain) ≠ [] := by
      intro h
      apply hpos
      have := congrArg List.length h
      simpa using this
    obtain ⟨D, hD, hmode⟩ := mostFrequent_isLastMode _ hne
    refine ⟨D, ?_, hperm.mem_iff.mp hmode.mem, ?_⟩
    · unfold generateContextSummary
      rw [if_neg hpos]
      simp only [hD, jsSet_eq_firstAppearances]
    · intro d
      rw [← hperm.count_eq d, ← hperm.count_eq D]
      exact hmode.count_le d

/-- Witness of C18: `cyclicStore` holds entries scoring above `0.3` for the query
`is it?`, so its summary names a most frequent domain and the topics. -/
theorem contextSummary_spec_witness :
    (∃ p ∈ cyclicStore, F64.lit 3 10 < scoreFor "is it?" "logician" p.2) ∧
      ∃ D : Domain,
        (getRelevantContext cyclicStore "is it?" "logician").contextSummary =
          "Previous discussions focused on " ++ D.name ++ " topics including " ++
            ", ".intercalate ((firstAppearances []
              (((sortedRelevant cyclicStore "is it?" "logician").take 3).map
                fun x => x.memory.topics).flatten).take 3) ++ "." ∧
        D ∈ (cyclicStore.filter fun p =>
          decide (F64.lit 3 10 < scoreFor "is it?" "logician" p.2)).map
            (fun p => p.2.context.domain) ∧
        ∀ d, ((cyclicStore.filter fun p =>
          decide (F64.lit 3 10 < scoreFor "is it?" "logician" p.2)).map
            fun p => p.2.context.domain).count d ≤
          ((cyclicStore.filter fun p =>
            decide (F64.lit 3 10 < scoreFor "is it?" "logician" p.2)).map
              fun p => p.2.context.domain).count D :=
  ⟨by decide!, (contextSummary_spec cyclicStore "is it?" "logician").2 (by decide!)⟩
/-! ## The average quality -/

theorem foldl_qualityScores (memories : List MemoryEntry) (start : Nat) :
    memories.foldl (fun sum m => sum + qualityScores m.quality) start =
      start + (memories.map fun m => qualityScores m.quality).sum := by
  induction memories generalizing start with
  | nil => simp
  | cons m ms ih =>
    rw [List.foldl_cons, ih, List.map_cons, List.sum_cons]
    omega

theorem qualityScores_sum_bounds (memories : List MemoryEntry) :
    memories.length ≤ (memories.map fun m => qualityScores m.quality).sum ∧
      (memories.map fun m => qualityScores m.quality).sum ≤ 3 * memories.length := by
  induction memories with
  | nil => simp
  | cons m ms ih =>
    rw [List.map_cons, List.sum_cons, List.length_cons]
    have h : 1 ≤ qualityScores m.quality ∧ qualityScores m.quality ≤ 3 := by
      cases m.quality <;> simp [qualityScores]
    omega

theorem F64.nearest_error (a d : Nat) (hd : 0 < d) :
    2 * (F64.nearest a d * d - a) ≤ d ∧ 2 * (a - F64.nearest a d * d) ≤ d := by
  have h1 := Nat.div_add_mod a d
  have h2 := Nat.mod_lt a hd
  have h3 : d * (a / d) = a / d * d := Nat.mul_comm _ _
  unfold F64.nearest
  simp only
  split_ifs
  · constructor <;> omega
  · rw [Nat.add_mul]
    constructor <;> omega
  · constructor <;> omega
  · rw [Nat.add_mul]
    constructor <;> omega

theorem F64.round_error (a b : Nat) (hb : 0 < b) (h : 2 ^ 53 ≤ a / b) :
    2 ^ 53 * (F64.round a b * b - a) ≤ a ∧ 2 ^ 53 * (a - F64.round a b * b) ≤ a := by
  rcases F64.shift_spec (a / b) with ⟨h1, -⟩ | ⟨-, h2, -⟩
  · omega
  · have hpos : 0 < b * 2 ^ F64.shift (a / b) :=
      Nat.mul_pos hb (Nat.pos_pow_of_pos _ (by omega))
    have herr := F64.nearest_error a (b * 2 ^ F64.shift (a / b)) hpos
    have hval : F64.round a b * b =
        F64.nearest a (b * 2 ^ F64.shift (a / b)) * (b * 2 ^ F64.shift (a / b)) := by
      unfold F64.round
      simp only
      ring
    have hd : 2 ^ 52 * (b * 2 ^ F64.shift (a / b)) ≤ a := by
      calc 2 ^ 52 * (b * 2 ^ F64.shift (a / b)) = 2 ^ (52 + F64.shift (a / b)) * b := by
            rw [Nat.pow_add]; ring
        _ ≤ a / b * b := Nat.mul_le_mul_right b h2
        _ ≤ a := Nat.div_mul_le_self a b
    rw [hval]
    have e : (2 : Nat) ^ 53 = 2 ^ 52 * 2 := by norm_num
    constructor
    · calc 2 ^ 53 * (F64.nearest a (b * 2 ^ F64.shift (a / b)) *
            (b * 2 ^ F64.shift (a / b)) - a)
          = 2 ^ 52 * (2 * (F64.nearest a (b * 2 ^ F64.shift (a / b)) *
            (b * 2 ^ F64.shift (a / b)) - a)) := by rw [e, Nat.mul_assoc]
        _ ≤ 2 ^ 52 * (b * 2 ^ F64.shift (a / b)) := Nat.mul_le_mul_left _ herr.1
        _ ≤ a := hd
    · calc 2 ^ 53 * (a - F64.nearest a (b * 2 ^ F64.shift (a / b)) *
            (b * 2 ^ F64.shift (a / b)))
          = 2 ^ 52 * (2 * (a - F64.nearest a (b * 2 ^ F64.shift (a / b)) *
            (b * 2 ^ F64.shift (a / b)))) := by rw [e, Nat.mul_assoc]
        _ ≤ 2 ^ 52 * (b * 2 ^ F64.shift (a / b)) := Nat.mul_le_mul_left _ herr.2
        _ ≤ a := hd

theorem F64.ofNat_le_div (T total n : Nat) (hT : F64.round (F64.ofNat T) 1 = F64.ofNat T)
    (hn : 0 < n) (h : T * n ≤ total) :
    F64.ofNat T ≤ F64.div (F64.ofNat total) (F64.ofNat n) := by
  have hone := F64.one_pos
  rw [← hT]
  unfold F64.div F64.ofNat
  apply F64.round_mono (by omega) (Nat.mul_pos hn hone)
  calc T * F64.one * (n * F64.one) = T * n * (F64.one * F64.one) := by ring
    _ ≤ total * (F64.one * F64.one) := Nat.mul_le_mul_right _ h
    _ = total * F64.one * F64.one * 1 := by ring

theorem F64.div_le_ofNat (T total n : Nat) (hT : F64.round (F64.ofNat T) 1 = F64.ofNat T)
    (hn : 0 < n) (h : total ≤ T * n) :
    F64.div (F64.ofNat total) (F64.ofNat n) ≤ F64.ofNat T := by
  have hone := F64.one_pos
  rw [← hT]
  unfold F64.div F64.ofNat
  apply F64.round_mono (Nat.mul_pos hn hone) (by omega)
  calc total * F64.one * F64.one * 1 = total * (F64.one * F64.one) := by ring
    _ ≤ T * n * (F64.one * F64.one) := Nat.mul_le_mul_right _ h
    _ = T * F64.one * (n * F64.one) := by ring

theorem F64.div_ofNat_bounds (total n : Nat) (hn : 0 < n) (h1 : n ≤ total) (h3 : total ≤ 3 * n) :
    F64.ofNat 1 ≤ F64.div (F64.ofNat total) (F64.ofNat n) ∧
      F64.div (F64.ofNat total) (F64.ofNat n) ≤ F64.ofNat 3 :=
  ⟨F64.ofNat_le_div 1 total n (by decide!) hn (by omega),
    F64.div_le_ofNat 3 total n (by decide!) hn h3⟩

theorem F64.div_ofNat_error (total n : Nat) (hn : 0 < n) (h1 : n ≤ total) :
    2 ^ 53 * (F64.div (F64.ofNat total) (F64.ofNat n) * n - total * F64.one) ≤
        total * F64.one ∧
      2 ^ 53 * (total * F64.one - F64.div (F64.ofNat total) (F64.ofNat n) * n) ≤
        total * F64.one := by
  have hone := F64.one_pos
  have hq : 2 ^ 53 ≤ total * F64.one * F64.one / (n * F64.one) := by
    rw [Nat.le_div_iff_mul_le (Nat.mul_pos hn hone)]
    have h53 : (2 : Nat) ^ 53 ≤ F64.one := by
      unfold F64.one
      apply Nat.pow_le_pow_right <;> omega
    calc 2 ^ 53 * (n * F64.one) ≤ F64.one * (total * F64.one) :=
          Nat.mul_le_mul h53 (Nat.mul_le_mul_right _ h1)
      _ = total * F64.one * F64.one := by ring
  have h := F64.round_error (total * F64.one * F64.one) (n * F64.one) (Nat.mul_pos hn hone) hq
  unfold F64.div F64.ofNat
  have e1 : F64.round (total * F64.one * F64.one) (n * F64.one) * (n * F64.one) -
      total * F64.one * F64.one =
      (F64.round (total * F64.one * F64.one) (n * F64.one) * n - total * F64.one) *
        F64.one := by
    rw [Nat.sub_mul]; ring_nf
  have e2 : total * F64.one * F64.one -
      F64.round (total * F64.one * F64.one) (n * F64.one) * (n * F64.one) =
      (total * F64.one - F64.round (total * F64.one * F64.one) (n * F64.one) * n) *
        F64.one := by
    rw [Nat.sub_mul]; ring_nf
  rw [e1, e2, ← Nat.mul_assoc, ← Nat.mul_assoc] at h
  exact ⟨Nat.le_of_mul_le_mul_right h.1 hone, Nat.le_of_mul_le_mul_right h.2 hone⟩

/-- C21. The field `totalMemories` is the number of entries.  The field `averageQuality`
is not a number exactly on the empty store; on every other store it is the binary64
quotient of the sum of the quality scores (low 1, medium 2, high 3) by the number of
entries, it lies between 1 and 3, and it differs from the exact quotient by at most
`2 ^ (-53)` times that quotient. -/
theorem averageQuality_mean (memory : MemoryMap) :
    (getMemoryStats memory).totalMemories = memory.length ∧
    ((getMemoryStats memory).averageQuality = none ↔ memory = []) ∧
    (memory ≠ [] →
      ∃ average, (getMemoryStats memory).averageQuality = some average ∧
        average = F64.div (F64.ofNat (memory.map fun p => qualityScores p.2.quality).sum)
          (F64.ofNat memory.length) ∧
        F64.ofNat 1 ≤ average ∧ average ≤ F64.ofNat 3 ∧
        2 ^ 53 * (average * memory.length -
            (memory.map fun p => qualityScores p.2.quality).sum * F64.one) ≤
          (memory.map fun p => qualityScores p.2.quality).sum * F64.one ∧
        2 ^ 53 * ((memory.map fun p => qualityScores p.2.quality).sum * F64.one -
            average * memory.length) ≤
          (memory.map fun p => qualityScores p.2.quality).sum * F64.one) := by
  have hsum : (memory.map Prod.snd).foldl (fun sum m => sum + qualityScores m.quality) 0 =
      (memory.map fun p => qualityScores p.2.quality).sum := by
    rw [foldl_qualityScores, Nat.zero_add, List.map_map]
    rfl
  have hb := qualityScores_sum_bounds (memory.map Prod.snd)
  rw [List.map_map, List.length_map] at hb
  have hb1 : memory.length ≤ (memory.map fun p => qualityScores p.2.quality).sum := hb.1
  have hb3 : (memory.map fun p => qualityScores p.2.quality).sum ≤ 3 * memory.length := hb.2
  refine ⟨rfl, ?_, ?_⟩
  · unfold getMemoryStats
    simp only [List.length_map]
    split_ifs with h
    · simp [List.length_eq_zero.mp h]
    · simp only [reduceCtorEq, false_iff]
      exact fun h0 => h (by rw [h0]; rfl)
  · intro hne
    have hlen : memory.length ≠ 0 := fun h => hne (List.length_eq_zero.mp h)
    refine ⟨_, ?_, rfl, ?_⟩
    · unfold getMemoryStats
      simp only [List.length_map]
      rw [if_neg hlen, hsum]
    · have h1 := F64.div_ofNat_bounds _ _ (Nat.pos_of_ne_zero hlen) hb1 hb3
      have h2 := F64.div_ofNat_error _ _ (Nat.pos_of_ne_zero hlen) hb1
      exact ⟨h1.1, h1.2, h2.1, h2.2⟩

/-- Witness of C21: the three entries of `cyclicStore` have low quality, so the average
is 1. -/
theorem averageQuality_mean_witness :
    cyclicStore ≠ [] ∧
      ∃ average, (getMemoryStats cyclicStore).averageQuality = some average ∧
        average = F64.div (F64.ofNat (cyclicStore.map fun p => qualityScores p.2.quality).sum)
          (F64.ofNat cyclicStore.length) ∧
        F64.ofNat 1 ≤ average ∧ average ≤ F64.ofNat 3 ∧
        2 ^ 53 * (average * cyclicStore.length -
            (cyclicStore.map fun p => qualityScores p.2.quality).sum * F64.one) ≤
          (cyclicStore.map fun p => qualityScores p.2.quality).sum * F64.one ∧
        2 ^ 53 * ((cyclicStore.map fun p => qualityScores p.2.quality).sum * F64.one -
            average * cyclicStore.length) ≤
          (cyclicStore.map fun p => qualityScores p.2.quality).sum * F64.one :=
  ⟨by decide!, (averageQuality_mean cyclicStore).2.2 (by decide!)⟩

/-! ## Boundary cases -/

/-- C22 fails at the boundary.  The entry of `boundaryStore` has the persona and the
sentiment of the query, none of its topics and none of its four context fields; its score
is the binary64 sum `0.2 + 0.1`, which is above the binary64 value `0.3`, and the entry is
returned. -/
theorem threshold_boundary_returned :
    storeAll [] [boundaryCall 5] = .ok boundaryStore ∧
    boundaryStore = [("s1", (boundaryCall 5).entry)] ∧
    (boundaryCall 5).entry.persona = "logician" ∧
    (boundaryCall 5).entry.sentiment = analyzeSentiment "Would gardening matter?" ∧
    (∀ t ∈ (boundaryCall 5).entry.topics, t ∉ extractTopics "Would gardening matter?") ∧
    (boundaryCall 5).entry.context.domain ≠
      (extractContext "Would gardening matter?").domain ∧
    (boundaryCall 5).entry.context.intent ≠
      (extractContext "Would gardening matter?").intent ∧
    (boundaryCall 5).entry.context.complexity ≠
      (extractContext "Would gardening matter?").complexity ∧
    (boundaryCall 5).entry.context.questionType ≠
      (extractContext "Would gardening matter?").questionType ∧
    scoreFor "Would gardening matter?" "logician" (boundaryCall 5).entry =
      F64.add (F64.lit 2 10) (F64.lit 1 10) ∧
    F64.lit 3 10 < F64.add (F64.lit 2 10) (F64.lit 1 10) ∧
    (getRelevantContext boundaryStore "Would gardening matter?" "logician").relevantMemories =
      [⟨(boundaryCall 5).entry, F64.add (F64.lit 2 10) (F64.lit 1 10)⟩] := by
  decide!

/-- C23 fails on three sentences of ten words each: the text has thirty pieces between
single spaces, but four pieces between runs of terminators, the last one empty, so the
average is 7.5 and the text is graded simple. -/
theorem three_sentences_simple :
    (splitOnChar ' ' threeSentences.data).length = 30 ∧
    (splitRuns isTerminator threeSentences.data).length = 4 ∧
    (splitRuns isTerminator threeSentences.data).getLast? = some [] ∧
    assessComplexity threeSentences = .simple := by
  decide!

/-- C25 fails for the keyword `AI`: it is declared with capitals and sought in the
lower-cased input, so that `identifyDomain` answers `general`; every other declared
keyword yields its domain. -/
theorem keyword_AI_ineffective :
    "AI" ∈ keywordsOf domainKeywords .technology ∧
    identifyDomain "AI" = .general ∧
    (toLowerCase "AI".data = "ai".data) ∧
    ∀ p ∈ domainKeywords, ∀ k ∈ p.2, k ≠ "AI" → identifyDomain k = p.1 := by
  decide!

/-! ## Question type and intent -/

theorem mem_toLowerCase (c : Char) (s : List Char) (hc : toLowerChar c = [c]) (h : c ∈ s) :
    c ∈ toLowerCase s := by
  unfold toLowerCase
  rw [List.mem_flatten]
  exact ⟨[c], List.mem_map.mpr ⟨c, h, hc⟩, List.mem_singleton.mpr rfl⟩

/-- C26. A question type other than `statement` implies the intent `question`, for the
two functions and for the fields of every extracted context. -/
theorem questionType_implies_question_intent (input : String) :
    (identifyQuestionType input ≠ .statement → identifyIntent input = .question) ∧
    ((extractContext input).questionType ≠ .statement →
      (extractContext input).intent = .question) := by
  have key : identifyQuestionType input ≠ .statement → identifyIntent input = .question := by
    intro h
    have hq : includes input.data "?".data = true := by
      by_contra hn
      apply h
      unfold identifyQuestionType
      rw [if_pos (by simpa using hn)]
    have hmem : '?' ∈ input.data := (includes_singleton_iff _ _).mp hq
    have hlow : includes (toLowerCase input.data) "?".data = true :=
      (includes_singleton_iff _ _).mpr (mem_toLowerCase '?' _ (by decide) hmem)
    unfold identifyIntent intentIndicators firstMatch
    simp only [List.find?_cons, List.any_cons, hlow, Bool.true_or, Option.map_some',
      Option.getD_some]
  exact ⟨key, key⟩

/-- Witness of C26: the question `is it?`. -/
theorem questionType_implies_question_intent_witness :
    identifyQuestionType "is it?" ≠ .statement ∧ identifyIntent "is it?" = .question :=
  ⟨by decide!, (questionType_implies_question_intent "is it?").1 (by decide!)⟩

/-! ## Validation -/

/-- C27 fails: the default model name `llama3:8b` holds a colon, which is one of the
characters `validateModel` rejects, so the name is invalid and `validateAndSanitize`
answers `valid: false` without a `model` in its data. -/
theorem default_model_rejected :
    CONFIG.OLLAMA.DEFAULT_MODEL = utf16 "llama3:8b" ∧
    ':'.toNat ∈ CONFIG.OLLAMA.DEFAULT_MODEL ∧
    isInvalidModelUnit ':'.toNat = true ∧
    Validator.validateModel (.string CONFIG.OLLAMA.DEFAULT_MODEL) =
      .invalid "Model name contains invalid characters" ∧
    Validator.validateUserText defaultModelParams.userText = .ok ∧
    Validator.validatePersona defaultModelParams.persona = .ok ∧
    Validator.validateTemperature defaultModelParams.temperature = .ok ∧
    Validator.validateMaxTokens defaultModelParams.maxTokens = .ok ∧
    (Validator.validateAndSanitize defaultModelParams).valid = false ∧
    (Validator.validateAndSanitize defaultModelParams).errors =
      ["Model name contains invalid characters"] ∧
    (Validator.validateAndSanitize defaultModelParams).data.model = none := by
  decide!

/-- C28 fails on a text made of one escape character: the text is not white space, so
it is valid, and `sanitizeInput` removes the character, so that the validated
`data.userText` is the empty string. -/
theorem validated_text_empty :
    Validator.validateUserText escapeParams.userText = .ok ∧
    Validator.validateAndSanitize escapeParams =
      { valid := true, errors := [],
        data := { userText := some [], model := none, persona := none, temperature := none,
                  maxTokens := none } } := by
  decide!

theorem trim_sublist (s : JsString) : List.Sublist (trim s) s := by
  unfold trim
  exact (List.rdropWhile_prefix _ _).sublist.trans (List.dropWhile_sublist _)

/-- C29. For a string, `sanitizeInput` returns at most 10,000 code units, none of them a
control character U+0000 to U+0008, U+000B, U+000C, U+000E to U+001F or U+007F, and all
of them code units of the input in their order; for a value that is not a string it
returns the empty string. -/
theorem sanitizeInput_postcondition (input : JsValue) :
    (∀ s, input = .string s →
      (Validator.sanitizeInput input).length ≤ 10000 ∧
      (∀ u ∈ Validator.sanitizeInput input,
        ¬ (u ≤ 0x08 ∨ u = 0x0B ∨ u = 0x0C ∨ (0x0E ≤ u ∧ u ≤ 0x1F) ∨ u = 0x7F)) ∧
      List.Sublist (Validator.sanitizeInput input) s) ∧
    ((∀ s, input ≠ .string s) → Validator.sanitizeInput input = []) := by
  constructor
  · rintro s rfl
    have hdef : Validator.sanitizeInput (.string s) =
        ((trim s).filter fun u => !isControlUnit u).take 10000 := rfl
    rw [hdef]
    refine ⟨?_, ?_, ?_⟩
    · rw [List.length_take]
      exact Nat.min_le_left _ _
    · intro u hu
      have h1 := List.mem_filter.mp (List.mem_of_mem_take hu)
      have h2 : isControlUnit u = false := by simpa using h1.2
      unfold isControlUnit at h2
      simp only [Bool.or_eq_false_iff, Bool.and_eq_false_iff, decide_eq_false_iff_not] at h2
      omega
    · exact ((List.take_sublist _ _).trans (List.filter_sublist _)).trans (trim_sublist s)
  · intro h
    cases input with
    | string s => exact absurd rfl (h s)
    | undefined => rfl
    | null => rfl
    | boolean b => rfl
    | number x => rfl
    | bigint n => rfl
    | symbol => rfl
    | object => rfl
    | function => rfl

/-- Witness of C29: a text with white space around it and two control characters in
it. -/
theorem sanitizeInput_postcondition_witness :
    Validator.sanitizeInput (.string (utf16 " a\x01b\x7f ")) = utf16 "ab" ∧
    (Validator.sanitizeInput (.string (utf16 " a\x01b\x7f "))).length ≤ 10000 ∧
    Validator.sanitizeInput .null = [] :=
  ⟨by decide!,
    ((sanitizeInput_postcondition (.string (utf16 " a\x01b\x7f "))).1 _ rfl).1,
    (sanitizeInput_postcondition .null).2 (fun s h => by cases h)⟩

/-! ## The error log -/

theorem getRecentErrors_of_pos (errorLog : List ErrorEntry) (limit : Nat) (h : 1 ≤ limit) :
    ErrorHandler.getRecentErrors errorLog (some limit) =
      errorLog.drop (errorLog.length - min limit errorLog.length) := by
  unfold ErrorHandler.getRecentErrors sliceFrom
  simp only [Option.getD_some]
  rw [if_pos (by omega)]
  congr 1
  omega

/-- C30 fails for the limit 0: `slice(-0)` is `slice(0)`, the whole log, where the claim
asks for no entry.  For the limits 1 and 3 and for the default 10 the last entries are
returned. -/
theorem getRecentErrors_zero :
    sampleLog.length = 2 ∧
    ErrorHandler.getRecentErrors sampleLog (some 0) = sampleLog ∧
    ErrorHandler.getRecentErrors sampleLog (some 1) = sampleLog.drop 1 ∧
    ErrorHandler.getRecentErrors sampleLog (some 3) = sampleLog ∧
    ErrorHandler.getRecentErrors sampleLog none = sampleLog := by
  decide!

/-! ## Reading does not write -/

theorem Heap.prefix_alloc {h0 h : Heap} (o : JsObject) (hp : h0 <+: h) :
    h0 <+: (h.alloc o).2 :=
  hp.trans (List.prefix_append h [o])

theorem Heap.le_alloc {h0 h : Heap} (o : JsObject) (hp : h0 <+: h) :
    h0.length ≤ (h.alloc o).1 :=
  hp.length_le

theorem Heap.prefix_update {h0 h : Heap} (r : Ref) (o : JsObject) (hp : h0 <+: h)
    (hr : h0.length ≤ r) : h0 <+: h.update r o := by
  obtain ⟨t, rfl⟩ := hp
  unfold Heap.update
  rw [List.set_append_right _ _ hr]
  exact List.prefix_append _ _

theorem popMostFrequent_extends {α : Type} [DecidableEq α]
    (read : Heap → Ref → Option (List α)) (write : List α → JsObject) {h0 h : Heap} (r : Ref)
    (hp : h0 <+: h) (hr : h0.length ≤ r) : h0 <+: (popMostFrequent read write h r).2 := by
  unfold popMostFrequent
  exact Heap.prefix_update _ _ (Heap.prefix_update _ _ hp hr) hr

theorem scoreEntry_extends (currentContext : Context) (currentTopics : List String)
    (currentSentiment : Sentiment) (currentPersona : String) (relevantMemories : Ref)
    {h0 h : Heap} (p : String × Ref) (hp : h0 <+: h) (hr : h0.length ≤ relevantMemories) :
    h0 <+: scoreEntry currentContext currentTopics currentSentiment currentPersona
      relevantMemories h p := by
  unfold scoreEntry
  split
  · exact hp
  · split
    · exact hp
    · simp only
      split_ifs
      · split
        · exact Heap.prefix_update _ _ (Heap.prefix_alloc _ hp) hr
        · exact Heap.prefix_alloc _ hp
      · exact hp

theorem foldl_scoreEntry_extends (currentContext : Context) (currentTopics : List String)
    (currentSentiment : Sentiment) (currentPersona : String) (relevantMemories : Ref)
    {h0 : Heap} (hr : h0.length ≤ relevantMemories) (entries : List (String × Ref)) (h : Heap)
    (hp : h0 <+: h) :
    h0 <+: entries.foldl (scoreEntry currentContext currentTopics currentSentiment
      currentPersona relevantMemories) h := by
  induction entries generalizing h with
  | nil => exact hp
  | cons p rest ih =>
    rw [List.foldl_cons]
    exact ih _ (scoreEntry_extends _ _ _ _ _ p hp hr)

theorem generateContextSummaryH_extends {h0 h : Heap} (memories : Ref) (hp : h0 <+: h) :
    h0 <+: (generateContextSummaryH h memories).2 := by
  unfold generateContextSummaryH
  simp only
  split_ifs
  · exact hp
  · exact popMostFrequent_extends _ _ _ (Heap.prefix_alloc _ hp) (Heap.le_alloc _ hp)

theorem generateSuggestionsH_extends {h0 h : Heap} (currentInput : String) (memories : Ref)
    (hp : h0 <+: h) : h0 <+: (generateSuggestionsH h currentInput memories).2 := by
  unfold generateSuggestionsH
  simp only
  exact Heap.prefix_alloc _ (Heap.prefix_update _ _ (Heap.prefix_update _ _
    (Heap.prefix_alloc _ hp) (Heap.le_alloc _ hp)) (Heap.le_alloc _ hp))

theorem getRelevantContextH_extends (h : Heap) (this : Ref) (currentInput currentPersona : String) :
    h <+: (getRelevantContextH h this currentInput currentPersona).2 := by
  unfold getRelevantContextH
  simp only
  have h0 : h <+: h := List.prefix_refl h
  have hr := Heap.le_alloc (.objects []) h0
  apply generateSuggestionsH_extends
  apply generateContextSummaryH_extends
  apply Heap.prefix_alloc
  apply Heap.prefix_update _ _ _ hr
  exact foldl_scoreEntry_extends _ _ _ _ _ hr _ _ (Heap.prefix_alloc _ h0)

theorem getMemoryStatsH_extends (h : Heap) (this : Ref) :
    h <+: (getMemoryStatsH h this).2 := by
  unfold getMemoryStatsH
  simp only
  have h0 : h <+: h := List.prefix_refl h
  refine popMostFrequent_extends _ _ _ (popMostFrequent_extends _ _ _
    (Heap.prefix_alloc _ (Heap.prefix_alloc _ h0)) ?_) ?_
  · exact Nat.le_refl _
  · exact Heap.le_alloc _ (Heap.prefix_alloc _ h0)

/-! ## What a heap holds, after a change -/

theorem Heap.getElem?_of_extends {h h1 : Heap} (hp : h <+: h1) {r : Ref} {o : JsObject}
    (hr : h[r]? = some o) : h1[r]? = some o := by
  obtain ⟨t, rfl⟩ := hp
  have hlt : r < h.length := (List.getElem?_eq_some.mp hr).1
  rw [List.getElem?_append_left hlt]
  exact hr

theorem Heap.objectsAt_of_extends {h h1 : Heap} (hp : h <+: h1) {r : Ref} {items : List Ref}
    (hr : h.objectsAt r = some items) : h1.objectsAt r = some items := by
  unfold Heap.objectsAt at hr ⊢
  split at hr
  · rename_i o heq
    rw [Heap.getElem?_of_extends hp heq]
    exact hr
  · cases hr

theorem Heap.mapAt_of_extends {h h1 : Heap} (hp : h <+: h1) {r : Ref}
    {entries : List (String × Ref)} (hr : h.mapAt r = some entries) :
    h1.mapAt r = some entries := by
  unfold Heap.mapAt at hr ⊢
  split at hr
  · rename_i o heq
    rw [Heap.getElem?_of_extends hp heq]
    exact hr
  · cases hr

theorem Heap.Preserved.refl (h : Heap) : h.Preserved h :=
  fun _ => ⟨fun _ h1 => h1, fun _ h1 => h1, fun _ h1 => h1⟩

theorem Heap.Preserved.trans {h h1 h2 : Heap} (p : h.Preserved h1) (q : h1.Preserved h2) :
    h.Preserved h2 :=
  fun r => ⟨fun e he => (q r).1 e ((p r).1 e he), fun c hc => (q r).2.1 c ((p r).2.1 c hc),
    fun s hs => (q r).2.2 s ((p r).2.2 s hs)⟩

theorem Heap.Preserved.of_extends {h h1 : Heap} (hp : h <+: h1) : h.Preserved h1 := by
  intro r
  refine ⟨?_, ?_, ?_⟩
  · intro e he
    unfold Heap.entryAt at he ⊢
    split at he
    · rename_i o heq
      rw [Heap.getElem?_of_extends hp heq]
      exact he
    · cases he
  · intro c hc
    unfold Heap.contextAt at hc ⊢
    split at hc
    · rename_i o heq
      rw [Heap.getElem?_of_extends hp heq]
      exact hc
    · cases hc
  · intro s hs
    unfold Heap.stringsAt at hs ⊢
    split at hs
    · rename_i o heq
      rw [Heap.getElem?_of_extends hp heq]
      exact hs
    · cases hs

theorem Heap.getElem?_update_ne (h : Heap) {r q : Ref} (o : JsObject) (hne : q ≠ r) :
    (h.update r o)[q]? = h[q]? := by
  unfold Heap.update
  exact List.getElem?_set_ne (Ne.symm hne)

theorem Heap.objectsAt_update (h : Heap) (r : Ref) {items : List Ref} (new : List Ref)
    (hr : h.objectsAt r = some items) : (h.update r (.objects new)).objectsAt r = some new := by
  have hlt : r < h.length := by
    unfold Heap.objectsAt at hr
    split at hr
    · rename_i o heq
      exact (List.getElem?_eq_some.mp heq).1
    · cases hr
  unfold Heap.objectsAt Heap.update
  rw [List.getElem?_set_eq_of_lt _ hlt]

theorem Heap.Preserved.update_objects (h : Heap) (r : Ref) {items : List Ref} (new : List Ref)
    (hr : h.objectsAt r = some items) : h.Preserved (h.update r (.objects new)) := by
  have hcell : ∃ x, h[r]? = some (.objects x) := by
    unfold Heap.objectsAt at hr
    split at hr
    · rename_i o heq
      exact ⟨_, heq⟩
    · cases hr
  obtain ⟨x, hx⟩ := hcell
  intro q
  by_cases hq : q = r
  · subst hq
    refine ⟨?_, ?_, ?_⟩
    · intro e he
      unfold Heap.entryAt at he
      rw [hx] at he
      cases he
    · intro c hc
      unfold Heap.contextAt at hc
      rw [hx] at hc
      cases hc
    · intro s hs
      unfold Heap.stringsAt at hs
      rw [hx] at hs
      cases hs
  · refine ⟨?_, ?_, ?_⟩
    · intro e he
      unfold Heap.entryAt at he ⊢
      rw [Heap.getElem?_update_ne h _ hq]
      exact he
    · intro c hc
      unfold Heap.contextAt at hc ⊢
      rw [Heap.getElem?_update_ne h _ hq]
      exact hc
    · intro s hs
      unfold Heap.stringsAt at hs ⊢
      rw [Heap.getElem?_update_ne h _ hq]
      exact hs

theorem Heap.Preserved.entryValue {h h1 : Heap} (p : h.Preserved h1) {e : EntryObject}
    {value : MemoryEntry} (hv : h.entryValue e = some value) : h1.entryValue e = some value := by
  unfold Heap.entryValue at hv ⊢
  split at hv
  · rename_i c t hc ht
    rw [(p e.context).2.1 c hc, (p e.topics).2.2 t ht]
    exact hv
  · cases hv

theorem Heap.Preserved.memoryAt {h h1 : Heap} (p : h.Preserved h1) {r : Ref}
    {value : MemoryEntry} (hv : h.memoryAt r = some value) : h1.memoryAt r = some value := by
  unfold Heap.memoryAt at hv ⊢
  split at hv
  · rename_i e he
    rw [(p r).1 e he]
    simp only
    split_ifs at hv ⊢
    exact p.entryValue hv
  · cases hv

theorem Heap.Preserved.scoredAt {h h1 : Heap} (p : h.Preserved h1) {r : Ref}
    {value : ScoredMemory} (hv : h.scoredAt r = some value) : h1.scoredAt r = some value := by
  unfold Heap.scoredAt at hv ⊢
  split at hv
  · rename_i e he
    rw [(p r).1 e he]
    simp only
    split at hv
    · rename_i memory score hm hs
      rw [p.entryValue hm, hs]
      exact hv
    · cases hv
  · cases hv

theorem Heap.Preserved.entries {h h1 : Heap} (p : h.Preserved h1) (pairs : List (String × Ref))
    {memory : MemoryMap} (hv : h.entries pairs = some memory) :
    h1.entries pairs = some memory := by
  induction pairs generalizing memory with
  | nil => exact hv
  | cons q rest ih =>
    unfold Heap.entries at hv ⊢
    split at hv
    · rename_i value tail hm ht
      rw [p.memoryAt hm, ih ht]
      exact hv
    · cases hv

theorem Heap.Preserved.scoredList {h h1 : Heap} (p : h.Preserved h1) (items : List Ref)
    {values : List ScoredMemory} (hv : h.scoredList items = some values) :
    h1.scoredList items = some values := by
  induction items generalizing values with
  | nil => exact hv
  | cons q rest ih =>
    unfold Heap.scoredList at hv ⊢
    split at hv
    · rename_i value tail hm ht
      rw [p.scoredAt hm, ih ht]
      exact hv
    · cases hv

theorem Heap.scoredList_append (h : Heap) (items : List Ref) (r : Ref)
    {values : List ScoredMemory} {value : ScoredMemory}
    (hv : h.scoredList items = some values) (hr : h.scoredAt r = some value) :
    h.scoredList (items ++ [r]) = some (values ++ [value]) := by
  induction items generalizing values with
  | nil =>
    cases hv
    simp [Heap.scoredList, hr]
  | cons q rest ih =>
    unfold Heap.scoredList at hv
    split at hv
    · rename_i x tail hx ht
      cases hv
      rw [List.cons_append, Heap.scoredList, hx, ih ht]
      rfl
    · cases hv

theorem Heap.lt_length_of_objectsAt {h : Heap} {r : Ref} {items : List Ref}
    (hr : h.objectsAt r = some items) : r < h.length := by
  unfold Heap.objectsAt at hr
  split at hr
  · rename_i o heq
    exact (List.getElem?_eq_some.mp heq).1
  · cases hr

theorem Heap.memoryAt_eq_some {h : Heap} {r : Ref} {value : MemoryEntry}
    (hv : h.memoryAt r = some value) :
    ∃ e, h.entryAt r = some e ∧ e.relevanceScore = none ∧ h.entryValue e = some value := by
  unfold Heap.memoryAt at hv
  split at hv
  · rename_i e he
    split_ifs at hv with hs
    exact ⟨e, he, hs, hv⟩
  · cases hv

theorem pushCopy_spec (h : Heap) (relevantMemories : Ref) (e : EntryObject) (score : F64)
    {value : MemoryEntry} {items : List Ref} {values : List ScoredMemory}
    (hev : h.entryValue e = some value)
    (hitems : h.objectsAt relevantMemories = some items)
    (hvalues : h.scoredList items = some values) :
    ((h.alloc (.entry (e.withScore score))).2.update relevantMemories
        (.objects (items ++ [h.length]))).objectsAt relevantMemories =
      some (items ++ [h.length]) ∧
    ((h.alloc (.entry (e.withScore score))).2.update relevantMemories
        (.objects (items ++ [h.length]))).scoredList (items ++ [h.length]) =
      some (values ++ [⟨value, score⟩]) ∧
    h.Preserved ((h.alloc (.entry (e.withScore score))).2.update relevantMemories
      (.objects (items ++ [h.length]))) := by
  have hlt := Heap.lt_length_of_objectsAt hitems
  have hpre : h <+: (h.alloc (.entry (e.withScore score))).2 :=
    Heap.prefix_alloc _ (List.prefix_refl h)
  have hitems1 := Heap.objectsAt_of_extends hpre hitems
  have hkeep : h.Preserved ((h.alloc (.entry (e.withScore score))).2.update relevantMemories
      (.objects (items ++ [h.length]))) :=
    (Heap.Preserved.of_extends hpre).trans (Heap.Preserved.update_objects _ _ _ hitems1)
  refine ⟨Heap.objectsAt_update _ _ _ hitems1, ?_, hkeep⟩
  apply Heap.scoredList_append _ _ _ (hkeep.scoredList _ hvalues)
  have hcopy : ((h.alloc (.entry (e.withScore score))).2.update relevantMemories
      (.objects (items ++ [h.length]))).entryAt h.length = some (e.withScore score) := by
    unfold Heap.entryAt
    rw [Heap.getElem?_update_ne _ _ (Nat.ne_of_gt hlt)]
    unfold Heap.alloc
    simp
  have hval : ((h.alloc (.entry (e.withScore score))).2.update relevantMemories
      (.objects (items ++ [h.length]))).entryValue (e.withScore score) = some value :=
    hkeep.entryValue hev
  unfold Heap.scoredAt
  rw [hcopy]
  simp only
  rw [hval]
  rfl

theorem scoreEntry_spec (currentContext : Context) (currentTopics : List String)
    (currentSentiment : Sentiment) (currentPersona : String) (relevantMemories : Ref)
    (h : Heap) (p : String × Ref) {value : MemoryEntry} {items : List Ref}
    {values : List ScoredMemory} (hv : h.memoryAt p.2 = some value)
    (hitems : h.objectsAt relevantMemories = some items)
    (hvalues : h.scoredList items = some values) :
    ∃ items1,
      (scoreEntry currentContext currentTopics currentSentiment currentPersona
        relevantMemories h p).objectsAt relevantMemories = some items1 ∧
      (scoreEntry currentContext currentTopics currentSentiment currentPersona
        relevantMemories h p).scoredList items1 =
        some (values ++
          (if relevanceScore currentContext currentTopics currentSentiment currentPersona
              value > F64.lit 3 10 then
            [⟨value, relevanceScore currentContext currentTopics currentSentiment
              currentPersona value⟩]
          else [])) ∧
      h.Preserved (scoreEntry currentContext currentTopics currentSentiment currentPersona
        relevantMemories h p) := by
  obtain ⟨e, he, hnone, hev⟩ := Heap.memoryAt_eq_some hv
  have hpush := pushCopy_spec h relevantMemories e
    (relevanceScore currentContext currentTopics currentSentiment currentPersona value)
    hev hitems hvalues
  have hitems1 : (h.alloc (.entry (e.withScore
      (relevanceScore currentContext currentTopics currentSentiment currentPersona
        value)))).2.objectsAt relevantMemories = some items :=
    Heap.objectsAt_of_extends (Heap.prefix_alloc _ (List.prefix_refl h)) hitems
  unfold scoreEntry
  rw [he]
  simp only
  rw [hev]
  simp only
  split_ifs with hs
  · rw [hitems1]
    exact ⟨_, hpush⟩
  · exact ⟨items, hitems, by simpa using hvalues, Heap.Preserved.refl h⟩

theorem foldl_scoreEntry_spec (currentContext : Context) (currentTopics : List String)
    (currentSentiment : Sentiment) (currentPersona : String) (relevantMemories : Ref)
    (pairs : List (String × Ref)) (h : Heap) {memory : MemoryMap} {items : List Ref}
    {values : List ScoredMemory} (hv : h.entries pairs = some memory)
    (hitems : h.objectsAt relevantMemories = some items)
    (hvalues : h.scoredList items = some values) :
    ∃ items1,
      (pairs.foldl (scoreEntry currentContext currentTopics currentSentiment currentPersona
        relevantMemories) h).objectsAt relevantMemories = some items1 ∧
      (pairs.foldl (scoreEntry currentContext currentTopics currentSentiment currentPersona
        relevantMemories) h).scoredList items1 =
        some (values ++ memory.filterMap fun p =>
          if relevanceScore currentContext currentTopics currentSentiment currentPersona
              p.2 > F64.lit 3 10 then
            some ⟨p.2, relevanceScore currentContext currentTopics currentSentiment
              currentPersona p.2⟩
          else none) ∧
      h.Preserved (pairs.foldl (scoreEntry currentContext currentTopics currentSentiment
        currentPersona relevantMemories) h) := by
  induction pairs generalizing h memory items values with
  | nil =>
    cases hv
    exact ⟨items, hitems, by simpa using hvalues, Heap.Preserved.refl h⟩
  | cons p rest ih =>
    unfold Heap.entries at hv
    split at hv
    · rename_i value tail hm ht
      cases hv
      obtain ⟨items1, h1, h2, h3⟩ := scoreEntry_spec currentContext currentTopics
        currentSentiment currentPersona relevantMemories h p hm hitems hvalues
      obtain ⟨items2, k1, k2, k3⟩ := ih _ (h3.entries _ ht) h1 h2
      rw [List.foldl_cons]
      refine ⟨items2, k1, ?_, h3.trans k3⟩
      rw [k2, List.filterMap_cons]
      simp only
      split_ifs <;> simp
    · cases hv

/-! ## The heap methods compute what the methods on values compute -/

theorem Heap.scoredList_eq_some_iff (h : Heap) (items : List Ref) (values : List ScoredMemory) :
    h.scoredList items = some values ↔ items.map h.scoredAt = values.map some := by
  induction items generalizing values with
  | nil =>
    cases values <;> simp [Heap.scoredList]
  | cons r rest ih =>
    unfold Heap.scoredList
    cases hr : h.scoredAt r with
    | none =>
      cases values <;> simp [hr]
    | some x =>
      cases hrest : h.scoredList rest with
      | none =>
        cases values with
        | nil => simp
        | cons v vs =>
          simp only [reduceCtorEq, List.map_cons, hr, List.cons.injEq, Option.some.injEq,
            false_iff, not_and]
          intro _ hmap
          have := (ih vs).mpr hmap
          rw [hrest] at this
          cases this
      | some tail =>
        have htail := (ih tail).mp hrest
        cases values with
        | nil => simp
        | cons v vs =>
          simp only [Option.some.injEq, List.cons.injEq, List.map_cons, hr]
          constructor
          · rintro ⟨rfl, rfl⟩
            exact ⟨rfl, htail⟩
          · rintro ⟨rfl, hmap⟩
            refine ⟨rfl, ?_⟩
            have := (ih vs).mpr hmap
            rw [hrest] at this
            exact Option.some.inj this

theorem Heap.scoredList_take (h : Heap) (n : Nat) {items : List Ref}
    {values : List ScoredMemory} (hv : h.scoredList items = some values) :
    h.scoredList (items.take n) = some (values.take n) := by
  rw [Heap.scoredList_eq_some_iff] at hv ⊢
  rw [List.map_take, List.map_take, hv]

theorem Heap.scoredList_length (h : Heap) {items : List Ref} {values : List ScoredMemory}
    (hv : h.scoredList items = some values) : items.length = values.length := by
  rw [Heap.scoredList_eq_some_iff] at hv
  have := congrArg List.length hv
  simpa using this

theorem Heap.filterMap_scoredAt (h : Heap) {items : List Ref} {values : List ScoredMemory}
    (hv : h.scoredList items = some values) : items.filterMap h.scoredAt = values := by
  rw [Heap.scoredList_eq_some_iff] at hv
  have h1 : items.filterMap h.scoredAt = (items.map h.scoredAt).filterMap id := by
    rw [List.filterMap_map]
    rfl
  rw [h1, hv, List.filterMap_map]
  exact List.filterMap_some _

theorem Heap.head?_scoredAt (h : Heap) {items : List Ref} {values : List ScoredMemory}
    (hv : h.scoredList items = some values) : items.head?.bind h.scoredAt = values.head? := by
  rw [Heap.scoredList_eq_some_iff] at hv
  cases items with
  | nil =>
    cases values with
    | nil => rfl
    | cons v vs => cases hv
  | cons r rest =>
    cases values with
    | nil => cases hv
    | cons v vs =>
      simp only [List.map_cons, List.cons.injEq] at hv
      simp [hv.1]

theorem Heap.scoredList_jsSort (h : Heap) {items : List Ref} {values : List ScoredMemory}
    (hv : h.scoredList items = some values) :
    h.scoredList (jsSort (compareRelevanceAt h) items) =
      some (jsSort compareRelevance values) := by
  rw [Heap.scoredList_eq_some_iff] at hv ⊢
  unfold jsSort
  have h1 := List.map_insertionSort (r := fun a b => compareRelevanceAt h a b ≤ 0)
    (s := fun (x y : Option ScoredMemory) =>
      (match x, y with
        | some x, some y => compareRelevance x y
        | _, _ => 0) ≤ 0) h.scoredAt items (fun a _ b _ => Iff.rfl)
  have h2 := List.map_insertionSort (r := fun a b => compareRelevance a b ≤ 0)
    (s := fun (x y : Option ScoredMemory) =>
      (match x, y with
        | some x, some y => compareRelevance x y
        | _, _ => 0) ≤ 0) some values (fun a _ b _ => Iff.rfl)
  rw [h1, hv, h2]

theorem Heap.getElem?_alloc (h : Heap) (o : JsObject) :
    (h.alloc o).2[(h.alloc o).1]? = some o := by
  unfold Heap.alloc
  simp

theorem Heap.getElem?_update_eq (h : Heap) {r : Ref} (o : JsObject) (hr : r < h.length) :
    (h.update r o)[r]? = some o := by
  unfold Heap.update
  exact List.getElem?_set_eq_of_lt _ hr

theorem Heap.length_update (h : Heap) (r : Ref) (o : JsObject) :
    (h.update r o).length = h.length := by
  unfold Heap.update
  exact List.length_set _ _ _

theorem Heap.lt_length_alloc (h : Heap) (o : JsObject) : (h.alloc o).1 < (h.alloc o).2.length := by
  unfold Heap.alloc
  simp

theorem popMostFrequent_domains (h : Heap) (r : Ref) (ds : List Domain)
    (hr : h[r]? = some (.domains ds)) :
    (popMostFrequent Heap.domainsAt JsObject.domains h r).1 = mostFrequent ds := by
  have hlt : r < h.length := (List.getElem?_eq_some.mp hr).1
  unfold popMostFrequent mostFrequent
  simp only [Heap.domainsAt, hr, Option.getD_some, Heap.getElem?_update_eq _ _ hlt]

theorem popMostFrequent_strings (h : Heap) (r : Ref) (xs : List String)
    (hr : h[r]? = some (.strings xs)) :
    (popMostFrequent Heap.stringsAt JsObject.strings h r).1 = mostFrequent xs := by
  have hlt : r < h.length := (List.getElem?_eq_some.mp hr).1
  unfold popMostFrequent mostFrequent
  simp only [Heap.stringsAt, hr, Option.getD_some, Heap.getElem?_update_eq _ _ hlt]

theorem popMostFrequent_getElem?_ne {α : Type} [DecidableEq α]
    (read : Heap → Ref → Option (List α)) (write : List α → JsObject) (h : Heap) {r q : Ref}
    (hne : q ≠ r) : (popMostFrequent read write h r).2[q]? = h[q]? := by
  unfold popMostFrequent
  simp only
  rw [Heap.getElem?_update_ne _ _ hne, Heap.getElem?_update_ne _ _ hne]

theorem generateContextSummaryH_spec (h : Heap) (memories : Ref) {items : List Ref}
    {values : List ScoredMemory} (hitems : h.objectsAt memories = some items)
    (hvalues : h.scoredList items = some values) :
    (generateContextSummaryH h memories).1 = generateContextSummary values := by
  have hlen := Heap.scoredList_length h hvalues
  have hfm := Heap.filterMap_scoredAt h hvalues
  unfold generateContextSummaryH generateContextSummary
  rw [hitems]
  simp only [Option.getD_some, hlen, hfm]
  split_ifs
  · rfl
  · simp only
    rw [popMostFrequent_domains _ _ _ (Heap.getElem?_alloc h _)]

theorem generateSuggestionsH_spec (h : Heap) (currentInput : String) (memories : Ref)
    {items : List Ref} {values : List ScoredMemory}
    (hitems : h.objectsAt memories = some items)
    (hvalues : h.scoredList items = some values) :
    (generateSuggestionsH h currentInput memories).2.stringsAt
        (generateSuggestionsH h currentInput memories).1 =
      some (generateSuggestions currentInput values) := by
  have hpre : h <+: (h.alloc (.strings [])).2 := Heap.prefix_alloc _ (List.prefix_refl h)
  have hitems1 := Heap.objectsAt_of_extends hpre hitems
  have hhead := Heap.head?_scoredAt _ ((Heap.Preserved.of_extends hpre).scoredList _ hvalues)
  have hlt := Heap.lt_length_alloc h (.strings [])
  have hlt1 : ∀ o, (h.alloc (.strings [])).1 < ((h.alloc (.strings [])).2.update
      (h.alloc (.strings [])).1 o).length := by
    intro o
    rw [Heap.length_update]
    exact hlt
  unfold generateSuggestionsH generateSuggestions
  simp only [hitems1, Option.getD_some, hhead, Heap.stringsAt, Heap.getElem?_alloc,
    Heap.getElem?_update_eq _ _ hlt, Heap.getElem?_update_eq _ _ (hlt1 _), List.nil_append]

theorem Heap.store_eq_some {h : Heap} {this : Ref} {memory : MemoryMap}
    (hs : h.store this = some memory) :
    ∃ pairs, h.mapAt this = some pairs ∧ h.entries pairs = some memory := by
  unfold Heap.store at hs
  split at hs
  · rename_i pairs hp
    exact ⟨pairs, hp, hs⟩
  · cases hs

theorem Heap.store_of_extends {h h1 : Heap} (hp : h <+: h1) {this : Ref} {memory : MemoryMap}
    (hs : h.store this = some memory) : h1.store this = some memory := by
  obtain ⟨pairs, h1p, h2p⟩ := Heap.store_eq_some hs
  unfold Heap.store
  rw [Heap.mapAt_of_extends hp h1p]
  exact (Heap.Preserved.of_extends hp).entries _ h2p

theorem getRelevantContextH_spec (h : Heap) (this : Ref) (currentInput currentPersona : String)
    {memory : MemoryMap} (hs : h.store this = some memory) :
    (getRelevantContextH h this currentInput currentPersona).2.relevantContext
        (getRelevantContextH h this currentInput currentPersona).1 =
      some (getRelevantContext memory currentInput currentPersona) := by
  obtain ⟨pairs, hmap, hentries⟩ := Heap.store_eq_some hs
  -- the array `relevantMemories`
  have hpre0 : h <+: (h.alloc (.objects [])).2 := Heap.prefix_alloc _ (List.prefix_refl h)
  have hmap0 := Heap.mapAt_of_extends hpre0 hmap
  have hentries0 := (Heap.Preserved.of_extends hpre0).entries _ hentries
  have hitems0 : (h.alloc (.objects [])).2.objectsAt (h.alloc (.objects [])).1 = some [] := by
    unfold Heap.objectsAt
    rw [Heap.getElem?_alloc]
  -- the loop
  obtain ⟨items1, hitems1, hvalues1, -⟩ := foldl_scoreEntry_spec (extractContext currentInput)
    (extractTopics currentInput) (analyzeSentiment currentInput) currentPersona
    (h.alloc (.objects [])).1 pairs (h.alloc (.objects [])).2 hentries0 hitems0 rfl
  rw [List.nil_append] at hvalues1
  have hscored : (memory.filterMap fun p =>
      if relevanceScore (extractContext currentInput) (extractTopics currentInput)
          (analyzeSentiment currentInput) currentPersona p.2 > F64.lit 3 10 then
        some (⟨p.2, relevanceScore (extractContext currentInput) (extractTopics currentInput)
          (analyzeSentiment currentInput) currentPersona p.2⟩ : ScoredMemory)
      else none) = scoredAboveThreshold memory currentInput currentPersona := rfl
  rw [hscored] at hvalues1
  -- the sort
  have hsorted := Heap.scoredList_jsSort _ hvalues1
  have hkeep2 := Heap.Preserved.update_objects _ _
    (jsSort (compareRelevanceAt (pairs.foldl (scoreEntry (extractContext currentInput)
      (extractTopics currentInput) (analyzeSentiment currentInput) currentPersona
      (h.alloc (.objects [])).1) (h.alloc (.objects [])).2)) items1) hitems1
  have hitems2 := Heap.objectsAt_update _ _
    (jsSort (compareRelevanceAt (pairs.foldl (scoreEntry (extractContext currentInput)
      (extractTopics currentInput) (analyzeSentiment currentInput) currentPersona
      (h.alloc (.objects [])).1) (h.alloc (.objects [])).2)) items1) hitems1
  have hvalues2 := hkeep2.scoredList _ hsorted
  unfold getRelevantContextH
  simp only [hmap0, Option.getD_some, hitems1, hitems2]
  -- the slice
  generalize hh2 : (pairs.foldl (scoreEntry (extractContext currentInput)
      (extractTopics currentInput) (analyzeSentiment currentInput) currentPersona
      (h.alloc (.objects [])).1) (h.alloc (.objects [])).2).update (h.alloc (.objects [])).1
      (.objects (jsSort (compareRelevanceAt (pairs.foldl (scoreEntry
        (extractContext currentInput) (extractTopics currentInput)
        (analyzeSentiment currentInput) currentPersona (h.alloc (.objects [])).1)
        (h.alloc (.objects [])).2)) items1)) = h2 at hitems2 hvalues2 ⊢
  generalize hsi : jsSort (compareRelevanceAt (pairs.foldl (scoreEntry
        (extractContext currentInput) (extractTopics currentInput)
        (analyzeSentiment currentInput) currentPersona (h.alloc (.objects [])).1)
        (h.alloc (.objects [])).2)) items1 = sortedItems at hitems2 hvalues2 ⊢
  generalize hrel : (h.alloc (.objects [])).1 = rel at hitems2 ⊢
  have hpre3 : h2 <+: (h2.alloc (.objects (sortedItems.take 5))).2 :=
    Heap.prefix_alloc _ (List.prefix_refl h2)
  have hitems3 := Heap.objectsAt_of_extends hpre3 hitems2
  have hvalues3 := (Heap.Preserved.of_extends hpre3).scoredList _ hvalues2
  have hpre4 : (h2.alloc (.objects (sortedItems.take 5))).2 <+:
      (generateContextSummaryH (h2.alloc (.objects (sortedItems.take 5))).2 rel).2 :=
    generateContextSummaryH_extends _ (List.prefix_refl _)
  have hitems4 := Heap.objectsAt_of_extends hpre4 hitems3
  have hvalues4 := (Heap.Preserved.of_extends hpre4).scoredList _ hvalues3
  have hpre5 : (generateContextSummaryH (h2.alloc (.objects (sortedItems.take 5))).2 rel).2 <+:
      (generateSuggestionsH (generateContextSummaryH
        (h2.alloc (.objects (sortedItems.take 5))).2 rel).2 currentInput rel).2 :=
    generateSuggestionsH_extends _ _ (List.prefix_refl _)
  have htop : (generateSuggestionsH (generateContextSummaryH
      (h2.alloc (.objects (sortedItems.take 5))).2 rel).2 currentInput rel).2.objectsAt
      (h2.alloc (.objects (sortedItems.take 5))).1 = some (sortedItems.take 5) := by
    apply Heap.objectsAt_of_extends (hpre4.trans hpre5)
    unfold Heap.objectsAt
    rw [Heap.getElem?_alloc]
  have htopv := (Heap.Preserved.of_extends (hpre3.trans (hpre4.trans hpre5))).scoredList _
    (Heap.scoredList_take h2 5 hvalues2)
  unfold Heap.relevantContext
  simp only [htop, Option.some_bind, htopv,
    generateSuggestionsH_spec _ currentInput rel hitems4 hvalues4,
    generateContextSummaryH_spec _ rel hitems3 hvalues3]
  rfl

theorem Heap.entries_length (h : Heap) (pairs : List (String × Ref)) {memory : MemoryMap}
    (hv : h.entries pairs = some memory) : pairs.length = memory.length := by
  induction pairs generalizing memory with
  | nil =>
    cases hv
    rfl
  | cons q rest ih =>
    unfold Heap.entries at hv
    split at hv
    · rename_i value tail hm ht
      cases hv
      rw [List.length_cons, List.length_cons, ih ht]
    · cases hv

theorem Heap.filterMap_memoryAt (h : Heap) (pairs : List (String × Ref)) {memory : MemoryMap}
    (hv : h.entries pairs = some memory) :
    (pairs.filterMap fun p => h.memoryAt p.2) = memory.map Prod.snd := by
  induction pairs generalizing memory with
  | nil =>
    cases hv
    rfl
  | cons q rest ih =>
    unfold Heap.entries at hv
    split at hv
    · rename_i value tail hm ht
      cases hv
      rw [List.filterMap_cons, hm, ih ht]
      rfl
    · cases hv

theorem getMemoryStatsH_spec (h : Heap) (this : Ref) {memory : MemoryMap}
    (hs : h.store this = some memory) :
    (getMemoryStatsH h this).1 = getMemoryStats memory := by
  obtain ⟨pairs, hmap, hentries⟩ := Heap.store_eq_some hs
  have hlen := Heap.entries_length h pairs hentries
  have hfm := Heap.filterMap_memoryAt h pairs hentries
  unfold getMemoryStatsH getMemoryStats
  simp only [hmap, Option.getD_some, hfm, hlen]
  generalize (memory.map Prod.snd).map (fun m => m.context.domain) = ds
  generalize (memory.map Prod.snd).map (fun m => m.persona) = ps
  have hd : ((h.alloc (.domains ds)).2.alloc (.strings ps)).2[(h.alloc (.domains ds)).1]? =
      some (.domains ds) :=
    Heap.getElem?_of_extends (Heap.prefix_alloc _ (List.prefix_refl _)) (Heap.getElem?_alloc h _)
  have hne : ((h.alloc (.domains ds)).2.alloc (.strings ps)).1 ≠ (h.alloc (.domains ds)).1 := by
    unfold Heap.alloc
    simp
  have hp : (popMostFrequent Heap.domainsAt JsObject.domains
      ((h.alloc (.domains ds)).2.alloc (.strings ps)).2 (h.alloc (.domains ds)).1).2[
        ((h.alloc (.domains ds)).2.alloc (.strings ps)).1]? = some (.strings ps) := by
    rw [popMostFrequent_getElem?_ne _ _ _ hne]
    exact Heap.getElem?_alloc _ _
  rw [popMostFrequent_domains _ _ _ hd, popMostFrequent_strings _ _ _ hp]

theorem Heap.entries_append (h : Heap) (pairs : List (String × Ref)) (p : String × Ref)
    {memory : MemoryMap} {value : MemoryEntry} (hv : h.entries pairs = some memory)
    (hp : h.memoryAt p.2 = some value) :
    h.entries (pairs ++ [p]) = some (memory ++ [(p.1, value)]) := by
  induction pairs generalizing memory with
  | nil =>
    cases hv
    simp [Heap.entries, hp]
  | cons q rest ih =>
    unfold Heap.entries at hv
    split at hv
    · rename_i x tail hx ht
      cases hv
      rw [List.cons_append, Heap.entries, hx, ih ht]
      rfl
    · cases hv

theorem getElem?_append_three {α : Type} (l : List α) (a b c : α) :
    (l ++ [a, b, c])[l.length]? = some a ∧ (l ++ [a, b, c])[l.length + 1]? = some b ∧
      (l ++ [a, b, c])[l.length + 2]? = some c := by
  refine ⟨?_, ?_, ?_⟩
  · rw [List.getElem?_append_right (Nat.le_refl _), Nat.sub_self]
    rfl
  · rw [List.getElem?_append_right (Nat.le_add_right _ _), Nat.add_sub_cancel_left]
    rfl
  · rw [List.getElem?_append_right (Nat.le_add_right _ _), Nat.add_sub_cancel_left]
    rfl

theorem Heap.place_spec (state : Heap × List (String × Ref)) (p : String × MemoryEntry)
    {done : MemoryMap} (hv : state.1.entries state.2 = some done) :
    (Heap.place state p).1.entries (Heap.place state p).2 = some (done ++ [p]) := by
  have hpre : state.1 <+: (Heap.place state p).1 :=
    Heap.prefix_alloc _ (Heap.prefix_alloc _ (Heap.prefix_alloc _ (List.prefix_refl _)))
  have hnew : (Heap.place state p).1.memoryAt (state.1.length + 2) = some p.2 := by
    cases p with
    | mk key value =>
      cases value
      rename_i id timestamp persona model userInput aiResponse context sentiment topics
        quality
      have g := getElem?_append_three state.1 (JsObject.context context)
        (JsObject.strings topics) (JsObject.entry
          { id := id, timestamp := timestamp, persona := persona, model := model,
            userInput := userInput, aiResponse := aiResponse, context := state.1.length,
            sentiment := sentiment, topics := state.1.length + 1, quality := quality,
            relevanceScore := none })
      simp [Heap.place, Heap.memoryAt, Heap.entryAt, Heap.entryValue, Heap.contextAt,
        Heap.stringsAt, Heap.alloc, g.1, g.2.1, g.2.2]
  have hpairs : (Heap.place state p).2 = state.2 ++ [(p.1, state.1.length + 2)] := by
    simp [Heap.place, Heap.alloc]
  rw [hpairs]
  exact Heap.entries_append _ _ (p.1, state.1.length + 2)
    ((Heap.Preserved.of_extends hpre).entries _ hv) hnew

theorem Heap.ofStore_fill (memory : MemoryMap) (state : Heap × List (String × Ref))
    {done : MemoryMap} (hv : state.1.entries state.2 = some done) :
    (memory.foldl Heap.place state).1.entries (memory.foldl Heap.place state).2 =
      some (done ++ memory) := by
  induction memory generalizing state done with
  | nil => simpa using hv
  | cons p rest ih =>
    rw [List.foldl_cons, ih (Heap.place state p) (Heap.place_spec state p hv),
      List.append_assoc]
    rfl

theorem Heap.ofStore_store (memory : MemoryMap) :
    (Heap.ofStore memory).1.store (Heap.ofStore memory).2 = some memory := by
  have hfill : (memory.foldl Heap.place ([], [])).1.entries
      (memory.foldl Heap.place ([], [])).2 = some ([] ++ memory) :=
    Heap.ofStore_fill memory ([], []) rfl
  rw [List.nil_append] at hfill
  unfold Heap.ofStore
  simp only
  unfold Heap.store Heap.mapAt
  rw [Heap.getElem?_alloc]
  simp only
  exact (Heap.Preserved.of_extends (Heap.prefix_alloc _ (List.prefix_refl _))).entries _ hfill

/-- C24. Reading does not write.  On a heap whose `Map` holds the store `memory`, the
call `getRelevantContext(currentInput, currentPersona)` and the call `getMemoryStats()`
leave every object that existed before the call as it was: the heap after the call is
the heap before it followed by the objects the call has created.  So the `Map` holds the
same keys in the same order with the same entries, none of which has a `relevanceScore`;
and the two calls return what the methods on values return. -/
theorem reads_do_not_write (h : Heap) (this : Ref) (memory : MemoryMap)
    (currentInput currentPersona : String) (hs : h.store this = some memory) :
    (h <+: (getRelevantContextH h this currentInput currentPersona).2 ∧
      (getRelevantContextH h this currentInput currentPersona).2.store this = some memory ∧
      (getRelevantContextH h this currentInput currentPersona).2.relevantContext
          (getRelevantContextH h this currentInput currentPersona).1 =
        some (getRelevantContext memory currentInput currentPersona)) ∧
    (h <+: (getMemoryStatsH h this).2 ∧
      (getMemoryStatsH h this).2.store this = some memory ∧
      (getMemoryStatsH h this).1 = getMemoryStats memory) ∧
    ∀ p ∈ (h.mapAt this).getD [], ∀ e, h.entryAt p.2 = some e →
      e.relevanceScore = none ∧
      (getRelevantContextH h this currentInput currentPersona).2.entryAt p.2 = some e ∧
      (getMemoryStatsH h this).2.entryAt p.2 = some e := by
  have h1 := getRelevantContextH_extends h this currentInput currentPersona
  have h2 := getMemoryStatsH_extends h this
  refine ⟨⟨h1, Heap.store_of_extends h1 hs, getRelevantContextH_spec h this _ _ hs⟩,
    ⟨h2, Heap.store_of_extends h2 hs, getMemoryStatsH_spec h this hs⟩, ?_⟩
  intro p hp e he
  refine ⟨?_, ((Heap.Preserved.of_extends h1) p.2).1 e he,
    ((Heap.Preserved.of_extends h2) p.2).1 e he⟩
  obtain ⟨pairs, hmap, hentries⟩ := Heap.store_eq_some hs
  rw [hmap, Option.getD_some] at hp
  have hall : ∀ (pairs : List (String × Ref)) (memory : MemoryMap),
      h.entries pairs = some memory → ∀ p ∈ pairs, ∃ value, h.memoryAt p.2 = some value := by
    intro pairs
    induction pairs with
    | nil => intro _ _ p hp; cases hp
    | cons q rest ih =>
      intro memory hv p hp
      unfold Heap.entries at hv
      split at hv
      · rename_i value tail hm ht
        rcases List.mem_cons.mp hp with rfl | hp
        · exact ⟨value, hm⟩
        · exact ih tail ht p hp
      · cases hv
  obtain ⟨value, hvalue⟩ := hall pairs memory hentries p hp
  obtain ⟨e1, he1, hnone, -⟩ := Heap.memoryAt_eq_some hvalue
  rw [he] at he1
  cases he1
  exact hnone

/-- Witness of C24: the heap that holds `cyclicStore`. -/
theorem reads_do_not_write_witness :
    (Heap.ofStore cyclicStore).1.store (Heap.ofStore cyclicStore).2 = some cyclicStore ∧
    (Heap.ofStore cyclicStore).1 <+:
      (getRelevantContextH (Heap.ofStore cyclicStore).1 (Heap.ofStore cyclicStore).2 "is it?"
        "logician").2 ∧
    (getRelevantContextH (Heap.ofStore cyclicStore).1 (Heap.ofStore cyclicStore).2 "is it?"
        "logician").2.store (Heap.ofStore cyclicStore).2 = some cyclicStore ∧
    (getMemoryStatsH (Heap.ofStore cyclicStore).1 (Heap.ofStore cyclicStore).2).1 =
      getMemoryStats cyclicStore :=
  ⟨Heap.ofStore_store cyclicStore,
    (reads_do_not_write _ _ cyclicStore "is it?" "logician"
      (Heap.ofStore_store cyclicStore)).1.1,
    (reads_do_not_write _ _ cyclicStore "is it?" "logician"
      (Heap.ofStore_store cyclicStore)).1.2.1,
    (reads_do_not_write _ _ cyclicStore "is it?" "logician"
      (Heap.ofStore_store cyclicStore)).2.1.2.2⟩

end ConversationMemory
